import Mathlib

/-!
# Scope / location-list consistency checker: embedding and verification

A shallow embedding of `main.go`: the line-table rows, the two filters
(`filterInsideRanges`, `filterAfterLine`), the location-list range decoder
(`loclistRangesAtOffset`), the per-variable check `dovar` with its merge walk,
the lexical-block walk of `dofunc` and the compile-unit loop of `main`.

Conventions of the embedding:

* `uint64` values are naturals; where the source adds two of them the sum is
  reduced modulo `2 ^ 64`.
* Go slices are lists; a cursor `i` over a slice is a natural number index.
* `fmt.Printf` appends one string per call to an output list; `os.Exit` and
  `panic` end the run with an `Outcome`.
* The debug-format access layer (`debug/dwarf`, delve's `loclist`) is external
  to the repository.  Its record stream, line table and location lists are
  modelled as already decoded data.  `rdr.Next()` has no decoding error; a line
  table is the rows that decode, followed by the end of the table or by a
  decoding error, which `lrdr.Next()` then reports on every later call;
  `dw.Ranges` and `dw.LineReader` are functions carried by `Data` and may fail,
  which is the panic of `must`.
* A pointer is an `Option`: `none` is nil, and a field access through nil is a
  panic with the text of the runtime error.
* Two counters that are not in the source are carried along to state counting
  properties: `Diff.matched` and `MainState.calls`.
-/

namespace LoclistCheck

/-! ## Data model -/

/-- The fields of `dwarf.LineEntry` the program reads.  `File` is the pointer
`*dwarf.LineFile`: `none` is nil, `some name` points to a file record whose `Name`
is `name` (the program reads no other field of the record). -/
structure LineEntry where
  Address : Nat
  File : Option String
  Line : Int
  IsStmt : Bool
  EndSequence : Bool
deriving DecidableEq, Repr

/-- The zero value of `dwarf.LineEntry` (`var lne dwarf.LineEntry`). -/
def LineEntry.zero : LineEntry := ⟨0, none, 0, false, false⟩

/-- The dynamic types an attribute value (`interface{}`) can take. -/
inductive AttrVal where
  | str (s : String)
  | uint64 (n : Nat)
  | int64 (i : Int)
  | bytes (b : List Nat)
  | flag (b : Bool)
deriving DecidableEq, Repr

/-- One `dwarf.Field`: attribute code and value. -/
structure Field where
  Attr : Nat
  Val : AttrVal
deriving DecidableEq, Repr

/-- One `dwarf.Entry`.  The end-of-children marker is the entry with `Tag = 0`. -/
structure Entry where
  Tag : Nat
  Children : Bool
  Field : List Field
deriving DecidableEq, Repr

/-- `dwarf.TagCompileUnit`. -/
def TagCompileUnit : Nat := 0x11
/-- `dwarf.TagSubprogram`. -/
def TagSubprogram : Nat := 0x2E
/-- `dwarf.TagLexDwarfBlock`. -/
def TagLexDwarfBlock : Nat := 0x0B
/-- `dwarf.TagVariable`. -/
def TagVariable : Nat := 0x34
/-- `dwarf.TagFormalParameter`. -/
def TagFormalParameter : Nat := 0x05

/-- `dwarf.AttrLocation`. -/
def AttrLocation : Nat := 0x02
/-- `dwarf.AttrName`. -/
def AttrName : Nat := 0x03
/-- `dwarf.AttrLowpc`. -/
def AttrLowpc : Nat := 0x11
/-- `dwarf.AttrHighpc`. -/
def AttrHighpc : Nat := 0x12
/-- `dwarf.AttrProducer`. -/
def AttrProducer : Nat := 0x25
/-- `dwarf.AttrDeclLine`. -/
def AttrDeclLine : Nat := 0x3B

/-- `e.Val(a)`: the value of the first field with attribute `a`, `none` for the
nil interface. -/
def Entry.Val (e : Entry) (a : Nat) : Option AttrVal :=
  (e.Field.find? (fun f => f.Attr == a)).map (fun f => f.Val)

/-- `e.Val(dwarf.AttrName).(string)` with the failure of the assertion ignored
(`name, _ := ...`): the name, or the empty string. -/
def Entry.name (e : Entry) : String :=
  match e.Val AttrName with
  | some (AttrVal.str s) => s
  | _ => ""

/-- How a call ends: it returns, the process exits (`os.Exit`), or it panics. -/
inductive Outcome where
  | returned
  | exited (code : Nat)
  | panicked (msg : String)
deriving DecidableEq, Repr

/-- The compile-time constant `trace`. -/
def trace : Bool := false

/-- The text of the runtime panic of a field access or method call through a
nil pointer. -/
def nilDereference : String := "runtime error: invalid memory address or nil pointer dereference"

/-! ## The two filters -/

/-- `rangesContains`: is `addr` inside one of the half-open pairs? -/
def rangesContains : List (Nat × Nat) → Nat → Bool
  | [], _ => false
  | rng :: rngs, addr =>
    if addr ≥ rng.1 ∧ addr < rng.2 then true else rangesContains rngs addr

/-- `filterInsideRanges`: the rows whose address is inside one of the ranges,
appended in the order they are met. -/
def filterInsideRanges : List LineEntry → List (Nat × Nat) → List LineEntry
  | [], _ => []
  | stmt :: stmts, rngs =>
    if rangesContains rngs stmt.Address then stmt :: filterInsideRanges stmts rngs
    else filterInsideRanges stmts rngs

/-- `filterAfterLine`: the rows whose line is strictly greater than `declLine`. -/
def filterAfterLine : List LineEntry → Int → List LineEntry
  | [], _ => []
  | stmt :: stmts, declLine =>
    if stmt.Line > declLine then stmt :: filterAfterLine stmts declLine
    else filterAfterLine stmts declLine

/-! ## Location lists -/

/-- One decoded entry of delve's `loclist.Entry` (the instruction bytes are
not read by the program). -/
structure LoclistEntry where
  LowPC : Nat
  HighPC : Nat
deriving DecidableEq, Repr

/-- `Entry.BaseAddressSelection` for 8-byte pointers: the low address is the
all-ones word. -/
def LoclistEntry.BaseAddressSelection (e : LoclistEntry) : Bool :=
  e.LowPC == 2 ^ 64 - 1

/-- The location-list reader after `Seek(off)`: the entries that successive calls
of `Next` deliver before it returns false. -/
abbrev LoclistReader := Int → List LoclistEntry

/-- The loop of `loclistRangesAtOffset` over the entries delivered by `Next`,
with the running `base` and the result slice `r`. -/
def loclistLoop (base : Nat) (r : List (Nat × Nat)) : List LoclistEntry → List (Nat × Nat)
  | [] => r
  | e :: es =>
    if e.BaseAddressSelection then loclistLoop e.HighPC r es
    else loclistLoop base (r ++ [((e.LowPC + base) % 2 ^ 64, (e.HighPC + base) % 2 ^ 64)]) es

/-- `loclistRangesAtOffset`. -/
def loclistRangesAtOffset (cubase : Nat) (ll : LoclistReader) (off : Int) : List (Nat × Nat) :=
  loclistLoop cubase [] (ll off)

/-! ## Sorting by address -/

/-- `stmtsByAddress.Less` on two rows. -/
def stmtsByAddressLess (a b : LineEntry) : Bool := a.Address < b.Address

/-- `sort.Sort(stmtsByAddress(v))`: the rows in non-decreasing address order.
Modelled as an insertion sort on `Less`, in which rows of equal address keep their
relative order; the library's sort is not stable and leaves that order
unspecified, so a statement about rows of equal address may rely only on the
result being a sorted permutation of `v`. -/
def sortByAddress (v : List LineEntry) : List LineEntry :=
  v.insertionSort (fun a b => ¬ stmtsByAddressLess b a)

/-! ## The merge walk of `dovar` -/

/-- The local variables of the merge walk: the cursors `i`, `j`, the two result
slices, and a count of the steps that advanced both cursors (the count is not in
the source; it is kept to state the counting property). -/
structure Diff where
  i : Nat
  j : Nat
  missing : List LineEntry
  excess : List LineEntry
  matched : Nat
deriving DecidableEq, Repr

/-- The first `for` loop of the walk (it stops as soon as one cursor is at the
end of its slice). -/
def mergeLoop (A B : List LineEntry) (d : Diff) : Diff :=
  if h1 : d.i ≥ A.length then d
  else if h2 : d.j ≥ B.length then d
  else
    let a := A.get ⟨d.i, by omega⟩
    let b := B.get ⟨d.j, by omega⟩
    if a.Address = b.Address then
      mergeLoop A B { d with i := d.i + 1, j := d.j + 1, matched := d.matched + 1 }
    else if a.Address < b.Address then
      mergeLoop A B { d with missing := d.missing ++ [a], i := d.i + 1 }
    else
      mergeLoop A B { d with excess := d.excess ++ [b], j := d.j + 1 }
termination_by (A.length - d.i) + (B.length - d.j)

/-- The second loop: the unconsumed tail of `A` goes to `missing`. -/
def missingTail (A : List LineEntry) (d : Diff) : Diff :=
  if h : d.i < A.length then
    missingTail A { d with missing := d.missing ++ [A.get ⟨d.i, h⟩], i := d.i + 1 }
  else d
termination_by A.length - d.i

/-- The third loop: the unconsumed tail of `B` goes to `excess`. -/
def excessTail (B : List LineEntry) (d : Diff) : Diff :=
  if h : d.j < B.length then
    excessTail B { d with excess := d.excess ++ [B.get ⟨d.j, h⟩], j := d.j + 1 }
  else d
termination_by B.length - d.j

/-- The whole merge walk of `dovar` on the sorted slices `A` (scope-derived)
and `B` (location-derived), from `i, j := 0, 0` and empty result slices. -/
def mergeWalk (A B : List LineEntry) : Diff :=
  excessTail B (missingTail A (mergeLoop A B ⟨0, 0, [], [], 0⟩))

/-! ## `dovar` -/

/-- What a call of `dovar` does to the outside: the strings printed, in
order, and how the call ends. -/
structure DovarResult where
  out : List String
  outcome : Outcome
deriving DecidableEq, Repr

/-- Go's `%#x` of an unsigned integer. -/
def fmtHex (n : Nat) : String := "0x" ++ String.mk (Nat.toDigits 16 n)

/-- The header line of a missing report. -/
def missingHeader (fnname varname : String) : String :=
  "Function " ++ fnname ++ ", variable " ++ varname ++ " missing in statements:\n"

/-- The line printed for one missing row; `none` when `miss.File` is nil, where
the evaluation of `miss.File.Name` panics before anything is printed. -/
def missingLine (miss : LineEntry) : Option String :=
  match miss.File with
  | none => none
  | some name => some ("\t" ++ name ++ ":" ++ toString miss.Line ++ " at " ++ fmtHex miss.Address ++ "\n")

/-- The loop `for _, miss := range missing`: one line per row added to the
output `out`, up to the first row whose `File` is nil, where the run panics. -/
def missingLoop : List LineEntry → List String → List String × Option Outcome
  | [], out => (out, none)
  | miss :: rest, out =>
    match missingLine miss with
    | none => (out, some (Outcome.panicked nilDereference))
    | some line => missingLoop rest (out ++ [line])

/-- The line printed before the exit. -/
def excessLine (excess : List LineEntry) : String :=
  "\tEXCESS " ++ toString excess.length ++ "\n"

/-- The reporting tail of `dovar` (from `if len(missing) > 0` on). -/
def report (fnname varname : String) (missing excess : List LineEntry) : DovarResult :=
  let r : List String × Option Outcome :=
    if missing.length > 0 then
      match missingLoop missing (if !trace then [missingHeader fnname varname] else []) with
      | (out, none) => (out ++ ["\n"], none)
      | (out, some o) => (out, some o)
    else ([], none)
  match r with
  | (out, some o) => ⟨out, o⟩
  | (out, none) =>
    if excess.length > 0 then ⟨out ++ [excessLine excess], Outcome.exited 1⟩
    else ⟨out, Outcome.returned⟩

/-- The scope-derived set of `dovar`, after the sort. -/
def stmtsFromLexicalBlock (stmts : List LineEntry) (declLine : Int) : List LineEntry :=
  sortByAddress (filterAfterLine stmts declLine)

/-- The location-derived set of `dovar`, after the sort. -/
def stmtsFromLoclist (stmts : List LineEntry) (llrngs : List (Nat × Nat)) (declLine : Int) :
    List LineEntry :=
  sortByAddress (filterAfterLine (filterInsideRanges stmts llrngs) declLine)

/-- The state of the merge walk of `dovar` for a variable declared at `declLine`
whose location list decodes to `llrngs`. -/
def dovarDiff (stmts : List LineEntry) (llrngs : List (Nat × Nat)) (declLine : Int) : Diff :=
  mergeWalk (stmtsFromLexicalBlock stmts declLine) (stmtsFromLoclist stmts llrngs declLine)

/-- `dovar`. -/
def dovar (fnname : String) (stmts : List LineEntry) (e : Entry) (ll : LoclistReader)
    (cubase : Nat) : DovarResult :=
  let varname := e.name
  match e.Val AttrLocation with
  | some (AttrVal.bytes _) => ⟨[], Outcome.returned⟩
  | some (AttrVal.int64 loclistOff) =>
    match e.Val AttrDeclLine with
    | some (AttrVal.int64 declLine) =>
      let out0 := if trace then ["\tvariable " ++ varname ++ "\n"] else []
      let llrngs := loclistRangesAtOffset cubase ll loclistOff
      let d := dovarDiff stmts llrngs declLine
      let r := report fnname varname d.missing d.excess
      ⟨out0 ++ r.out, r.outcome⟩
    | _ => ⟨[], Outcome.returned⟩
  | _ => ⟨[], Outcome.panicked "unknown loclist type"⟩

/-! ## The record stream (`dwarf.Reader`) -/

/-- The state of the `dwarf.Reader`: the records not yet delivered, in document
order (a record with children is followed by them and by an end-of-children
marker), and whether the record last delivered has children. -/
structure Reader where
  data : List Entry
  lastChildren : Bool
deriving DecidableEq, Repr

/-- `rdr.Next()`: the next record, or `none` (nil) at the end of the data. -/
def Reader.Next (r : Reader) : Option Entry × Reader :=
  match r.data with
  | [] => (none, r)
  | e :: rest => (some e, ⟨rest, e.Children⟩)

/-- The loop of `rdr.SkipChildren()`: read records up to the end-of-children
marker that closes the current level; `depth` counts the nested levels the
library enters by calling itself, `last` is the flag left by the last read. -/
def skipLoop : Nat → Bool → List Entry → Reader
  | _, last, [] => ⟨[], last⟩
  | depth, _, e :: rest =>
    if e.Tag = 0 then
      match depth with
      | 0 => ⟨rest, e.Children⟩
      | d + 1 => skipLoop d e.Children rest
    else if e.Children then skipLoop (depth + 1) true rest
    else skipLoop depth false rest

/-- `rdr.SkipChildren()`: nothing when the last record has no children.  The
library's two shortcuts (a sibling attribute, the start of the next unit) are not
modelled: on a well-nested stream they lead to the same record as the loop. -/
def Reader.SkipChildren (r : Reader) : Reader :=
  if !r.lastChildren then r else skipLoop 0 r.lastChildren r.data

/-! ## The line table (`dwarf.LineReader`) -/

/-- The errors of the line reader: the two the program tells apart, and the
decoding error of a malformed line table, with its text. -/
inductive LineErr where
  | EOF
  | ErrUnknownPC
  | DecodeError (msg : String)
deriving DecidableEq, Repr

/-- The text of an error, as `panic(err)` shows it. -/
def LineErr.msg : LineErr → String
  | LineErr.EOF => "EOF"
  | LineErr.ErrUnknownPC => "ErrUnknownPC"
  | LineErr.DecodeError msg => msg

/-- The state of a `dwarf.LineReader`.  The unit's line table is the rows that
decode, in table order (`rows`), followed by the end of the table (`bad = none`)
or by an instruction that does not decode (`bad = some msg`); `pos` is the cursor
and `err` the error the reader has met so far (the library keeps it: once set,
every later call reports it, also after `Reset`). -/
structure LineReader where
  rows : List LineEntry
  pos : Nat
  bad : Option String
  err : Option String
deriving DecidableEq, Repr

/-- What a call on the line reader leaves: the error (if any), the reader
and the row variable. -/
structure LineCall where
  err : Option LineErr
  lrdr : LineReader
  entry : LineEntry
deriving DecidableEq, Repr

/-- `lrdr.Next(&entry)`: the error met earlier, if any; else the row under the
cursor; else, after the last row, the decoding error of a malformed table (which
the reader keeps) or `io.EOF`.  On an error the row variable is left as it is
(the program does not read it after a decoding error). -/
def LineReader.Next (r : LineReader) (entry : LineEntry) : LineCall :=
  match r.err with
  | some msg => ⟨some (LineErr.DecodeError msg), r, entry⟩
  | none =>
    if h : r.pos < r.rows.length then ⟨none, { r with pos := r.pos + 1 }, r.rows.get ⟨r.pos, h⟩⟩
    else
      match r.bad with
      | some msg => ⟨some (LineErr.DecodeError msg), { r with err := some msg }, entry⟩
      | none => ⟨some LineErr.EOF, r, entry⟩

/-- `lrdr.Reset()`: the cursor goes back to the start of the table; an error
met earlier stays. -/
def LineReader.Reset (r : LineReader) : LineReader := { r with pos := 0 }

set_option linter.unusedVariables false in
/-- The forward scan of `SeekPC`: read the next row into a fresh variable;
`io.EOF` becomes `ErrUnknownPC` and any other error is returned; when the row
read is past `pc` the scan ends (`ErrUnknownPC` when the current row ends a
sequence, else success with the cursor put back before the row read);
otherwise the row read becomes the current row. -/
def seekLoop (r : LineReader) (pc : Nat) (entry : LineEntry) : LineCall :=
  match h : (r.Next LineEntry.zero).err with
  | some LineErr.EOF => ⟨some LineErr.ErrUnknownPC, (r.Next LineEntry.zero).lrdr, entry⟩
  | some err => ⟨some err, (r.Next LineEntry.zero).lrdr, entry⟩
  | none =>
    if (r.Next LineEntry.zero).entry.Address > pc then
      if entry.EndSequence then ⟨some LineErr.ErrUnknownPC, (r.Next LineEntry.zero).lrdr, entry⟩
      else ⟨none, r, entry⟩
    else seekLoop (r.Next LineEntry.zero).lrdr pc (r.Next LineEntry.zero).entry
termination_by r.rows.length - r.pos
decreasing_by
  unfold LineReader.Next at h ⊢
  split
  · next msg hm => rw [hm] at h; simp at h
  · next hm =>
    rw [hm] at h
    simp only at h
    split
    · simp only; omega
    · next hn =>
      rw [dif_neg hn] at h
      split at h <;> simp at h

/-- `lrdr.SeekPC(pc, &entry)`, after the library: read one row; when it is past
`pc` restart from the beginning of the table (`ErrUnknownPC` when the first row
of the table is past `pc` too); then scan forward. -/
def LineReader.SeekPC (r : LineReader) (pc : Nat) (entry : LineEntry) : LineCall :=
  let c1 := r.Next entry
  match c1.err with
  | some err => ⟨some err, c1.lrdr, c1.entry⟩
  | none =>
    if c1.entry.Address > pc then
      let c2 := c1.lrdr.Reset.Next c1.entry
      match c2.err with
      | some err => ⟨some err, c2.lrdr, c2.entry⟩
      | none =>
        if c2.entry.Address > pc then ⟨some LineErr.ErrUnknownPC, c2.lrdr.Reset, c2.entry⟩
        else seekLoop c2.lrdr pc c2.entry
    else seekLoop c1.lrdr pc c1.entry

/-! ## `dofunc` -/

/-- The two calls of `dwarf.Data` the program makes on a record; each may fail.
`LineReader` gives `none` for a unit without a line table (a nil reader). -/
structure Data where
  LineReader : Entry → Except String (Option LineReader)
  Ranges : Entry → Except String (List (Nat × Nat))

/-- `LexicalBlock`. -/
structure LexicalBlock where
  rngs : List (Nat × Nat)
  stmts : List LineEntry
deriving DecidableEq, Repr

/-- `makeLexicalBlock`: the block of record `e` over the sequence `stmts`; an
error of `dw.Ranges` is the panic of `must`. -/
def makeLexicalBlock (dw : Data) (e : Entry) (stmts : List LineEntry) :
    Except String LexicalBlock :=
  match dw.Ranges e with
  | Except.error msg => Except.error msg
  | Except.ok rngs => Except.ok ⟨rngs, filterInsideRanges stmts rngs⟩

/-- The local state of the child-record walk (`funcLoop`) of `dofunc`: the
reader, the block stack (top at the end of the list) and the output so far. -/
structure WalkState where
  rdr : Reader
  lexicalBlockStack : List LexicalBlock
  out : List String
deriving DecidableEq, Repr

/-- One iteration of a loop either goes on with a new state or ends the loop. -/
inductive Step (σ : Type) where
  | next (s : σ)
  | done (s : σ) (outcome : Outcome)
deriving DecidableEq, Repr

/-- The sequence a variable is resolved against (`lns`): the one of the block on
top of the stack, or the function's when the stack is empty. -/
def lns (stmts : List LineEntry) (lexicalBlockStack : List LexicalBlock) : List LineEntry :=
  match lexicalBlockStack.getLast? with
  | some b => b.stmts
  | none => stmts

/-- One iteration of `funcLoop`. -/
def funcStep (dw : Data) (name : String) (stmts : List LineEntry) (ll : LoclistReader)
    (cubase : Nat) (s : WalkState) : Step WalkState :=
  match s.rdr.Next with
  | (none, rdr) => Step.done { s with rdr := rdr } (Outcome.panicked "unexpected end")
  | (some e, rdr) =>
    if e.Tag = 0 then
      if s.lexicalBlockStack.length = 0 then Step.done { s with rdr := rdr } Outcome.returned
      else Step.next { s with rdr := rdr, lexicalBlockStack := s.lexicalBlockStack.dropLast }
    else if e.Tag = TagLexDwarfBlock then
      match makeLexicalBlock dw e stmts with
      | Except.error msg => Step.done { s with rdr := rdr } (Outcome.panicked msg)
      | Except.ok b =>
        Step.next { s with rdr := rdr, lexicalBlockStack := s.lexicalBlockStack ++ [b] }
    else if e.Tag = TagVariable ∨ e.Tag = TagFormalParameter then
      let r := dovar name (lns stmts s.lexicalBlockStack) e ll cubase
      match r.outcome with
      | Outcome.returned => Step.next { s with rdr := rdr, out := s.out ++ r.out }
      | o => Step.done { s with rdr := rdr, out := s.out ++ r.out } o
    else Step.next { s with rdr := rdr.SkipChildren }

set_option linter.unusedVariables false in
/-- `funcLoop`: the child-record walk of `dofunc`, from a state to the state
and outcome at the end of the loop.  It terminates because every iteration
that goes on has taken at least one record from the reader. -/
def funcLoop (dw : Data) (name : String) (stmts : List LineEntry) (ll : LoclistReader)
    (cubase : Nat) (s : WalkState) : WalkState × Outcome :=
  match h : funcStep dw name stmts ll cubase s with
  | Step.next s1 => funcLoop dw name stmts ll cubase s1
  | Step.done s1 outcome => (s1, outcome)
termination_by s.rdr.data.length
decreasing_by
  have hskip : ∀ (es : List Entry) (depth : Nat) (last : Bool),
      (skipLoop depth last es).data.length ≤ es.length := by
    intro es
    induction es with
    | nil => intro depth last; simp [skipLoop]
    | cons e rest ih =>
      intro depth last
      unfold skipLoop
      split
      · cases depth with
        | zero => simp
        | succ d => exact Nat.le_succ_of_le (ih d _)
      · split
        · exact Nat.le_succ_of_le (ih _ _)
        · exact Nat.le_succ_of_le (ih _ _)
  have hsc : ∀ r : Reader, r.SkipChildren.data.length ≤ r.data.length := by
    intro r
    unfold Reader.SkipChildren
    split
    · exact le_refl _
    · exact hskip _ _ _
  have hnx : ∀ (r r1 : Reader) (e : Entry), r.Next = (some e, r1) →
      r1.data.length < r.data.length := by
    intro r r1 e hr
    unfold Reader.Next at hr
    split at hr
    · simp at hr
    · next e1 rest hd =>
      simp only [Prod.mk.injEq, Option.some.injEq] at hr
      rw [← hr.2, hd]
      simp
  have hfn : ∀ (s s1 : WalkState), funcStep dw name stmts ll cubase s = Step.next s1 →
      s1.rdr.data.length < s.rdr.data.length := by
    intro s s1 h
    unfold funcStep at h
    rcases hn : s.rdr.Next with ⟨_ | e, rdr⟩
    · simp [hn] at h
    · have hlt := hnx _ _ _ hn
      rw [hn] at h
      simp only at h
      by_cases h0 : e.Tag = 0
      · rw [if_pos h0] at h
        by_cases hs : s.lexicalBlockStack.length = 0
        · rw [if_pos hs] at h; simp at h
        · rw [if_neg hs, Step.next.injEq] at h
          subst h; exact hlt
      · rw [if_neg h0] at h
        by_cases hb : e.Tag = TagLexDwarfBlock
        · rw [if_pos hb] at h
          cases hm : makeLexicalBlock dw e stmts with
          | error msg => rw [hm] at h; simp at h
          | ok b =>
            rw [hm] at h
            simp only [Step.next.injEq] at h
            subst h; exact hlt
        · rw [if_neg hb] at h
          by_cases hv : e.Tag = TagVariable ∨ e.Tag = TagFormalParameter
          · rw [if_pos hv] at h
            split at h
            · simp only [Step.next.injEq] at h
              subst h; exact hlt
            · simp at h
          · rw [if_neg hv, Step.next.injEq] at h
            subst h; exact lt_of_le_of_lt (hsc rdr) hlt
  exact hfn s s1 h

set_option linter.unusedVariables false in
/-- The statement loop of `dofunc` (`for lne.Address < highpc`): collect the
is-statement rows, stop at `highpc` or at the end of the table; any other
error of `Next` is the panic of `must`. -/
def stmtsLoop (lrdr : LineReader) (lne : LineEntry) (highpc : Nat) (stmts : List LineEntry) :
    Except String (List LineEntry × LineReader) :=
  if lne.Address < highpc then
    let stmts1 := if lne.IsStmt then stmts ++ [lne] else stmts
    match h : (lrdr.Next lne).err with
    | none => stmtsLoop (lrdr.Next lne).lrdr (lrdr.Next lne).entry highpc stmts1
    | some LineErr.EOF => Except.ok (stmts1, (lrdr.Next lne).lrdr)
    | some err => Except.error err.msg
  else Except.ok (stmts, lrdr)
termination_by lrdr.rows.length - lrdr.pos
decreasing_by
  unfold LineReader.Next at h ⊢
  split
  · next msg hm => rw [hm] at h; simp at h
  · next hm =>
    rw [hm] at h
    simp only at h
    split
    · simp only; omega
    · next hn =>
      rw [dif_neg hn] at h
      split at h <;> simp at h

/-- The seek of `dofunc`: `SeekPC(lowpc)`, and when its error is not
`ErrUnknownPC` (no error included) a `Reset` and a second `SeekPC` under `must`.
A result with `err = some _` is the panic of `must`. -/
def seekLowpc (lrdr : LineReader) (lowpc : Nat) : LineCall :=
  let c1 := lrdr.SeekPC lowpc LineEntry.zero
  if c1.err ≠ some LineErr.ErrUnknownPC then c1.lrdr.Reset.SeekPC lowpc c1.entry
  else ⟨none, c1.lrdr, c1.entry⟩

/-- What a call of `dofunc` leaves: both readers, the strings printed and how
the call ends. -/
structure FuncResult where
  rdr : Reader
  lrdr : Option LineReader
  out : List String
  outcome : Outcome
deriving DecidableEq, Repr

/-- `dofunc`. -/
def dofunc (dw : Data) (rdr : Reader) (e : Entry) (lrdr : Option LineReader)
    (ll : LoclistReader) (cubase : Nat) : FuncResult :=
  let name := e.name
  match e.Val AttrLowpc, e.Val AttrHighpc with
  | some (AttrVal.uint64 lowpc), some (AttrVal.uint64 highpc) =>
    match lrdr with
    | none => ⟨rdr, none, [], Outcome.panicked nilDereference⟩
    | some lr =>
      let c := seekLowpc lr lowpc
      match c.err with
      | some err => ⟨rdr, some c.lrdr, [], Outcome.panicked err.msg⟩
      | none =>
        match c.entry.File with
        | none => ⟨rdr, some c.lrdr, [], Outcome.panicked nilDereference⟩
        | some fileName =>
          if fileName = "<autogenerated>" then
            ⟨rdr.SkipChildren, some c.lrdr, [], Outcome.returned⟩
          else
            match stmtsLoop c.lrdr c.entry highpc [] with
            | Except.error msg => ⟨rdr, some c.lrdr, [], Outcome.panicked msg⟩
            | Except.ok (stmts, lr1) =>
              let out0 := if trace then ["dofunc " ++ name ++ "\n"] else []
              let w := funcLoop dw name stmts ll cubase ⟨rdr, [], out0⟩
              ⟨w.1.rdr, some lr1, w.1.out, w.2⟩
  | _, _ => ⟨rdr.SkipChildren, lrdr, [], Outcome.returned⟩

/-! ## `main` -/

/-- `strings.Contains(s, substr)`. -/
def stringsContains (s substr : String) : Bool :=
  s.toList.tails.any (fun t => substr.toList.isPrefixOf t)

/-- The variables of the record loop of `main`: the reader, the unit's line reader
(`none` is the nil pointer), the unit's base address, the output so far, and
the number of calls of `dofunc` made so far (the count is not in the source). -/
structure MainState where
  rdr : Reader
  lrdr : Option LineReader
  cubase : Nat
  out : List String
  calls : Nat
deriving DecidableEq, Repr

/-- One iteration of `entryLoop`, the record loop of `main`. -/
def entryStep (dw : Data) (ll : LoclistReader) (s : MainState) : Step MainState :=
  match s.rdr.Next with
  | (none, rdr) => Step.done { s with rdr := rdr } Outcome.returned
  | (some e, rdr) =>
    if e.Tag = TagCompileUnit then
      match e.Val AttrProducer with
      | some (AttrVal.str prod) =>
        if !stringsContains prod "Go" then Step.next { s with rdr := rdr.SkipChildren }
        else if !stringsContains prod "-N -l" then Step.next { s with rdr := rdr.SkipChildren }
        else
          match dw.LineReader e with
          | Except.error msg => Step.done { s with rdr := rdr } (Outcome.panicked msg)
          | Except.ok lrdr =>
            match dw.Ranges e with
            | Except.error msg =>
              Step.done { s with rdr := rdr, lrdr := lrdr } (Outcome.panicked msg)
            | Except.ok [] => Step.next { s with rdr := rdr.SkipChildren, lrdr := lrdr }
            | Except.ok (rng :: _) => Step.next { s with rdr := rdr, lrdr := lrdr, cubase := rng.1 }
      | _ => Step.next { s with rdr := rdr.SkipChildren }
    else if e.Tag = TagSubprogram then
      let r := dofunc dw rdr e s.lrdr ll s.cubase
      let s1 : MainState :=
        { s with rdr := r.rdr, lrdr := r.lrdr, out := s.out ++ r.out, calls := s.calls + 1 }
      match r.outcome with
      | Outcome.returned => Step.next s1
      | o => Step.done s1 o
    else Step.next { s with rdr := rdr.SkipChildren }

set_option linter.unusedVariables false in
/-- `entryLoop`: the record loop of `main`, from a state to the state and
outcome at the end of the loop.  It terminates because every iteration that
goes on has taken at least one record from the reader, and `dofunc` gives no
record back. -/
def entryLoop (dw : Data) (ll : LoclistReader) (s : MainState) : MainState × Outcome :=
  match h : entryStep dw ll s with
  | Step.next s1 => entryLoop dw ll s1
  | Step.done s1 outcome => (s1, outcome)
termination_by s.rdr.data.length
decreasing_by
  have hskip : ∀ (es : List Entry) (depth : Nat) (last : Bool),
      (skipLoop depth last es).data.length ≤ es.length := by
    intro es
    induction es with
    | nil => intro depth last; simp [skipLoop]
    | cons e rest ih =>
      intro depth last
      unfold skipLoop
      split
      · cases depth with
        | zero => simp
        | succ d => exact Nat.le_succ_of_le (ih d _)
      · split
        · exact Nat.le_succ_of_le (ih _ _)
        · exact Nat.le_succ_of_le (ih _ _)
  have hsc : ∀ r : Reader, r.SkipChildren.data.length ≤ r.data.length := by
    intro r
    unfold Reader.SkipChildren
    split
    · exact le_refl _
    · exact hskip _ _ _
  have hnx : ∀ (r r1 : Reader) (e : Entry), r.Next = (some e, r1) →
      r1.data.length < r.data.length := by
    intro r r1 e hr
    unfold Reader.Next at hr
    split at hr
    · simp at hr
    · next e1 rest hd =>
      simp only [Prod.mk.injEq, Option.some.injEq] at hr
      rw [← hr.2, hd]
      simp
  have hfl : ∀ (name : String) (stmts : List LineEntry) (cubase : Nat) (w : WalkState),
      (funcLoop dw name stmts ll cubase w).1.rdr.data.length ≤ w.rdr.data.length := by
    intro name stmts cubase
    have hfn : ∀ (s s1 : WalkState), funcStep dw name stmts ll cubase s = Step.next s1 →
        s1.rdr.data.length < s.rdr.data.length := by
      intro s s1 h
      unfold funcStep at h
      rcases hn : s.rdr.Next with ⟨_ | e, rdr⟩
      · simp [hn] at h
      · have hlt := hnx _ _ _ hn
        rw [hn] at h
        simp only at h
        by_cases h0 : e.Tag = 0
        · rw [if_pos h0] at h
          by_cases hs : s.lexicalBlockStack.length = 0
          · rw [if_pos hs] at h; simp at h
          · rw [if_neg hs, Step.next.injEq] at h
            subst h; exact hlt
        · rw [if_neg h0] at h
          by_cases hb : e.Tag = TagLexDwarfBlock
          · rw [if_pos hb] at h
            cases hm : makeLexicalBlock dw e stmts with
            | error msg => rw [hm] at h; simp at h
            | ok b =>
              rw [hm] at h
              simp only [Step.next.injEq] at h
              subst h; exact hlt
          · rw [if_neg hb] at h
            by_cases hv : e.Tag = TagVariable ∨ e.Tag = TagFormalParameter
            · rw [if_pos hv] at h
              split at h
              · simp only [Step.next.injEq] at h
                subst h; exact hlt
              · simp at h
            · rw [if_neg hv, Step.next.injEq] at h
              subst h; exact lt_of_le_of_lt (hsc rdr) hlt
    have hfd : ∀ (s s1 : WalkState) (o : Outcome),
        funcStep dw name stmts ll cubase s = Step.done s1 o →
        s1.rdr.data.length ≤ s.rdr.data.length := by
      intro s s1 o h
      unfold funcStep at h
      rcases hn : s.rdr.Next with ⟨_ | e, rdr⟩
      · rw [hn] at h
        simp only [Step.done.injEq] at h
        rw [← h.1]
        unfold Reader.Next at hn
        split at hn
        · simp only [Prod.mk.injEq, true_and] at hn; rw [← hn]
        · simp at hn
      · have hlt := hnx _ _ _ hn
        rw [hn] at h
        simp only at h
        have key : s1.rdr = rdr := by
          by_cases h0 : e.Tag = 0
          · rw [if_pos h0] at h
            by_cases hs : s.lexicalBlockStack.length = 0
            · rw [if_pos hs, Step.done.injEq] at h
              rw [← h.1]
            · rw [if_neg hs] at h; simp at h
          · rw [if_neg h0] at h
            by_cases hb : e.Tag = TagLexDwarfBlock
            · rw [if_pos hb] at h
              cases hm : makeLexicalBlock dw e stmts with
              | error msg =>
                rw [hm] at h
                simp only [Step.done.injEq] at h
                rw [← h.1]
              | ok b => rw [hm] at h; simp at h
            · rw [if_neg hb] at h
              by_cases hv : e.Tag = TagVariable ∨ e.Tag = TagFormalParameter
              · rw [if_pos hv] at h
                split at h
                · simp at h
                · simp only [Step.done.injEq] at h
                  rw [← h.1]
              · rw [if_neg hv] at h; simp at h
        rw [key]
        exact le_of_lt hlt
    intro w
    induction w using funcLoop.induct dw name stmts ll cubase with
    | case1 s s1 h ih =>
      rw [funcLoop]
      split
      · next s2 h2 =>
        rw [h] at h2
        simp only [Step.next.injEq] at h2
        subst h2
        exact le_trans ih (le_of_lt (hfn s s1 h))
      · next s2 o h2 => rw [h] at h2; simp at h2
    | case2 s s1 o h =>
      rw [funcLoop]
      split
      · next s2 h2 => rw [h] at h2; simp at h2
      · next s2 o2 h2 =>
        rw [h] at h2
        simp only [Step.done.injEq] at h2
        rw [← h2.1]
        exact hfd s s1 o h
  have hdf : ∀ (rdr : Reader) (e : Entry) (lrdr : Option LineReader) (cubase : Nat),
      (dofunc dw rdr e lrdr ll cubase).rdr.data.length ≤ rdr.data.length := by
    intro rdr e lrdr cubase
    unfold dofunc
    simp only
    split
    · split
      · exact le_refl _
      · split
        · exact le_refl _
        · split
          · exact le_refl _
          · split
            · exact hsc rdr
            · split
              · exact le_refl _
              · exact hfl _ _ _ _
    · exact hsc rdr
  unfold entryStep at h
  rcases hn : s.rdr.Next with ⟨_ | e, rdr⟩
  · rw [hn] at h; simp at h
  · have hlt := hnx _ _ _ hn
    have hsk := lt_of_le_of_lt (hsc rdr) hlt
    rw [hn] at h
    simp only at h
    by_cases hc : e.Tag = TagCompileUnit
    · rw [if_pos hc] at h
      split at h
      · split_ifs at h
        · simp only [Step.next.injEq] at h; subst h; exact hsk
        · simp only [Step.next.injEq] at h; subst h; exact hsk
        · split at h
          · simp at h
          · split at h
            · simp at h
            · simp only [Step.next.injEq] at h; subst h; exact hsk
            · simp only [Step.next.injEq] at h; subst h; exact hlt
      · simp only [Step.next.injEq] at h; subst h; exact hsk
    · rw [if_neg hc] at h
      by_cases hf : e.Tag = TagSubprogram
      · rw [if_pos hf] at h
        split at h
        · simp only [Step.next.injEq] at h; subst h
          exact lt_of_le_of_lt (hdf _ _ _ _) hlt
        · simp at h
      · rw [if_neg hf, Step.next.injEq] at h
        subst h; exact hsk

/-- `main`, from the decoded inputs: the record stream of the file, the access
layer `dw` and the location-list section `ll`. -/
def main (dw : Data) (ll : LoclistReader) (records : List Entry) : MainState × Outcome :=
  entryLoop dw ll ⟨⟨records, false⟩, none, 0, [], 0⟩

/-! ## Specification-side definitions and example data -/

/-- The merge walk on the unconsumed suffixes. -/
def walkLists : List LineEntry → List LineEntry → List LineEntry × List LineEntry × Nat
  | [], bs => ([], bs, 0)
  | a :: as, [] => (a :: as, [], 0)
  | a :: as, b :: bs =>
    if a.Address = b.Address then
      ((walkLists as bs).1, (walkLists as bs).2.1, (walkLists as bs).2.2 + 1)
    else if a.Address < b.Address then
      (a :: (walkLists as (b :: bs)).1, (walkLists as (b :: bs)).2.1, (walkLists as (b :: bs)).2.2)
    else
      ((walkLists (a :: as) bs).1, b :: (walkLists (a :: as) bs).2.1, (walkLists (a :: as) bs).2.2)
termination_by as bs => as.length + bs.length

/-- The three loops run from an arbitrary state. -/
def finishFrom (A B : List LineEntry) (d : Diff) : Diff :=
  excessTail B (missingTail A (mergeLoop A B d))

/-- Strictly increasing by address. -/
abbrev StrictByAddress (l : List LineEntry) : Prop :=
  l.Pairwise (fun x y => x.Address < y.Address)

/-- A statement row of the scenarios: file `f.go`, is-statement flag set. -/
def row (addr : Nat) (line : Int) : LineEntry := ⟨addr, some "f.go", line, true, false⟩

/-- The statement sequence of the scenarios: rows at `0x10, 0x20, 0x30, 0x40`,
lines `5, 6, 7, 8`. -/
def scenarioStmts : List LineEntry := [row 0x10 5, row 0x20 6, row 0x30 7, row 0x40 8]

/-- The variable record of the scenarios: `x`, declared at line 5, location list
at offset 0. -/
def scenarioVar : Entry :=
  ⟨TagVariable, false,
    [⟨AttrName, AttrVal.str "x"⟩, ⟨AttrLocation, AttrVal.int64 0⟩,
      ⟨AttrDeclLine, AttrVal.int64 5⟩]⟩

/-- A location-list section whose list at every offset is the one range
`[0x20, 0x40)`. -/
def oneRange : LoclistReader := fun _ => [⟨0x20, 0x40⟩]

/-- A location-list section whose list at every offset is the two ranges
`[0x10, 0x40)` and `[0x40, 0x50)`. -/
def twoRanges : LoclistReader := fun _ => [⟨0x10, 0x40⟩, ⟨0x40, 0x50⟩]

/-- Is the location attribute an inline expression (`[]byte`)? -/
def isInlineExpr (loc : Option AttrVal) : Bool :=
  match loc with
  | some (AttrVal.bytes _) => true
  | _ => false

/-- Is the attribute value an `int64` (a location-list offset, a decoded
declaration line)? -/
def isInt64 (v : Option AttrVal) : Bool :=
  match v with
  | some (AttrVal.int64 _) => true
  | _ => false

/-- A variable record without a location attribute or declaration line. -/
def bareVar : Entry := ⟨TagVariable, false, [⟨AttrName, AttrVal.str "x"⟩]⟩

/-- A variable record with an inline location expression. -/
def inlineVar : Entry :=
  ⟨TagVariable, false, [⟨AttrName, AttrVal.str "x"⟩, ⟨AttrLocation, AttrVal.bytes [0x9c]⟩]⟩

/-- A variable record with a list-offset location and no declaration line. -/
def noLineVar : Entry :=
  ⟨TagVariable, false, [⟨AttrName, AttrVal.str "x"⟩, ⟨AttrLocation, AttrVal.int64 0⟩]⟩

/-- The steps of the walk: `walkSteps n s` is the state after `n` iterations of
`funcLoop` from `s`, none of which ends the loop, with the records those
iterations were handed by `rdr.Next()`, in order. -/
def walkSteps (dw : Data) (name : String) (stmts : List LineEntry) (ll : LoclistReader)
    (cubase : Nat) : Nat → WalkState → Option (WalkState × List Entry)
  | 0, s => some (s, [])
  | n + 1, s =>
    match funcStep dw name stmts ll cubase s with
    | Step.next s1 =>
      match walkSteps dw name stmts ll cubase n s1 with
      | some (s2, seen) => some (s2, s.rdr.Next.1.toList ++ seen)
      | none => none
    | Step.done _ _ => none

/-- A block-open record with the given low and high PC. -/
def blockRec (lo hi : Nat) : Entry :=
  ⟨TagLexDwarfBlock, true, [⟨AttrLowpc, AttrVal.uint64 lo⟩, ⟨AttrHighpc, AttrVal.uint64 hi⟩]⟩

/-- The end-of-children marker. -/
def endMarker : Entry := ⟨0, false, []⟩

/-- An access layer for the examples: no line table, and the ranges of a record
are the single pair of its low and high PC. -/
def sampleData : Data :=
  ⟨fun _ => Except.ok none,
   fun e => match e.Val AttrLowpc, e.Val AttrHighpc with
     | some (AttrVal.uint64 lo), some (AttrVal.uint64 hi) => Except.ok [(lo, hi)]
     | _, _ => Except.ok []⟩

/-- The walk state at the start of the nested-block example: two block-open
records, the second (`[0x20,0x30)`) nested in the first (`[0x10,0x20)`). -/
def nestedStart : WalkState :=
  ⟨⟨[blockRec 0x10 0x20, blockRec 0x20 0x30, endMarker, endMarker, endMarker], true⟩, [], []⟩

/-- The state of the nested-block example after the first block-open record. -/
def nestedOuter : WalkState :=
  ⟨⟨[blockRec 0x20 0x30, endMarker, endMarker, endMarker], true⟩,
    [⟨[(0x10, 0x20)], [row 0x10 5]⟩], []⟩

/-- The state of the nested-block example after the second block-open record. -/
def nestedInner : WalkState :=
  ⟨⟨[endMarker, endMarker, endMarker], true⟩,
    [⟨[(0x10, 0x20)], [row 0x10 5]⟩, ⟨[(0x20, 0x30)], [row 0x20 6]⟩], []⟩

/-- A well-nested run of records at nesting depth `depth`: every record with
children is closed by its own end-of-children marker, and no marker closes
more than was opened. -/
def balanced : Nat → List Entry → Bool
  | depth, [] => depth == 0
  | depth, e :: rest =>
    if e.Tag = 0 then
      match depth with
      | 0 => false
      | d + 1 => balanced d rest
    else if e.Children then balanced (depth + 1) rest
    else balanced depth rest

/-- A compile-unit record of an unoptimized Go build, with children. -/
def goUnit : Entry :=
  ⟨TagCompileUnit, true,
    [⟨AttrProducer, AttrVal.str "Go cmd/compile go1.11; -N -l"⟩,
      ⟨AttrLowpc, AttrVal.uint64 0x10⟩, ⟨AttrHighpc, AttrVal.uint64 0x50⟩]⟩

/-- A compile-unit record of an optimized Go build (no `-N -l`), with children. -/
def optUnit : Entry :=
  ⟨TagCompileUnit, true,
    [⟨AttrProducer, AttrVal.str "Go cmd/compile go1.11"⟩,
      ⟨AttrLowpc, AttrVal.uint64 0x10⟩, ⟨AttrHighpc, AttrVal.uint64 0x50⟩]⟩

/-- A compile-unit record of an unoptimized Go build without address attributes. -/
def emptyUnit : Entry :=
  ⟨TagCompileUnit, true, [⟨AttrProducer, AttrVal.str "Go cmd/compile go1.11; -N -l"⟩]⟩

/-- A subprogram record `main.f` over `[0x10, 0x50)`, with children. -/
def funcRec : Entry :=
  ⟨TagSubprogram, true,
    [⟨AttrName, AttrVal.str "main.f"⟩, ⟨AttrLowpc, AttrVal.uint64 0x10⟩,
      ⟨AttrHighpc, AttrVal.uint64 0x50⟩]⟩

/-- An access layer whose line table is the scenario's statement sequence; the
ranges of a record are the single pair of its low and high PC. -/
def lineData : Data :=
  ⟨fun _ => Except.ok (some ⟨scenarioStmts, 0, none, none⟩), sampleData.Ranges⟩

/-- An access layer whose line table cannot be opened. -/
def brokenLineData : Data :=
  ⟨fun _ => Except.error "bad line table", sampleData.Ranges⟩

/-- Non-decreasing by address. -/
abbrev SortedByAddress (l : List LineEntry) : Prop :=
  l.Pairwise (fun x y => x.Address ≤ y.Address)

/-- The base in force after the entries `pre`: the address carried by the last
base-address-selection entry among them, or the compile-unit base when there is
none. -/
def baseAfter (cubase : Nat) (pre : List LoclistEntry) : Nat :=
  match pre.reverse.find? (fun e => e.BaseAddressSelection) with
  | some e => e.HighPC
  | none => cubase

/-- The range an entry `e` produces when the entries `pre` precede it: none for a
base-address selection, otherwise its two addresses plus the base in force, in
64-bit arithmetic. -/
def rangeOfEntry (cubase : Nat) (pre : List LoclistEntry) (e : LoclistEntry) :
    Option (Nat × Nat) :=
  if e.BaseAddressSelection then none
  else some ((e.LowPC + baseAfter cubase pre) % 2 ^ 64, (e.HighPC + baseAfter cubase pre) % 2 ^ 64)

/-- The ranges of the entries `es` met after the entries `pre`: for each position
`i` of `es`, in order, the range of `es[i]` with `pre ++ es[0..i)` before it. -/
def rangesAfter (cubase : Nat) (pre es : List LoclistEntry) : List (Nat × Nat) :=
  (List.range es.length).filterMap
    (fun i => (es.get? i).bind (rangeOfEntry cubase (pre ++ es.take i)))

/-- The ranges of a location list as the description states them: one range per
entry that is not a base-address selection, in entry order, with the base carried
by the nearest preceding base-address-selection entry (the compile-unit base
when there is none). -/
def describedRanges (cubase : Nat) (es : List LoclistEntry) : List (Nat × Nat) :=
  rangesAfter cubase [] es

/-- The forward scan of `SeekPC` by a reader that has met no error, over the
rows not yet read (`rest`), with the cursor position `pos` kept alongside; after
the last row, the decoding error of a malformed table (`bad`) or `ErrUnknownPC`. -/
def seekScan (rows : List LineEntry) (bad : Option String) (pc : Nat) :
    Nat → LineEntry → List LineEntry → LineCall
  | pos, entry, [] =>
    match bad with
    | some msg => ⟨some (LineErr.DecodeError msg), ⟨rows, pos, bad, some msg⟩, entry⟩
    | none => ⟨some LineErr.ErrUnknownPC, ⟨rows, pos, bad, none⟩, entry⟩
  | pos, entry, next :: rest =>
    if next.Address > pc then
      if entry.EndSequence then ⟨some LineErr.ErrUnknownPC, ⟨rows, pos + 1, bad, none⟩, entry⟩
      else ⟨none, ⟨rows, pos, bad, none⟩, entry⟩
    else seekScan rows bad pc (pos + 1) next rest

/-- The rows the statement loop of `dofunc` collects, from the current row `lne`
and the rows not yet read. -/
def collectStmts (highpc : Nat) : LineEntry → List LineEntry → List LineEntry
  | lne, [] => if lne.Address < highpc then (if lne.IsStmt then [lne] else []) else []
  | lne, next :: rest =>
    if lne.Address < highpc then
      (if lne.IsStmt then [lne] else []) ++ collectStmts highpc next rest
    else []

/-- A line table with a row at `0x08` and the next row at `0x20`: the row that
covers `0x10` starts below it. -/
def gapTable : LineReader := ⟨[row 0x08 4, row 0x20 6], 0, none, none⟩

/-- A subprogram record `main.g` over `[0x80, 0x90)`, beyond the rows of the
scenario's line table. -/
def lateFunc : Entry :=
  ⟨TagSubprogram, true,
    [⟨AttrName, AttrVal.str "main.g"⟩, ⟨AttrLowpc, AttrVal.uint64 0x80⟩,
      ⟨AttrHighpc, AttrVal.uint64 0x90⟩]⟩

/-- A subprogram record without a high PC. -/
def noHighFunc : Entry :=
  ⟨TagSubprogram, true,
    [⟨AttrName, AttrVal.str "main.h"⟩, ⟨AttrLowpc, AttrVal.uint64 0x10⟩]⟩

/-- A line table whose rows name the autogenerated file. -/
def autoTable : LineReader :=
  ⟨[⟨0x10, some "<autogenerated>", 1, true, false⟩,
    ⟨0x50, some "<autogenerated>", 1, true, true⟩], 0, none, none⟩

/-- A well-nested run of child records, as a tree: a variable or parameter record;
a block-open record with its children and its own end marker; any other record
with the records of its subtree (which the walk skips). -/
inductive Forest where
  | nil : Forest
  | var (e : Entry) (rest : Forest) : Forest
  | block (e : Entry) (kids : Forest) (rest : Forest) : Forest
  | other (e : Entry) (sub : List Entry) (rest : Forest) : Forest

/-- The record stream of a tree, in document order. -/
def Forest.flatten : Forest → List Entry
  | Forest.nil => []
  | Forest.var e rest => e :: rest.flatten
  | Forest.block e kids rest => e :: (kids.flatten ++ endMarker :: rest.flatten)
  | Forest.other e sub rest =>
    e :: ((if e.Children then sub ++ [endMarker] else []) ++ rest.flatten)

/-- The tags of a tree are the ones its shape says, and the subtree of a record of
another tag is well nested. -/
def Forest.wellFormed : Forest → Bool
  | Forest.nil => true
  | Forest.var e rest =>
    (decide (e.Tag = TagVariable) || decide (e.Tag = TagFormalParameter)) && rest.wellFormed
  | Forest.block e kids rest =>
    decide (e.Tag = TagLexDwarfBlock) && kids.wellFormed && rest.wellFormed
  | Forest.other e sub rest =>
    !decide (e.Tag = 0) && !decide (e.Tag = TagLexDwarfBlock) && !decide (e.Tag = TagVariable)
      && !decide (e.Tag = TagFormalParameter) && balanced 0 sub && rest.wellFormed

/-- The resolution of a tree as the description states it: every variable or
parameter record is handed to `dovar` with the sequence `cur` of its innermost
enclosing open block (the function's sequence outside every block); the children
of a block are resolved against the block's own sequence, and what follows the
block against the enclosing one again.  The result is the output and, when a call
of `dovar` or `makeLexicalBlock` ends the run, how. -/
def resolveForest (dw : Data) (name : String) (stmts : List LineEntry) (ll : LoclistReader)
    (cubase : Nat) : List LineEntry → Forest → List String → List String × Option Outcome
  | _, Forest.nil, out => (out, none)
  | cur, Forest.var e rest, out =>
    if (dovar name cur e ll cubase).outcome = Outcome.returned then
      resolveForest dw name stmts ll cubase cur rest (out ++ (dovar name cur e ll cubase).out)
    else (out ++ (dovar name cur e ll cubase).out, some (dovar name cur e ll cubase).outcome)
  | cur, Forest.block e kids rest, out =>
    match makeLexicalBlock dw e stmts with
    | Except.error msg => (out, some (Outcome.panicked msg))
    | Except.ok b =>
      match resolveForest dw name stmts ll cubase b.stmts kids out with
      | (out1, none) => resolveForest dw name stmts ll cubase cur rest out1
      | (out1, some o) => (out1, some o)
  | cur, Forest.other _ _ rest, out => resolveForest dw name stmts ll cubase cur rest out

/-- The example tree: a block over `[0x20,0x30)` holding the variable `x`, followed,
after the block's end marker, by the variable `x` again at function level. -/
def sampleForest : Forest :=
  Forest.block (blockRec 0x20 0x30) (Forest.var scenarioVar Forest.nil)
    (Forest.var scenarioVar Forest.nil)

/-- A record of another tag (an inlined subroutine), with children. -/
def inlinedRec : Entry := ⟨0x1D, true, []⟩

/-- A statement row at `0x40`, line 8, without a file record (a nil `File`). -/
def nilFileRow : LineEntry := ⟨0x40, none, 8, true, false⟩

/-- The children flags of the records agree with the tree: a variable or
parameter record has no children, a block-open record has children. -/
def Forest.treeFlags : Forest → Bool
  | Forest.nil => true
  | Forest.var e rest => !e.Children && rest.treeFlags
  | Forest.block e kids rest => e.Children && kids.treeFlags && rest.treeFlags
  | Forest.other _ _ rest => rest.treeFlags

/-- A variable record with an inline location expression that has children. -/
def varWithKids : Entry :=
  ⟨TagVariable, true, [⟨AttrName, AttrVal.str "v"⟩, ⟨AttrLocation, AttrVal.bytes [0x9c]⟩]⟩

/-- A record of another tag (a base type) without children. -/
def leafRec : Entry := ⟨0x24, false, []⟩

/-! ## Lemmas -/

theorem drop_get_cons (A : List LineEntry) (i : Nat) (h : i < A.length) :
    A.drop i = A.get ⟨i, h⟩ :: A.drop (i + 1) := by
  induction A generalizing i with
  | nil => simp at h
  | cons a A ih =>
    cases i with
    | zero => rfl
    | succ i => exact ih i (Nat.lt_of_succ_lt_succ h)

theorem missingTail_eq (A : List LineEntry) (d : Diff) :
    missingTail A d = { d with missing := d.missing ++ A.drop d.i, i := max d.i A.length } := by
  induction d using missingTail.induct A with
  | case1 d h ih =>
    rw [missingTail, dif_pos h, ih, drop_get_cons A d.i h]
    simp only [List.append_assoc, List.singleton_append]
    congr 1
    omega
  | case2 d h =>
    rw [missingTail, dif_neg h]
    have h0 : A.drop d.i = [] := List.drop_eq_nil_of_le (by omega)
    have h1 : max d.i A.length = d.i := by omega
    rw [h0, h1]
    simp

theorem excessTail_eq (B : List LineEntry) (d : Diff) :
    excessTail B d = { d with excess := d.excess ++ B.drop d.j, j := max d.j B.length } := by
  induction d using excessTail.induct B with
  | case1 d h ih =>
    rw [excessTail, dif_pos h, ih, drop_get_cons B d.j h]
    simp only [List.append_assoc, List.singleton_append]
    congr 1
    omega
  | case2 d h =>
    rw [excessTail, dif_neg h]
    have h0 : B.drop d.j = [] := List.drop_eq_nil_of_le (by omega)
    have h1 : max d.j B.length = d.j := by omega
    rw [h0, h1]
    simp

theorem walkLists_nil_right (A : List LineEntry) : walkLists A [] = (A, [], 0) := by
  cases A <;> simp [walkLists]

theorem finishFrom_eq_walkLists (A B : List LineEntry) (d : Diff) :
    (finishFrom A B d).missing = d.missing ++ (walkLists (A.drop d.i) (B.drop d.j)).1 ∧
    (finishFrom A B d).excess = d.excess ++ (walkLists (A.drop d.i) (B.drop d.j)).2.1 ∧
    (finishFrom A B d).matched = d.matched + (walkLists (A.drop d.i) (B.drop d.j)).2.2 := by
  induction d using mergeLoop.induct A B with
  | case1 d h =>
    have h0 : A.drop d.i = [] := List.drop_eq_nil_of_le h
    rw [finishFrom, mergeLoop, dif_pos h, missingTail_eq, excessTail_eq, h0]
    simp [walkLists]
  | case2 d h1 h2 =>
    have h0 : B.drop d.j = [] := List.drop_eq_nil_of_le h2
    rw [finishFrom, mergeLoop, dif_neg h1, dif_pos h2, missingTail_eq, excessTail_eq, h0]
    simp [walkLists_nil_right]
  | case3 d h1 h2 a b hab ih =>
    have hA : A.drop d.i = a :: A.drop (d.i + 1) := drop_get_cons A d.i (by omega)
    have hB : B.drop d.j = b :: B.drop (d.j + 1) := drop_get_cons B d.j (by omega)
    have hstep : finishFrom A B d = finishFrom A B
        { d with i := d.i + 1, j := d.j + 1, matched := d.matched + 1 } := by
      rw [finishFrom, mergeLoop, dif_neg h1, dif_neg h2]
      simp only [finishFrom]
      rw [if_pos hab]
    rw [hstep, hA, hB]
    rw [walkLists, if_pos hab]
    obtain ⟨i1, i2, i3⟩ := ih
    refine ⟨i1, i2, ?_⟩
    rw [i3]; simp only []; omega
  | case4 d h1 h2 a b hab hlt ih =>
    have hA : A.drop d.i = a :: A.drop (d.i + 1) := drop_get_cons A d.i (by omega)
    have hB : B.drop d.j = b :: B.drop (d.j + 1) := drop_get_cons B d.j (by omega)
    have hstep : finishFrom A B d = finishFrom A B
        { d with missing := d.missing ++ [a], i := d.i + 1 } := by
      rw [finishFrom, mergeLoop, dif_neg h1, dif_neg h2]
      simp only [finishFrom]
      rw [if_neg hab, if_pos hlt]
    rw [hstep, hA, hB]
    rw [walkLists, if_neg hab, if_pos hlt]
    obtain ⟨i1, i2, i3⟩ := ih
    simp only [] at i1 i2 i3
    rw [hB] at i1 i2 i3
    refine ⟨?_, i2, i3⟩
    rw [i1]; simp
  | case5 d h1 h2 a b hab hlt ih =>
    have hA : A.drop d.i = a :: A.drop (d.i + 1) := drop_get_cons A d.i (by omega)
    have hB : B.drop d.j = b :: B.drop (d.j + 1) := drop_get_cons B d.j (by omega)
    have hstep : finishFrom A B d = finishFrom A B
        { d with excess := d.excess ++ [b], j := d.j + 1 } := by
      rw [finishFrom, mergeLoop, dif_neg h1, dif_neg h2]
      simp only [finishFrom]
      rw [if_neg hab, if_neg hlt]
    rw [hstep, hA, hB]
    rw [walkLists, if_neg hab, if_neg hlt]
    obtain ⟨i1, i2, i3⟩ := ih
    simp only [] at i1 i2 i3
    rw [hA] at i1 i2 i3
    refine ⟨i1, ?_, i3⟩
    rw [i2]; simp

theorem mergeWalk_eq_walkLists (A B : List LineEntry) :
    (mergeWalk A B).missing = (walkLists A B).1 ∧
    (mergeWalk A B).excess = (walkLists A B).2.1 ∧
    (mergeWalk A B).matched = (walkLists A B).2.2 := by
  have h := finishFrom_eq_walkLists A B ⟨0, 0, [], [], 0⟩
  simpa [finishFrom, mergeWalk] using h

theorem walkLists_count (A B : List LineEntry) :
    2 * (walkLists A B).2.2 + (walkLists A B).1.length + (walkLists A B).2.1.length
      = A.length + B.length := by
  induction A, B using walkLists.induct with
  | case1 bs => simp [walkLists]
  | case2 a as => simp [walkLists]
  | case3 a as b bs h ih => rw [walkLists, if_pos h]; simp only [List.length_cons]; omega
  | case4 a as b bs h hlt ih =>
    rw [walkLists, if_neg h, if_pos hlt]; simp only [List.length_cons] at ih ⊢; omega
  | case5 a as b bs h hlt ih =>
    rw [walkLists, if_neg h, if_neg hlt]; simp only [List.length_cons] at ih ⊢; omega

theorem walkLists_filter (A B : List LineEntry) (hA : StrictByAddress A) (hB : StrictByAddress B) :
    (walkLists A B).1 = A.filter (fun a => decide (∀ b ∈ B, b.Address ≠ a.Address)) ∧
    (walkLists A B).2.1 = B.filter (fun b => decide (∀ a ∈ A, a.Address ≠ b.Address)) := by
  induction A, B using walkLists.induct with
  | case1 bs => simp [walkLists]
  | case2 a as => simp [walkLists]
  | case3 a as b bs h ih =>
    rw [walkLists, if_pos h]
    have hA2 := List.pairwise_cons.mp hA
    have hB2 := List.pairwise_cons.mp hB
    obtain ⟨i1, i2⟩ := ih hA2.2 hB2.2
    constructor
    · simp only []
      rw [i1, List.filter_cons_of_neg (by simp only [List.mem_cons, forall_eq_or_imp, ne_eq, decide_eq_true_eq]; exact fun hn => hn.1 h.symm)]
      apply List.filter_congr
      intro x hx
      have := hA2.1 x hx
      simp only [List.mem_cons, forall_eq_or_imp, ne_eq, decide_eq_decide]
      constructor
      · intro hn; exact ⟨by omega, hn⟩
      · intro hn; exact hn.2
    · simp only []
      rw [i2, List.filter_cons_of_neg (by simp only [List.mem_cons, forall_eq_or_imp, ne_eq, decide_eq_true_eq]; exact fun hn => hn.1 h)]
      apply List.filter_congr
      intro x hx
      have := hB2.1 x hx
      simp only [List.mem_cons, forall_eq_or_imp, ne_eq, decide_eq_decide]
      constructor
      · intro hn; exact ⟨by omega, hn⟩
      · intro hn; exact hn.2
  | case4 a as b bs h hlt ih =>
    rw [walkLists, if_neg h, if_pos hlt]
    have hA2 := List.pairwise_cons.mp hA
    have hB2 := List.pairwise_cons.mp hB
    obtain ⟨i1, i2⟩ := ih hA2.2 hB
    constructor
    · simp only []
      rw [i1, List.filter_cons_of_pos]
      simp only [List.mem_cons, forall_eq_or_imp, ne_eq, decide_eq_true_eq]
      refine ⟨by omega, ?_⟩
      intro y hy
      have := hB2.1 y hy
      omega
    · simp only []
      rw [i2]
      apply List.filter_congr
      intro x hx
      have hxb : b.Address ≤ x.Address := by
        rcases List.mem_cons.mp hx with rfl | hx
        · exact le_refl _
        · exact le_of_lt (hB2.1 x hx)
      simp only [List.mem_cons, forall_eq_or_imp, ne_eq, decide_eq_decide]
      constructor
      · intro hn; exact ⟨by omega, hn⟩
      · intro hn; exact hn.2
  | case5 a as b bs h hlt ih =>
    rw [walkLists, if_neg h, if_neg hlt]
    have hA2 := List.pairwise_cons.mp hA
    have hB2 := List.pairwise_cons.mp hB
    obtain ⟨i1, i2⟩ := ih hA hB2.2
    constructor
    · simp only []
      rw [i1]
      apply List.filter_congr
      intro x hx
      have hxb : a.Address ≤ x.Address := by
        rcases List.mem_cons.mp hx with rfl | hx
        · exact le_refl _
        · exact le_of_lt (hA2.1 x hx)
      simp only [List.mem_cons, forall_eq_or_imp, ne_eq, decide_eq_decide]
      constructor
      · intro hn; exact ⟨by omega, hn⟩
      · intro hn; exact hn.2
    · simp only []
      rw [i2, List.filter_cons_of_pos]
      simp only [List.mem_cons, forall_eq_or_imp, ne_eq, decide_eq_true_eq]
      refine ⟨by omega, ?_⟩
      intro y hy
      have := hA2.1 y hy
      omega

theorem mem_filterAfterLine (stmts : List LineEntry) (declLine : Int) (x : LineEntry) :
    x ∈ filterAfterLine stmts declLine ↔ x ∈ stmts ∧ declLine < x.Line := by
  induction stmts with
  | nil => simp [filterAfterLine]
  | cons s rest ih =>
    unfold filterAfterLine
    split
    · next h =>
      simp only [List.mem_cons, ih]
      constructor
      · rintro (rfl | ⟨h1, h2⟩)
        · exact ⟨Or.inl rfl, h⟩
        · exact ⟨Or.inr h1, h2⟩
      · rintro ⟨rfl | h1, h2⟩
        · exact Or.inl rfl
        · exact Or.inr ⟨h1, h2⟩
    · next h =>
      simp only [List.mem_cons, ih]
      constructor
      · rintro ⟨h1, h2⟩; exact ⟨Or.inr h1, h2⟩
      · rintro ⟨rfl | h1, h2⟩
        · exact absurd h2 h
        · exact ⟨h1, h2⟩

theorem mem_sortByAddress (v : List LineEntry) (x : LineEntry) :
    x ∈ sortByAddress v ↔ x ∈ v :=
  (List.perm_insertionSort _ v).mem_iff

theorem dovar_checked (fnname : String) (stmts : List LineEntry) (e : Entry) (ll : LoclistReader)
    (cubase : Nat) (off declLine : Int)
    (h1 : e.Val AttrLocation = some (AttrVal.int64 off))
    (h2 : e.Val AttrDeclLine = some (AttrVal.int64 declLine)) :
    dovar fnname stmts e ll cubase =
      report fnname e.name
        (dovarDiff stmts (loclistRangesAtOffset cubase ll off) declLine).missing
        (dovarDiff stmts (loclistRangesAtOffset cubase ll off) declLine).excess := by
  simp [dovar, h1, h2, trace]

theorem scenario_scopeDerived :
    stmtsFromLexicalBlock scenarioStmts 5 = [row 0x20 6, row 0x30 7, row 0x40 8] := by decide

theorem scenario_oneRange_locDerived :
    stmtsFromLoclist scenarioStmts [(0x20, 0x40)] 5 = [row 0x20 6, row 0x30 7] := by decide

theorem scenario_twoRanges_locDerived :
    stmtsFromLoclist scenarioStmts [(0x10, 0x40), (0x40, 0x50)] 5
      = [row 0x20 6, row 0x30 7, row 0x40 8] := by decide

theorem scenario_oneRange_diff :
    (dovarDiff scenarioStmts [(0x20, 0x40)] 5).missing = [row 0x40 8] ∧
    (dovarDiff scenarioStmts [(0x20, 0x40)] 5).excess = [] := by
  have hm := mergeWalk_eq_walkLists [row 0x20 6, row 0x30 7, row 0x40 8] [row 0x20 6, row 0x30 7]
  have hw : walkLists [row 0x20 6, row 0x30 7, row 0x40 8] [row 0x20 6, row 0x30 7]
      = ([row 0x40 8], [], 2) := by
    simp [walkLists, row]
  rw [hw] at hm
  rw [dovarDiff, scenario_scopeDerived, scenario_oneRange_locDerived]
  exact ⟨hm.1, hm.2.1⟩

theorem scenario_twoRanges_diff :
    (dovarDiff scenarioStmts [(0x10, 0x40), (0x40, 0x50)] 5).missing = [] ∧
    (dovarDiff scenarioStmts [(0x10, 0x40), (0x40, 0x50)] 5).excess = [] := by
  have hm := mergeWalk_eq_walkLists [row 0x20 6, row 0x30 7, row 0x40 8]
    [row 0x20 6, row 0x30 7, row 0x40 8]
  have hw : walkLists [row 0x20 6, row 0x30 7, row 0x40 8] [row 0x20 6, row 0x30 7, row 0x40 8]
      = ([], [], 3) := by
    simp [walkLists, row]
  rw [hw] at hm
  rw [dovarDiff, scenario_scopeDerived, scenario_twoRanges_locDerived]
  exact ⟨hm.1, hm.2.1⟩

/-- What an iteration that goes on does to the stack, by the record it was
handed. -/
theorem funcStep_next_stack (dw : Data) (name : String) (stmts : List LineEntry)
    (ll : LoclistReader) (cubase : Nat) (s s1 : WalkState)
    (h : funcStep dw name stmts ll cubase s = Step.next s1) :
    ∃ e rdr, s.rdr.Next = (some e, rdr) ∧
      ((e.Tag = 0 ∧ s.lexicalBlockStack ≠ [] ∧
          s1.lexicalBlockStack = s.lexicalBlockStack.dropLast) ∨
       (e.Tag ≠ 0 ∧ e.Tag = TagLexDwarfBlock ∧
          ∃ b, s1.lexicalBlockStack = s.lexicalBlockStack ++ [b]) ∨
       (e.Tag ≠ 0 ∧ e.Tag ≠ TagLexDwarfBlock ∧ s1.lexicalBlockStack = s.lexicalBlockStack)) := by
  unfold funcStep at h
  rcases hn : s.rdr.Next with ⟨_ | e, rdr⟩
  · simp [hn] at h
  · refine ⟨e, rdr, rfl, ?_⟩
    rw [hn] at h
    simp only at h
    by_cases h0 : e.Tag = 0
    · rw [if_pos h0] at h
      by_cases hs : s.lexicalBlockStack.length = 0
      · rw [if_pos hs] at h; simp at h
      · rw [if_neg hs, Step.next.injEq] at h
        subst h
        exact Or.inl ⟨h0, fun hnil => hs (by rw [hnil]; rfl), rfl⟩
    · rw [if_neg h0] at h
      by_cases hb : e.Tag = TagLexDwarfBlock
      · rw [if_pos hb] at h
        cases hm : makeLexicalBlock dw e stmts with
        | error msg => rw [hm] at h; simp at h
        | ok b =>
          rw [hm] at h
          simp only [Step.next.injEq] at h
          subst h
          exact Or.inr (Or.inl ⟨h0, hb, b, rfl⟩)
      · rw [if_neg hb] at h
        by_cases hv : e.Tag = TagVariable ∨ e.Tag = TagFormalParameter
        · rw [if_pos hv] at h
          split at h
          · simp only [Step.next.injEq] at h
            subst h
            exact Or.inr (Or.inr ⟨h0, hb, rfl⟩)
          · simp at h
        · rw [if_neg hv, Step.next.injEq] at h
          subst h
          exact Or.inr (Or.inr ⟨h0, hb, rfl⟩)

/-- An iteration ends the loop normally only on an end-of-children marker met
with the stack empty. -/
theorem funcStep_done_returned (dw : Data) (name : String) (stmts : List LineEntry)
    (ll : LoclistReader) (cubase : Nat) (s s1 : WalkState)
    (h : funcStep dw name stmts ll cubase s = Step.done s1 Outcome.returned) :
    s1.lexicalBlockStack = [] ∧ s.lexicalBlockStack = [] ∧
      ∃ e rdr, s.rdr.Next = (some e, rdr) ∧ e.Tag = 0 := by
  unfold funcStep at h
  rcases hn : s.rdr.Next with ⟨_ | e, rdr⟩
  · rw [hn] at h; simp at h
  · rw [hn] at h
    simp only at h
    by_cases h0 : e.Tag = 0
    · rw [if_pos h0] at h
      by_cases hs : s.lexicalBlockStack.length = 0
      · rw [if_pos hs, Step.done.injEq] at h
        have hnil : s.lexicalBlockStack = [] := List.length_eq_zero.mp hs
        refine ⟨?_, hnil, e, rdr, rfl, h0⟩
        rw [← h.1]; exact hnil
      · rw [if_neg hs] at h; simp at h
    · rw [if_neg h0] at h
      by_cases hb : e.Tag = TagLexDwarfBlock
      · rw [if_pos hb] at h
        cases hm : makeLexicalBlock dw e stmts with
        | error msg => rw [hm] at h; simp at h
        | ok b => rw [hm] at h; simp at h
      · rw [if_neg hb] at h
        by_cases hv : e.Tag = TagVariable ∨ e.Tag = TagFormalParameter
        · rw [if_pos hv] at h
          split at h
          · simp at h
          · next hne =>
            simp only [Step.done.injEq] at h
            exact absurd h.2 (by intro hc; exact hne hc)
        · rw [if_neg hv] at h; simp at h

theorem funcLoop_of_next (dw : Data) (name : String) (stmts : List LineEntry)
    (ll : LoclistReader) (cubase : Nat) (s s1 : WalkState)
    (hs : funcStep dw name stmts ll cubase s = Step.next s1) :
    funcLoop dw name stmts ll cubase s = funcLoop dw name stmts ll cubase s1 := by
  rw [funcLoop]
  split
  · next s2 h2 =>
    rw [hs] at h2
    simp only [Step.next.injEq] at h2
    subst h2; rfl
  · next s2 o h2 => rw [hs] at h2; simp at h2

theorem funcLoop_of_done (dw : Data) (name : String) (stmts : List LineEntry)
    (ll : LoclistReader) (cubase : Nat) (s s1 : WalkState) (o : Outcome)
    (hs : funcStep dw name stmts ll cubase s = Step.done s1 o) :
    funcLoop dw name stmts ll cubase s = (s1, o) := by
  rw [funcLoop]
  split
  · next s2 h2 => rw [hs] at h2; simp at h2
  · next s2 o2 h2 =>
    rw [hs] at h2
    simp only [Step.done.injEq] at h2
    rw [← h2.1, ← h2.2]

theorem funcLoop_returned_stack (dw : Data) (name : String) (stmts : List LineEntry)
    (ll : LoclistReader) (cubase : Nat) (s : WalkState)
    (h : (funcLoop dw name stmts ll cubase s).2 = Outcome.returned) :
    (funcLoop dw name stmts ll cubase s).1.lexicalBlockStack = [] := by
  induction s using funcLoop.induct dw name stmts ll cubase with
  | case1 s s1 hs ih =>
    rw [funcLoop_of_next dw name stmts ll cubase s s1 hs] at h ⊢
    exact ih h
  | case2 s s1 o hs =>
    rw [funcLoop_of_done dw name stmts ll cubase s s1 o hs] at h ⊢
    simp only at h
    subst h
    exact (funcStep_done_returned dw name stmts ll cubase s s1 hs).1

theorem funcLoop_of_walkSteps (dw : Data) (name : String) (stmts : List LineEntry)
    (ll : LoclistReader) (cubase : Nat) (n : Nat) (s s1 s2 : WalkState) (seen : List Entry)
    (o : Outcome)
    (hw : walkSteps dw name stmts ll cubase n s = some (s1, seen))
    (hd : funcStep dw name stmts ll cubase s1 = Step.done s2 o) :
    funcLoop dw name stmts ll cubase s = (s2, o) := by
  induction n generalizing s seen with
  | zero =>
    simp only [walkSteps, Option.some.injEq, Prod.mk.injEq] at hw
    rw [hw.1]
    exact funcLoop_of_done dw name stmts ll cubase s1 s2 o hd
  | succ n ih =>
    unfold walkSteps at hw
    cases hs : funcStep dw name stmts ll cubase s with
    | done s3 o3 => rw [hs] at hw; simp at hw
    | next s3 =>
      rw [hs] at hw
      simp only at hw
      cases hw3 : walkSteps dw name stmts ll cubase n s3 with
      | none => rw [hw3] at hw; simp at hw
      | some p =>
        obtain ⟨s4, seen1⟩ := p
        rw [hw3] at hw
        simp only [Option.some.injEq, Prod.mk.injEq] at hw
        rw [funcLoop_of_next dw name stmts ll cubase s s3 hs]
        exact ih s3 seen1 (by rw [hw3, hw.1])

theorem walkSteps_depth (dw : Data) (name : String) (stmts : List LineEntry)
    (ll : LoclistReader) (cubase : Nat) (n : Nat) (s s2 : WalkState) (seen : List Entry)
    (h : walkSteps dw name stmts ll cubase n s = some (s2, seen)) :
    s2.lexicalBlockStack.length + seen.countP (fun e => e.Tag = 0)
      = s.lexicalBlockStack.length + seen.countP (fun e => e.Tag = TagLexDwarfBlock) := by
  induction n generalizing s s2 seen with
  | zero =>
    simp only [walkSteps, Option.some.injEq, Prod.mk.injEq] at h
    rw [← h.1, ← h.2]; simp
  | succ n ih =>
    unfold walkSteps at h
    cases hs : funcStep dw name stmts ll cubase s with
    | done s1 o => rw [hs] at h; simp at h
    | next s1 =>
      rw [hs] at h
      simp only at h
      cases hw : walkSteps dw name stmts ll cubase n s1 with
      | none => rw [hw] at h; simp at h
      | some p =>
        obtain ⟨s3, seen1⟩ := p
        rw [hw] at h
        simp only [Option.some.injEq, Prod.mk.injEq] at h
        have hi := ih s1 s3 seen1 hw
        obtain ⟨e, rdr, hn, hc⟩ := funcStep_next_stack dw name stmts ll cubase s s1 hs
        rw [hn] at h
        simp only [Option.toList_some, List.singleton_append] at h
        rw [← h.1, ← h.2]
        rcases hc with ⟨h0, hne, hd⟩ | ⟨h0, hb, b, hd⟩ | ⟨h0, hb, hd⟩
        · have hb : ¬ e.Tag = TagLexDwarfBlock := by rw [h0]; decide
          have hlen : s1.lexicalBlockStack.length + 1 = s.lexicalBlockStack.length := by
            rw [hd, List.length_dropLast]
            have := List.length_pos.mpr hne
            omega
          rw [List.countP_cons_of_pos _ _ (by simpa using h0),
            List.countP_cons_of_neg _ _ (by simpa using hb)]
          omega
        · have hlen : s1.lexicalBlockStack.length = s.lexicalBlockStack.length + 1 := by
            rw [hd]; simp
          rw [List.countP_cons_of_neg _ _ (by simpa using h0),
            List.countP_cons_of_pos _ _ (by simpa using hb)]
          omega
        · rw [List.countP_cons_of_neg _ _ (by simpa using h0),
            List.countP_cons_of_neg _ _ (by simpa using hb), ← hd]
          exact hi

theorem skipLoop_data_flag (depth : Nat) (l1 l2 : Bool) (es : List Entry) :
    (skipLoop depth l1 es).data = (skipLoop depth l2 es).data := by
  cases es with
  | nil => simp [skipLoop]
  | cons e rest => simp [skipLoop]

theorem skipLoop_marker_succ (d : Nat) (l : Bool) (e : Entry) (rest : List Entry)
    (h0 : e.Tag = 0) : skipLoop (d + 1) l (e :: rest) = skipLoop d e.Children rest := by
  simp [skipLoop, h0]

theorem skipLoop_marker_zero (l : Bool) (e : Entry) (rest : List Entry)
    (h0 : e.Tag = 0) : skipLoop 0 l (e :: rest) = ⟨rest, e.Children⟩ := by
  simp [skipLoop, h0]

theorem skipLoop_open (d : Nat) (l : Bool) (e : Entry) (rest : List Entry)
    (h0 : ¬ e.Tag = 0) (hc : e.Children = true) :
    skipLoop d l (e :: rest) = skipLoop (d + 1) true rest := by
  simp [skipLoop, h0, hc]

theorem skipLoop_leaf (d : Nat) (l : Bool) (e : Entry) (rest : List Entry)
    (h0 : ¬ e.Tag = 0) (hc : ¬ e.Children = true) :
    skipLoop d l (e :: rest) = skipLoop d false rest := by
  simp [skipLoop, h0, hc]

theorem skipLoop_balanced (kids tail : List Entry) (d k : Nat) (l1 l2 : Bool)
    (hk : balanced d kids = true) :
    (skipLoop (k + d) l1 (kids ++ tail)).data = (skipLoop k l2 tail).data := by
  induction kids generalizing d l1 with
  | nil =>
    simp only [balanced, beq_iff_eq] at hk
    subst hk
    exact skipLoop_data_flag k l1 l2 tail
  | cons e rest ih =>
    unfold balanced at hk
    rw [List.cons_append]
    by_cases h0 : e.Tag = 0
    · rw [if_pos h0] at hk
      cases d with
      | zero => simp at hk
      | succ d =>
        simp only at hk
        rw [← Nat.add_assoc, skipLoop_marker_succ _ _ _ _ h0]
        exact ih d e.Children hk
    · rw [if_neg h0] at hk
      by_cases hc : e.Children = true
      · rw [if_pos hc] at hk
        rw [skipLoop_open _ _ _ _ h0 hc, Nat.add_assoc]
        exact ih (d + 1) true hk
      · rw [if_neg hc] at hk
        rw [skipLoop_leaf _ _ _ _ h0 hc]
        exact ih d false hk

/-- After a record with children, `SkipChildren` lands right after the marker
that closes a well-nested run of children; after a record without children it
does nothing. -/
theorem SkipChildren_subtree (c : Bool) (kids rest : List Entry) (m : Entry)
    (hm : m.Tag = 0) (hk : balanced 0 kids = true) :
    (Reader.SkipChildren ⟨(if c then kids ++ [m] else []) ++ rest, c⟩).data = rest := by
  unfold Reader.SkipChildren
  cases c with
  | false => simp
  | true =>
    simp only [Bool.not_true, Bool.false_eq_true, if_false, if_true, List.append_assoc,
      List.singleton_append]
    have h := skipLoop_balanced kids (m :: rest) 0 0 true true hk
    rw [Nat.zero_add] at h
    rw [h, skipLoop_marker_zero _ _ _ hm]

theorem Next_cons (e : Entry) (es : List Entry) (r : Reader) (h : r.data = e :: es) :
    r.Next = (some e, ⟨es, e.Children⟩) := by
  unfold Reader.Next
  rw [h]

theorem entryLoop_of_next (dw : Data) (ll : LoclistReader) (s s1 : MainState)
    (hs : entryStep dw ll s = Step.next s1) : entryLoop dw ll s = entryLoop dw ll s1 := by
  rw [entryLoop]
  split
  · next s2 h2 =>
    rw [hs] at h2
    simp only [Step.next.injEq] at h2
    subst h2; rfl
  · next s2 o h2 => rw [hs] at h2; simp at h2

theorem entryLoop_of_done (dw : Data) (ll : LoclistReader) (s s1 : MainState) (o : Outcome)
    (hs : entryStep dw ll s = Step.done s1 o) : entryLoop dw ll s = (s1, o) := by
  rw [entryLoop]
  split
  · next s2 h2 => rw [hs] at h2; simp at h2
  · next s2 o2 h2 =>
    rw [hs] at h2
    simp only [Step.done.injEq] at h2
    rw [← h2.1, ← h2.2]

/-- The step of `entryLoop` on a compile-unit record that the filter rejects. -/
theorem entryStep_rejected (dw : Data) (ll : LoclistReader) (s : MainState) (cu : Entry)
    (rdr : Reader) (hn : s.rdr.Next = (some cu, rdr)) (hcu : cu.Tag = TagCompileUnit)
    (hrej : (∀ p, cu.Val AttrProducer ≠ some (AttrVal.str p)) ∨
      (∃ p, cu.Val AttrProducer = some (AttrVal.str p) ∧ stringsContains p "Go" = false) ∨
      (∃ p, cu.Val AttrProducer = some (AttrVal.str p) ∧ stringsContains p "-N -l" = false) ∨
      ((∃ lr, dw.LineReader cu = Except.ok lr) ∧ dw.Ranges cu = Except.ok [])) :
    ∃ s1, entryStep dw ll s = Step.next s1 ∧ s1.rdr = rdr.SkipChildren ∧ s1.out = s.out ∧
      s1.calls = s.calls ∧ s1.cubase = s.cubase := by
  unfold entryStep
  rw [hn]
  simp only
  rw [if_pos hcu]
  cases hp : cu.Val AttrProducer with
  | none => exact ⟨_, rfl, rfl, rfl, rfl, rfl⟩
  | some v =>
    cases v with
    | str p =>
      simp only
      by_cases hg : stringsContains p "Go" = true
      · by_cases hf : stringsContains p "-N -l" = true
        · simp only [hg, hf, Bool.not_true, Bool.false_eq_true, if_false]
          rcases hrej with h | ⟨q, hq, hq2⟩ | ⟨q, hq, hq2⟩ | ⟨⟨lr, hlr⟩, hrg⟩
          · exact absurd hp (h p)
          · rw [hp] at hq
            simp only [Option.some.injEq, AttrVal.str.injEq] at hq
            subst hq; rw [hg] at hq2; simp at hq2
          · rw [hp] at hq
            simp only [Option.some.injEq, AttrVal.str.injEq] at hq
            subst hq; rw [hf] at hq2; simp at hq2
          · rw [hlr]
            simp only
            rw [hrg]
            exact ⟨_, rfl, rfl, rfl, rfl, rfl⟩
        · simp only [hg, Bool.not_true, Bool.false_eq_true, if_false]
          have hf2 : stringsContains p "-N -l" = false := by simpa using hf
          simp only [hf2, Bool.not_false, if_true]
          exact ⟨_, rfl, rfl, rfl, rfl, rfl⟩
      · have hg2 : stringsContains p "Go" = false := by simpa using hg
        simp only [hg2, Bool.not_false, if_true]
        exact ⟨_, rfl, rfl, rfl, rfl, rfl⟩
    | uint64 n => exact ⟨_, rfl, rfl, rfl, rfl, rfl⟩
    | int64 i => exact ⟨_, rfl, rfl, rfl, rfl, rfl⟩
    | bytes b => exact ⟨_, rfl, rfl, rfl, rfl, rfl⟩
    | flag b => exact ⟨_, rfl, rfl, rfl, rfl, rfl⟩

/-- The step of `entryLoop` on a compile-unit record that the filter accepts. -/
theorem entryStep_accepted (dw : Data) (ll : LoclistReader) (s : MainState) (cu : Entry)
    (rdr : Reader) (p : String) (lr : Option LineReader) (rng : Nat × Nat)
    (rngs : List (Nat × Nat))
    (hn : s.rdr.Next = (some cu, rdr)) (hcu : cu.Tag = TagCompileUnit)
    (hp : cu.Val AttrProducer = some (AttrVal.str p))
    (hg : stringsContains p "Go" = true) (hf : stringsContains p "-N -l" = true)
    (hlr : dw.LineReader cu = Except.ok lr) (hrg : dw.Ranges cu = Except.ok (rng :: rngs)) :
    entryStep dw ll s = Step.next ⟨rdr, lr, rng.1, s.out, s.calls⟩ := by
  unfold entryStep
  rw [hn]
  simp only
  rw [if_pos hcu, hp]
  simp only [hg, hf, Bool.not_true, Bool.false_eq_true, if_false]
  rw [hlr]
  simp only
  rw [hrg]

/-- The step of `entryLoop` on a subprogram record. -/
theorem entryStep_subprogram (dw : Data) (ll : LoclistReader) (t : MainState) (e : Entry)
    (rdr : Reader) (hn : t.rdr.Next = (some e, rdr)) (he : e.Tag = TagSubprogram) :
    entryStep dw ll t =
      if (dofunc dw rdr e t.lrdr ll t.cubase).outcome = Outcome.returned then
        Step.next ⟨(dofunc dw rdr e t.lrdr ll t.cubase).rdr,
          (dofunc dw rdr e t.lrdr ll t.cubase).lrdr, t.cubase,
          t.out ++ (dofunc dw rdr e t.lrdr ll t.cubase).out, t.calls + 1⟩
      else
        Step.done ⟨(dofunc dw rdr e t.lrdr ll t.cubase).rdr,
          (dofunc dw rdr e t.lrdr ll t.cubase).lrdr, t.cubase,
          t.out ++ (dofunc dw rdr e t.lrdr ll t.cubase).out, t.calls + 1⟩
          (dofunc dw rdr e t.lrdr ll t.cubase).outcome := by
  have hc : ¬ e.Tag = TagCompileUnit := by rw [he]; decide
  unfold entryStep
  rw [hn]
  simp only
  rw [if_neg hc, if_pos he]
  split
  · next h => rw [if_pos h]
  · next h => rw [if_neg (by intro hc2; exact h hc2)]

theorem rangesContains_iff (rngs : List (Nat × Nat)) (addr : Nat) :
    rangesContains rngs addr = true ↔ ∃ p ∈ rngs, p.1 ≤ addr ∧ addr < p.2 := by
  induction rngs with
  | nil => simp [rangesContains]
  | cons rng rest ih =>
    unfold rangesContains
    by_cases h : addr ≥ rng.1 ∧ addr < rng.2
    · rw [if_pos h]
      simp only [List.mem_cons, true_iff]
      exact ⟨rng, Or.inl rfl, h.1, h.2⟩
    · rw [if_neg h, ih]
      constructor
      · rintro ⟨p, hp, h1⟩
        exact ⟨p, List.mem_cons_of_mem _ hp, h1⟩
      · rintro ⟨p, hp, h1⟩
        rcases List.mem_cons.mp hp with rfl | hp
        · exact absurd ⟨h1.1, h1.2⟩ h
        · exact ⟨p, hp, h1⟩

theorem filterInsideRanges_eq_filter (stmts : List LineEntry) (rngs : List (Nat × Nat)) :
    filterInsideRanges stmts rngs = stmts.filter (fun r => rangesContains rngs r.Address) := by
  induction stmts with
  | nil => rfl
  | cons s rest ih =>
    unfold filterInsideRanges
    by_cases h : rangesContains rngs s.Address = true
    · rw [if_pos h, ih]
      simp [List.filter_cons, h]
    · rw [if_neg h, ih]
      simp [List.filter_cons, h]

theorem filterAfterLine_eq_filter (stmts : List LineEntry) (declLine : Int) :
    filterAfterLine stmts declLine = stmts.filter (fun r => decide (declLine < r.Line)) := by
  induction stmts with
  | nil => rfl
  | cons s rest ih =>
    unfold filterAfterLine
    by_cases h : s.Line > declLine
    · rw [if_pos h, ih]
      have h1 : declLine < s.Line := h
      simp [List.filter_cons, h1]
    · rw [if_neg h, ih]
      have h1 : ¬ declLine < s.Line := h
      simp [List.filter_cons, h1]

theorem filters_commute (S : List LineEntry) (ranges : List (Nat × Nat)) (D : Int) :
    filterAfterLine (filterInsideRanges S ranges) D
      = filterInsideRanges (filterAfterLine S D) ranges := by
  rw [filterAfterLine_eq_filter, filterInsideRanges_eq_filter, filterInsideRanges_eq_filter,
    filterAfterLine_eq_filter, List.filter_filter, List.filter_filter]
  apply List.filter_congr
  intro x _
  exact Bool.and_comm _ _

theorem sortByAddress_perm (v : List LineEntry) : (sortByAddress v).Perm v :=
  List.perm_insertionSort _ v

theorem sortByAddress_sorted (v : List LineEntry) : SortedByAddress (sortByAddress v) := by
  haveI : IsTotal LineEntry (fun a b => ¬ stmtsByAddressLess b a = true) :=
    ⟨fun a b => by
      simp only [stmtsByAddressLess, decide_eq_true_eq, Nat.not_lt]
      exact Nat.le_total a.Address b.Address⟩
  haveI : IsTrans LineEntry (fun a b => ¬ stmtsByAddressLess b a = true) :=
    ⟨fun a b c hab hbc => by
      simp only [stmtsByAddressLess, decide_eq_true_eq, Nat.not_lt] at hab hbc ⊢
      exact Nat.le_trans hab hbc⟩
  have hs := List.sorted_insertionSort (fun a b : LineEntry => ¬ stmtsByAddressLess b a = true) v
  unfold sortByAddress
  exact List.Pairwise.imp (fun {a b} hab => by simpa [stmtsByAddressLess] using hab) hs

/-- The merge walk leaves no excess when both sequences are non-decreasing by
address and the addresses of `B`, counted with repetition, are among those of `A`. -/
theorem walkLists_excess_nil (A B : List LineEntry) (hA : SortedByAddress A)
    (hB : SortedByAddress B)
    (hsub : List.Subperm (B.map (fun r => r.Address)) (A.map (fun r => r.Address))) :
    (walkLists A B).2.1 = [] := by
  induction A, B using walkLists.induct with
  | case1 bs =>
    have hl := hsub.length_le
    simp only [List.length_map, List.length_nil, Nat.le_zero, List.length_eq_zero] at hl
    subst hl
    simp [walkLists]
  | case2 a as => simp [walkLists]
  | case3 a as b bs h ih =>
    rw [walkLists, if_pos h]
    have hA2 := List.pairwise_cons.mp hA
    have hB2 := List.pairwise_cons.mp hB
    simp only [List.map_cons] at hsub
    rw [h] at hsub
    exact ih hA2.2 hB2.2 ((List.subperm_cons _).mp hsub)
  | case4 a as b bs h hlt ih =>
    rw [walkLists, if_neg h, if_pos hlt]
    have hA2 := List.pairwise_cons.mp hA
    have hB2 := List.pairwise_cons.mp hB
    have hnot : a.Address ∉ (b :: bs).map (fun r => r.Address) := by
      intro hm
      obtain ⟨x, hx, hxa⟩ := List.mem_map.mp hm
      rcases List.mem_cons.mp hx with rfl | hx
      · exact h hxa.symm
      · have := hB2.1 x hx
        omega
    have he := hsub.erase a.Address
    rw [List.erase_of_not_mem hnot] at he
    simp only [List.map_cons, List.erase_cons_head] at he
    exact ih hA2.2 hB (by simpa using he)
  | case5 a as b bs h hlt ih =>
    exfalso
    have hA2 := List.pairwise_cons.mp hA
    have hm : b.Address ∈ (a :: as).map (fun r => r.Address) :=
      hsub.subset (by simp)
    obtain ⟨x, hx, hxa⟩ := List.mem_map.mp hm
    rcases List.mem_cons.mp hx with rfl | hx
    · exact h hxa
    · have := hA2.1 x hx
      omega

theorem locDerived_subperm (S : List LineEntry) (R : List (Nat × Nat)) (D : Int) :
    List.Subperm ((stmtsFromLoclist S R D).map (fun r => r.Address))
      ((stmtsFromLexicalBlock S D).map (fun r => r.Address)) := by
  unfold stmtsFromLoclist stmtsFromLexicalBlock
  have h1 : List.Sublist (filterAfterLine (filterInsideRanges S R) D) (filterAfterLine S D) := by
    rw [filters_commute, filterInsideRanges_eq_filter]
    exact List.filter_sublist _
  have h2 := (h1.map (fun r => r.Address)).subperm
  have p1 := (sortByAddress_perm (filterAfterLine (filterInsideRanges S R) D)).map
    (fun r => r.Address)
  have p2 := (sortByAddress_perm (filterAfterLine S D)).map (fun r => r.Address)
  exact (List.Perm.subperm_right p1).mpr ((List.Perm.subperm_left p2).mpr h2)

theorem dovarDiff_excess_nil (S : List LineEntry) (R : List (Nat × Nat)) (D : Int) :
    (dovarDiff S R D).excess = [] := by
  unfold dovarDiff
  rw [(mergeWalk_eq_walkLists _ _).2.1]
  exact walkLists_excess_nil _ _ (sortByAddress_sorted _) (sortByAddress_sorted _)
    (locDerived_subperm S R D)

theorem strict_of_sorted_nodup (l : List LineEntry) (hs : SortedByAddress l)
    (hn : (l.map (fun r => r.Address)).Nodup) : StrictByAddress l := by
  have hne : l.Pairwise (fun a b => a.Address ≠ b.Address) := List.pairwise_map.mp hn
  exact List.Pairwise.imp (fun {a b} h => Nat.lt_of_le_of_ne h.1 h.2) (hs.and hne)

theorem sortByAddress_strict (v S : List LineEntry) (hv : List.Sublist v S)
    (hS : (S.map (fun r => r.Address)).Nodup) : StrictByAddress (sortByAddress v) := by
  apply strict_of_sorted_nodup _ (sortByAddress_sorted v)
  have hp := (sortByAddress_perm v).map (fun r => r.Address)
  exact hp.nodup_iff.mpr (hS.sublist (hv.map _))

theorem mem_stmtsFromLexicalBlock (S : List LineEntry) (D : Int) (x : LineEntry) :
    x ∈ stmtsFromLexicalBlock S D ↔ x ∈ S ∧ D < x.Line := by
  unfold stmtsFromLexicalBlock
  rw [mem_sortByAddress, mem_filterAfterLine]

theorem mem_stmtsFromLoclist (S : List LineEntry) (R : List (Nat × Nat)) (D : Int)
    (x : LineEntry) :
    x ∈ stmtsFromLoclist S R D ↔ x ∈ S ∧ rangesContains R x.Address = true ∧ D < x.Line := by
  unfold stmtsFromLoclist
  rw [mem_sortByAddress, mem_filterAfterLine, filterInsideRanges_eq_filter, List.mem_filter]
  exact and_assoc

/-- With distinct addresses, the missing list is the scope-derived set without the
rows inside a range. -/
theorem dovarDiff_missing_filter (S : List LineEntry) (R : List (Nat × Nat)) (D : Int)
    (hS : (S.map (fun r => r.Address)).Nodup) :
    (dovarDiff S R D).missing
      = (stmtsFromLexicalBlock S D).filter (fun r => !rangesContains R r.Address) := by
  have hsubA : List.Sublist (filterAfterLine S D) S := by
    rw [filterAfterLine_eq_filter]; exact List.filter_sublist _
  have hsubB : List.Sublist (filterAfterLine (filterInsideRanges S R) D) S := by
    rw [filterAfterLine_eq_filter, filterInsideRanges_eq_filter]
    exact (List.filter_sublist _).trans (List.filter_sublist _)
  have hA : StrictByAddress (stmtsFromLexicalBlock S D) := sortByAddress_strict _ S hsubA hS
  have hB : StrictByAddress (stmtsFromLoclist S R D) := sortByAddress_strict _ S hsubB hS
  unfold dovarDiff
  rw [(mergeWalk_eq_walkLists _ _).1, (walkLists_filter _ _ hA hB).1]
  apply List.filter_congr
  intro a ha
  have haS := (mem_stmtsFromLexicalBlock S D a).mp ha
  rw [Bool.eq_iff_iff]
  simp only [ne_eq, decide_eq_true_eq, Bool.not_eq_true']
  constructor
  · intro hall
    by_contra hc
    have hin : rangesContains R a.Address = true := by simpa using hc
    exact hall a ((mem_stmtsFromLoclist S R D a).mpr ⟨haS.1, hin, haS.2⟩) rfl
  · intro hout b hb hba
    have hbS := (mem_stmtsFromLoclist S R D b).mp hb
    rw [hba, hout] at hbS
    exact absurd hbS.2.1 (by simp)

theorem baseAfter_snoc (cubase : Nat) (pre : List LoclistEntry) (e : LoclistEntry) :
    baseAfter cubase (pre ++ [e])
      = if e.BaseAddressSelection then e.HighPC else baseAfter cubase pre := by
  unfold baseAfter
  rw [List.reverse_append, List.reverse_singleton, List.singleton_append, List.find?_cons]
  cases h : e.BaseAddressSelection <;> simp

theorem rangesAfter_cons (cubase : Nat) (pre : List LoclistEntry) (e : LoclistEntry)
    (es : List LoclistEntry) :
    rangesAfter cubase pre (e :: es)
      = (rangeOfEntry cubase pre e).toList ++ rangesAfter cubase (pre ++ [e]) es := by
  unfold rangesAfter
  rw [List.length_cons, List.range_succ_eq_map, List.filterMap_cons, List.filterMap_map]
  have hrest : List.filterMap
      ((fun i => ((e :: es).get? i).bind (rangeOfEntry cubase (pre ++ (e :: es).take i)))
        ∘ Nat.succ) (List.range es.length)
      = List.filterMap (fun i => (es.get? i).bind (rangeOfEntry cubase (pre ++ [e] ++ es.take i)))
          (List.range es.length) := by
    apply List.filterMap_congr
    intro i _
    simp
  rw [hrest]
  cases hr : rangeOfEntry cubase pre e <;> simp [hr]

theorem loclistLoop_eq_rangesAfter (cubase : Nat) (pre es : List LoclistEntry)
    (r : List (Nat × Nat)) :
    loclistLoop (baseAfter cubase pre) r es = r ++ rangesAfter cubase pre es := by
  induction es generalizing pre r with
  | nil => simp [loclistLoop, rangesAfter]
  | cons e es ih =>
    rw [rangesAfter_cons]
    unfold loclistLoop
    by_cases hb : e.BaseAddressSelection = true
    · rw [if_pos hb]
      have h1 : baseAfter cubase (pre ++ [e]) = e.HighPC := by
        rw [baseAfter_snoc, if_pos hb]
      rw [← h1, ih (pre ++ [e]) r]
      simp [rangeOfEntry, hb]
    · rw [if_neg hb]
      have h1 : baseAfter cubase (pre ++ [e]) = baseAfter cubase pre := by
        rw [baseAfter_snoc, if_neg hb]
      rw [← h1, ih (pre ++ [e])]
      simp [rangeOfEntry, hb, h1]

theorem LineReader_Next_cases (r : LineReader) (entry : LineEntry) (he : r.err = none) :
    (∃ hp : r.pos < r.rows.length,
      r.Next entry = ⟨none, { r with pos := r.pos + 1 }, r.rows.get ⟨r.pos, hp⟩⟩) ∨
    (¬ r.pos < r.rows.length ∧ r.bad = none ∧ r.Next entry = ⟨some LineErr.EOF, r, entry⟩) ∨
    (∃ msg, ¬ r.pos < r.rows.length ∧ r.bad = some msg ∧
      r.Next entry = ⟨some (LineErr.DecodeError msg), { r with err := some msg }, entry⟩) := by
  unfold LineReader.Next
  rw [he]
  simp only
  by_cases hp : r.pos < r.rows.length
  · exact Or.inl ⟨hp, by rw [dif_pos hp]⟩
  · rw [dif_neg hp]
    cases hb : r.bad with
    | none => exact Or.inr (Or.inl ⟨hp, rfl, rfl⟩)
    | some msg => exact Or.inr (Or.inr ⟨msg, hp, rfl, rfl⟩)

theorem LineReader_Next_err (r : LineReader) (entry : LineEntry) (msg : String)
    (he : r.err = some msg) :
    r.Next entry = ⟨some (LineErr.DecodeError msg), r, entry⟩ := by
  unfold LineReader.Next
  rw [he]

/-- The forward scan of `SeekPC` in list form: a reader that has met an error
reports it again; any other reader scans the rows from its cursor on. -/
theorem seekLoop_eq_seekScan (r : LineReader) (pc : Nat) (entry : LineEntry) :
    seekLoop r pc entry =
      match r.err with
      | some msg => ⟨some (LineErr.DecodeError msg), r, entry⟩
      | none => seekScan r.rows r.bad pc r.pos entry (r.rows.drop r.pos) := by
  cases he : r.err with
  | some msg =>
    have hn := LineReader_Next_err r LineEntry.zero msg he
    rw [seekLoop]
    split
    · next h => rw [hn] at h; simp at h
    · next err hne h =>
      rw [hn] at h ⊢
      simp only [Option.some.injEq] at h
      rw [← h]
    · next h => rw [hn] at h; simp at h
  | none =>
    simp only
    generalize hrest : r.rows.drop r.pos = rest
    induction rest generalizing r entry with
    | nil =>
      have hp : ¬ r.pos < r.rows.length := by
        intro hp
        have hd := drop_get_cons r.rows r.pos hp
        rw [hrest] at hd
        simp at hd
        omega
      rcases LineReader_Next_cases r LineEntry.zero he with ⟨hp1, _⟩ | ⟨_, hb, hn⟩ | ⟨msg, _, hb, hn⟩
      · exact absurd hp1 hp
      · rw [seekLoop]
        split
        · next h =>
          rw [hn]
          simp only [seekScan, hb]
          cases r
          simp_all
        · next err hne h =>
          rw [hn] at h
          simp only [Option.some.injEq] at h
          exact absurd h.symm hne
        · next h => rw [hn] at h; simp at h
      · rw [seekLoop]
        split
        · next h => rw [hn] at h; simp at h
        · next err hne h =>
          rw [hn] at h ⊢
          simp only [Option.some.injEq] at h
          simp only [seekScan, hb, ← h]
        · next h => rw [hn] at h; simp at h
    | cons next rest ih =>
      have hp : r.pos < r.rows.length := by
        by_contra hp
        rw [List.drop_eq_nil_of_le (by omega)] at hrest
        simp at hrest
      have hget : r.rows.get ⟨r.pos, hp⟩ = next ∧ r.rows.drop (r.pos + 1) = rest := by
        rw [drop_get_cons r.rows r.pos hp] at hrest
        simp only [List.cons.injEq] at hrest
        exact hrest
      rcases LineReader_Next_cases r LineEntry.zero he with ⟨hp1, hn⟩ | ⟨hp1, _⟩ | ⟨msg, hp1, _⟩
      · rw [seekLoop]
        split
        · next h => rw [hn] at h; simp at h
        · next err hne h => rw [hn] at h; simp at h
        · next h =>
          rw [hn]
          simp only [hget.1]
          by_cases hgt : next.Address > pc
          · rw [if_pos hgt]
            simp only [seekScan, if_pos hgt]
            by_cases hend : entry.EndSequence = true
            · rw [if_pos hend, if_pos hend]
              cases r
              simp_all
            · rw [if_neg hend, if_neg hend]
              cases r
              simp_all
          · rw [if_neg hgt]
            simp only [seekScan, if_neg hgt]
            exact ih { r with pos := r.pos + 1 } next he hget.2
      · exact absurd hp hp1
      · exact absurd hp hp1

/-- The statement loop over a reader that has met no error: it collects
`collectStmts` and ends without error, unless every row from the current one on
is below `highpc` and the table ends in a decoding error, which the loop hands to
`must`. -/
theorem stmtsLoop_eq_collectStmts (lrdr : LineReader) (lne : LineEntry) (highpc : Nat)
    (stmts : List LineEntry) :
    lrdr.err = none →
    ((lrdr.bad = none ∨ ¬ ∀ x ∈ lne :: lrdr.rows.drop lrdr.pos, x.Address < highpc) →
      ∃ lr1, stmtsLoop lrdr lne highpc stmts
        = Except.ok (stmts ++ collectStmts highpc lne (lrdr.rows.drop lrdr.pos), lr1)) ∧
    (∀ msg, lrdr.bad = some msg →
      (∀ x ∈ lne :: lrdr.rows.drop lrdr.pos, x.Address < highpc) →
      stmtsLoop lrdr lne highpc stmts = Except.error msg) := by
  induction lrdr, lne, highpc, stmts using stmtsLoop.induct with
  | case1 lrdr lne highpc stmts hlt stmts1 hnone ih =>
    intro he
    rcases LineReader_Next_cases lrdr lne he with ⟨hp, hn⟩ | ⟨_, _, hn⟩ | ⟨msg, _, _, hn⟩
    · have hs1 : stmts1 = if lne.IsStmt = true then stmts ++ [lne] else stmts := by
        simp only [stmts1]
        split <;> rfl
      rw [hn] at ih
      simp only at ih
      have ih1 := ih he
      rw [hs1] at ih1
      have hdrop := drop_get_cons lrdr.rows lrdr.pos hp
      have hall : (∀ x ∈ lne :: lrdr.rows.drop lrdr.pos, x.Address < highpc) ↔
          ∀ x ∈ lrdr.rows.get ⟨lrdr.pos, hp⟩ :: lrdr.rows.drop (lrdr.pos + 1),
            x.Address < highpc := by
        rw [hdrop]
        simp only [List.mem_cons, forall_eq_or_imp]
        exact ⟨fun h => h.2, fun h => ⟨hlt, h⟩⟩
      have hunf : stmtsLoop lrdr lne highpc stmts
          = stmtsLoop ⟨lrdr.rows, lrdr.pos + 1, lrdr.bad, lrdr.err⟩
              (lrdr.rows.get ⟨lrdr.pos, hp⟩) highpc
              (if lne.IsStmt = true then stmts ++ [lne] else stmts) := by
        rw [stmtsLoop, if_pos hlt]
        simp only
        split
        · next h1 => rw [hn]
        · next h1 => rw [hnone] at h1; simp at h1
        · next err hne h1 => rw [hnone] at h1; simp at h1
      refine ⟨?_, ?_⟩
      · intro hc
        have hc1 : lrdr.bad = none ∨
            ¬ ∀ x ∈ lrdr.rows.get ⟨lrdr.pos, hp⟩ :: lrdr.rows.drop (lrdr.pos + 1),
              x.Address < highpc := by
          rcases hc with hc | hc
          · exact Or.inl hc
          · exact Or.inr (fun h => hc (hall.mpr h))
        obtain ⟨lr1, hi⟩ := ih1.1 hc1
        refine ⟨lr1, ?_⟩
        rw [hunf, hi, hdrop]
        simp only [collectStmts, if_pos hlt]
        cases hs : lne.IsStmt <;> simp
      · intro msg hb hx
        rw [hunf]
        exact ih1.2 msg hb (hall.mp hx)
    · rw [hn] at hnone; simp at hnone
    · rw [hn] at hnone; simp at hnone
  | case2 lrdr lne highpc stmts hlt heof =>
    intro he
    rcases LineReader_Next_cases lrdr lne he with ⟨hp, hn⟩ | ⟨hp, hb, hn⟩ | ⟨msg, _, _, hn⟩
    · rw [hn] at heof; simp at heof
    · refine ⟨?_, ?_⟩
      · intro _
        refine ⟨lrdr, ?_⟩
        rw [stmtsLoop, if_pos hlt]
        simp only
        split
        · next h1 => rw [heof] at h1; simp at h1
        · next h1 =>
          rw [hn, List.drop_eq_nil_of_le (by omega)]
          simp only [collectStmts, if_pos hlt]
          cases hs : lne.IsStmt <;> simp
        · next err hne h1 =>
          rw [heof] at h1
          simp only [Option.some.injEq] at h1
          exact absurd h1.symm (by intro hc; exact hne hc)
      · intro msg hb1
        rw [hb] at hb1
        simp at hb1
    · rw [hn] at heof; simp at heof
  | case3 lrdr lne highpc stmts hlt err hne herr =>
    intro he
    rcases LineReader_Next_cases lrdr lne he with ⟨hp, hn⟩ | ⟨hp, hb, hn⟩ | ⟨msg, hp, hb, hn⟩
    · rw [hn] at herr; simp at herr
    · rw [hn] at herr
      simp only [Option.some.injEq] at herr
      exact absurd herr.symm hne
    · rw [hn] at herr
      simp only [Option.some.injEq] at herr
      refine ⟨?_, ?_⟩
      · intro hc
        rcases hc with hc | hc
        · rw [hb] at hc; simp at hc
        · exfalso
          apply hc
          rw [List.drop_eq_nil_of_le (by omega)]
          intro x hx
          simp only [List.mem_singleton] at hx
          rw [hx]
          exact hlt
      · intro msg1 hb1 _
        rw [hb] at hb1
        simp only [Option.some.injEq] at hb1
        rw [stmtsLoop, if_pos hlt]
        simp only
        split
        · next h1 => rw [hn] at h1; simp at h1
        · next h1 => rw [hn] at h1; simp at h1
        · next err1 hne1 h1 =>
          rw [hn] at h1
          simp only [Option.some.injEq] at h1
          rw [← h1, ← hb1]
          rfl
  | case4 lrdr lne highpc stmts hlt =>
    intro _
    refine ⟨?_, ?_⟩
    · intro _
      refine ⟨lrdr, ?_⟩
      rw [stmtsLoop, if_neg hlt]
      cases hd : lrdr.rows.drop lrdr.pos <;> simp [collectStmts, hlt]
    · intro msg _ hx
      exact absurd (hx lne (List.mem_cons_self _ _)) hlt

/-- The statement loop over a reader that has met an error: the first `Next`
reports it again. -/
theorem stmtsLoop_of_err (lrdr : LineReader) (lne : LineEntry) (highpc : Nat)
    (stmts : List LineEntry) (msg : String) (he : lrdr.err = some msg) :
    stmtsLoop lrdr lne highpc stmts
      = if lne.Address < highpc then Except.error msg else Except.ok (stmts, lrdr) := by
  have hn := LineReader_Next_err lrdr lne msg he
  by_cases hlt : lne.Address < highpc
  · rw [stmtsLoop, if_pos hlt, if_pos hlt]
    simp only
    split
    · next h1 => rw [hn] at h1; simp at h1
    · next h1 => rw [hn] at h1; simp at h1
    · next err hne h1 =>
      rw [hn] at h1
      simp only [Option.some.injEq] at h1
      rw [← h1]
      rfl
  · rw [stmtsLoop, if_neg hlt, if_neg hlt]

theorem mem_collectStmts (highpc : Nat) (lne : LineEntry) (rest : List LineEntry)
    (x : LineEntry) (hx : x ∈ collectStmts highpc lne rest) :
    x.IsStmt = true ∧ x.Address < highpc ∧ (x = lne ∨ x ∈ rest) := by
  induction rest generalizing lne with
  | nil =>
    unfold collectStmts at hx
    by_cases hlt : lne.Address < highpc
    · rw [if_pos hlt] at hx
      by_cases hs : lne.IsStmt = true
      · rw [if_pos hs] at hx
        simp only [List.mem_singleton] at hx
        subst hx
        exact ⟨hs, hlt, Or.inl rfl⟩
      · rw [if_neg hs] at hx; simp at hx
    · rw [if_neg hlt] at hx; simp at hx
  | cons next rest ih =>
    unfold collectStmts at hx
    by_cases hlt : lne.Address < highpc
    · rw [if_pos hlt] at hx
      rcases List.mem_append.mp hx with h1 | h1
      · by_cases hs : lne.IsStmt = true
        · rw [if_pos hs] at h1
          simp only [List.mem_singleton] at h1
          subst h1
          exact ⟨hs, hlt, Or.inl rfl⟩
        · rw [if_neg hs] at h1; simp at h1
      · obtain ⟨i1, i2, i3⟩ := ih next h1
        refine ⟨i1, i2, Or.inr ?_⟩
        rcases i3 with rfl | i3
        · exact List.mem_cons_self _ _
        · exact List.mem_cons_of_mem _ i3
    · rw [if_neg hlt] at hx; simp at hx

theorem funcStep_var_returned (dw : Data) (name : String) (stmts : List LineEntry)
    (ll : LoclistReader) (cubase : Nat) (s : WalkState) (e : Entry) (rdr : Reader)
    (hn : s.rdr.Next = (some e, rdr))
    (ht : e.Tag = TagVariable ∨ e.Tag = TagFormalParameter)
    (hr : (dovar name (lns stmts s.lexicalBlockStack) e ll cubase).outcome = Outcome.returned) :
    funcStep dw name stmts ll cubase s =
      Step.next ⟨rdr, s.lexicalBlockStack,
        s.out ++ (dovar name (lns stmts s.lexicalBlockStack) e ll cubase).out⟩ := by
  have h0 : ¬ e.Tag = 0 := by rcases ht with h | h <;> rw [h] <;> decide
  have hb : ¬ e.Tag = TagLexDwarfBlock := by rcases ht with h | h <;> rw [h] <;> decide
  unfold funcStep
  rw [hn]
  simp only
  rw [if_neg h0, if_neg hb, if_pos ht, hr]

theorem funcStep_var_halted (dw : Data) (name : String) (stmts : List LineEntry)
    (ll : LoclistReader) (cubase : Nat) (s : WalkState) (e : Entry) (rdr : Reader)
    (hn : s.rdr.Next = (some e, rdr))
    (ht : e.Tag = TagVariable ∨ e.Tag = TagFormalParameter)
    (hr : (dovar name (lns stmts s.lexicalBlockStack) e ll cubase).outcome ≠ Outcome.returned) :
    funcStep dw name stmts ll cubase s =
      Step.done ⟨rdr, s.lexicalBlockStack,
        s.out ++ (dovar name (lns stmts s.lexicalBlockStack) e ll cubase).out⟩
        (dovar name (lns stmts s.lexicalBlockStack) e ll cubase).outcome := by
  have h0 : ¬ e.Tag = 0 := by rcases ht with h | h <;> rw [h] <;> decide
  have hb : ¬ e.Tag = TagLexDwarfBlock := by rcases ht with h | h <;> rw [h] <;> decide
  unfold funcStep
  rw [hn]
  simp only
  rw [if_neg h0, if_neg hb, if_pos ht]

theorem funcStep_marker_end (dw : Data) (name : String) (stmts : List LineEntry)
    (ll : LoclistReader) (cubase : Nat) (s : WalkState) (e : Entry) (rdr : Reader)
    (hn : s.rdr.Next = (some e, rdr)) (ht : e.Tag = 0) (hs : s.lexicalBlockStack = []) :
    funcStep dw name stmts ll cubase s = Step.done ⟨rdr, [], s.out⟩ Outcome.returned := by
  unfold funcStep
  rw [hn]
  simp only
  rw [if_pos ht, if_pos (by rw [hs]; rfl), hs]

/-- `dofunc` on a record with both PC attributes, a line reader, a seek that
does not panic and a row not in the autogenerated file: the walk over the
collected statements. -/
theorem dofunc_walk (dw : Data) (rdr : Reader) (e : Entry) (lr : LineReader)
    (ll : LoclistReader) (cubase lowpc highpc : Nat)
    (hl : e.Val AttrLowpc = some (AttrVal.uint64 lowpc))
    (hh : e.Val AttrHighpc = some (AttrVal.uint64 highpc))
    (hc : (seekLowpc lr lowpc).err = none)
    (fileName : String) (hf : (seekLowpc lr lowpc).entry.File = some fileName)
    (hne : fileName ≠ "<autogenerated>")
    (he : (seekLowpc lr lowpc).lrdr.err = none)
    (hok : (seekLowpc lr lowpc).lrdr.bad = none ∨
      ¬ ∀ x ∈ (seekLowpc lr lowpc).entry ::
          (seekLowpc lr lowpc).lrdr.rows.drop (seekLowpc lr lowpc).lrdr.pos,
        x.Address < highpc) :
    ∃ lr1, dofunc dw rdr e (some lr) ll cubase =
      ⟨(funcLoop dw e.name
          (collectStmts highpc (seekLowpc lr lowpc).entry
            ((seekLowpc lr lowpc).lrdr.rows.drop (seekLowpc lr lowpc).lrdr.pos))
          ll cubase ⟨rdr, [], []⟩).1.rdr,
        some lr1,
        (funcLoop dw e.name
          (collectStmts highpc (seekLowpc lr lowpc).entry
            ((seekLowpc lr lowpc).lrdr.rows.drop (seekLowpc lr lowpc).lrdr.pos))
          ll cubase ⟨rdr, [], []⟩).1.out,
        (funcLoop dw e.name
          (collectStmts highpc (seekLowpc lr lowpc).entry
            ((seekLowpc lr lowpc).lrdr.rows.drop (seekLowpc lr lowpc).lrdr.pos))
          ll cubase ⟨rdr, [], []⟩).2⟩ := by
  obtain ⟨lr1, hs⟩ := (stmtsLoop_eq_collectStmts (seekLowpc lr lowpc).lrdr
    (seekLowpc lr lowpc).entry highpc [] he).1 hok
  refine ⟨lr1, ?_⟩
  unfold dofunc
  simp only [hl, hh, hc, hf, if_neg hne, hs, List.nil_append, trace, Bool.false_eq_true, if_false]

theorem dofunc_no_pc (dw : Data) (rdr : Reader) (e : Entry) (lrdr : Option LineReader)
    (ll : LoclistReader) (cubase : Nat)
    (h : (∀ lowpc, e.Val AttrLowpc ≠ some (AttrVal.uint64 lowpc)) ∨
      (∀ highpc, e.Val AttrHighpc ≠ some (AttrVal.uint64 highpc))) :
    dofunc dw rdr e lrdr ll cubase = ⟨rdr.SkipChildren, lrdr, [], Outcome.returned⟩ := by
  unfold dofunc
  simp only
  split
  · next lowpc highpc h1 h2 =>
    rcases h with h | h
    · exact absurd h1 (h lowpc)
    · exact absurd h2 (h highpc)
  · rfl

theorem dofunc_autogenerated (dw : Data) (rdr : Reader) (e : Entry) (lr : LineReader)
    (ll : LoclistReader) (cubase lowpc highpc : Nat)
    (hl : e.Val AttrLowpc = some (AttrVal.uint64 lowpc))
    (hh : e.Val AttrHighpc = some (AttrVal.uint64 highpc))
    (hc : (seekLowpc lr lowpc).err = none)
    (hf : (seekLowpc lr lowpc).entry.File = some "<autogenerated>") :
    dofunc dw rdr e (some lr) ll cubase
      = ⟨rdr.SkipChildren, some (seekLowpc lr lowpc).lrdr, [], Outcome.returned⟩ := by
  unfold dofunc
  simp only [hl, hh, hc, hf, if_true]

theorem lns_push (stmts : List LineEntry) (st : List LexicalBlock) (b : LexicalBlock) :
    lns stmts (st ++ [b]) = b.stmts := by
  simp [lns]

theorem funcStep_block_ok (dw : Data) (name : String) (stmts : List LineEntry)
    (ll : LoclistReader) (cubase : Nat) (s : WalkState) (e : Entry) (rdr : Reader)
    (b : LexicalBlock)
    (hn : s.rdr.Next = (some e, rdr)) (ht : e.Tag = TagLexDwarfBlock)
    (hm : makeLexicalBlock dw e stmts = Except.ok b) :
    funcStep dw name stmts ll cubase s
      = Step.next ⟨rdr, s.lexicalBlockStack ++ [b], s.out⟩ := by
  have h0 : ¬ e.Tag = 0 := by rw [ht]; decide
  unfold funcStep
  rw [hn]
  simp only
  rw [if_neg h0, if_pos ht, hm]

theorem funcStep_block_error (dw : Data) (name : String) (stmts : List LineEntry)
    (ll : LoclistReader) (cubase : Nat) (s : WalkState) (e : Entry) (rdr : Reader)
    (msg : String)
    (hn : s.rdr.Next = (some e, rdr)) (ht : e.Tag = TagLexDwarfBlock)
    (hm : makeLexicalBlock dw e stmts = Except.error msg) :
    funcStep dw name stmts ll cubase s
      = Step.done ⟨rdr, s.lexicalBlockStack, s.out⟩ (Outcome.panicked msg) := by
  have h0 : ¬ e.Tag = 0 := by rw [ht]; decide
  unfold funcStep
  rw [hn]
  simp only
  rw [if_neg h0, if_pos ht, hm]

theorem funcStep_marker_pop (dw : Data) (name : String) (stmts : List LineEntry)
    (ll : LoclistReader) (cubase : Nat) (s : WalkState) (e : Entry) (rdr : Reader)
    (hn : s.rdr.Next = (some e, rdr)) (ht : e.Tag = 0) (hs : s.lexicalBlockStack ≠ []) :
    funcStep dw name stmts ll cubase s
      = Step.next ⟨rdr, s.lexicalBlockStack.dropLast, s.out⟩ := by
  have hl : ¬ s.lexicalBlockStack.length = 0 := fun h => hs (List.length_eq_zero.mp h)
  unfold funcStep
  rw [hn]
  simp only
  rw [if_pos ht, if_neg hl]

theorem funcStep_other (dw : Data) (name : String) (stmts : List LineEntry)
    (ll : LoclistReader) (cubase : Nat) (s : WalkState) (e : Entry) (rdr : Reader)
    (hn : s.rdr.Next = (some e, rdr)) (h0 : ¬ e.Tag = 0) (hb : ¬ e.Tag = TagLexDwarfBlock)
    (hv : ¬ (e.Tag = TagVariable ∨ e.Tag = TagFormalParameter)) :
    funcStep dw name stmts ll cubase s
      = Step.next ⟨rdr.SkipChildren, s.lexicalBlockStack, s.out⟩ := by
  unfold funcStep
  rw [hn]
  simp only
  rw [if_neg h0, if_neg hb, if_neg hv]

/-- The walk over the stream of a well-formed tree, followed by any records
`tail`, does what the resolution of the tree says and goes on with `tail`. -/
theorem funcLoop_forest (dw : Data) (name : String) (stmts : List LineEntry)
    (ll : LoclistReader) (cubase : Nat) (f : Forest) (hwf : f.wellFormed = true) :
    ∀ (st : List LexicalBlock) (out : List String) (tail : List Entry) (lc : Bool),
      (∀ out1, resolveForest dw name stmts ll cubase (lns stmts st) f out = (out1, none) →
        ∃ lc1, funcLoop dw name stmts ll cubase ⟨⟨f.flatten ++ tail, lc⟩, st, out⟩
          = funcLoop dw name stmts ll cubase ⟨⟨tail, lc1⟩, st, out1⟩) ∧
      (∀ out1 o, resolveForest dw name stmts ll cubase (lns stmts st) f out = (out1, some o) →
        (funcLoop dw name stmts ll cubase ⟨⟨f.flatten ++ tail, lc⟩, st, out⟩).2 = o ∧
        (funcLoop dw name stmts ll cubase ⟨⟨f.flatten ++ tail, lc⟩, st, out⟩).1.out = out1) := by
  induction f with
  | nil =>
    intro st out tail lc
    simp only [resolveForest, Forest.flatten, List.nil_append, Prod.mk.injEq]
    refine ⟨?_, ?_⟩
    · rintro out1 ⟨h1, _⟩
      subst h1
      exact ⟨lc, rfl⟩
    · rintro out1 o ⟨_, h2⟩
      simp at h2
  | var e rest ih =>
    intro st out tail lc
    simp only [Forest.wellFormed, Bool.and_eq_true, Bool.or_eq_true, decide_eq_true_eq] at hwf
    have hn : (⟨e :: (rest.flatten ++ tail), lc⟩ : Reader).Next
        = (some e, ⟨rest.flatten ++ tail, e.Children⟩) := rfl
    simp only [resolveForest, Forest.flatten, List.cons_append]
    by_cases hr : (dovar name (lns stmts st) e ll cubase).outcome = Outcome.returned
    · rw [if_pos hr]
      have hstep := funcStep_var_returned dw name stmts ll cubase
        ⟨⟨e :: (rest.flatten ++ tail), lc⟩, st, out⟩ e _ hn hwf.1 hr
      rw [funcLoop_of_next _ _ _ _ _ _ _ hstep]
      exact ih hwf.2 st _ tail e.Children
    · rw [if_neg hr]
      have hstep := funcStep_var_halted dw name stmts ll cubase
        ⟨⟨e :: (rest.flatten ++ tail), lc⟩, st, out⟩ e _ hn hwf.1 hr
      rw [funcLoop_of_done _ _ _ _ _ _ _ _ hstep]
      simp only [Prod.mk.injEq]
      refine ⟨?_, ?_⟩
      · rintro out1 ⟨_, h2⟩
        simp at h2
      · rintro out1 o ⟨h1, h2⟩
        simp only [Option.some.injEq] at h2
        exact ⟨h2, h1⟩
  | block e kids rest ihk ihr =>
    intro st out tail lc
    simp only [Forest.wellFormed, Bool.and_eq_true, decide_eq_true_eq] at hwf
    have hn : (⟨e :: (kids.flatten ++ endMarker :: (rest.flatten ++ tail)), lc⟩ : Reader).Next
        = (some e, ⟨kids.flatten ++ endMarker :: (rest.flatten ++ tail), e.Children⟩) := rfl
    have hfl : (Forest.block e kids rest).flatten ++ tail
        = e :: (kids.flatten ++ endMarker :: (rest.flatten ++ tail)) := by
      simp [Forest.flatten]
    rw [hfl]
    simp only [resolveForest]
    cases hm : makeLexicalBlock dw e stmts with
    | error msg =>
      have hstep := funcStep_block_error dw name stmts ll cubase
        ⟨⟨e :: (kids.flatten ++ endMarker :: (rest.flatten ++ tail)), lc⟩, st, out⟩ e _ msg
        hn hwf.1.1 hm
      rw [funcLoop_of_done _ _ _ _ _ _ _ _ hstep]
      simp only [Prod.mk.injEq]
      refine ⟨?_, ?_⟩
      · rintro out1 ⟨_, h2⟩
        simp at h2
      · rintro out1 o ⟨h1, h2⟩
        simp only [Option.some.injEq] at h2
        exact ⟨h2, h1⟩
    | ok b =>
      have hstep := funcStep_block_ok dw name stmts ll cubase
        ⟨⟨e :: (kids.flatten ++ endMarker :: (rest.flatten ++ tail)), lc⟩, st, out⟩ e _ b
        hn hwf.1.1 hm
      rw [funcLoop_of_next _ _ _ _ _ _ _ hstep]
      simp only
      have hk := ihk hwf.1.2 (st ++ [b]) out (endMarker :: (rest.flatten ++ tail)) e.Children
      rw [lns_push] at hk
      cases hres : resolveForest dw name stmts ll cubase b.stmts kids out with
      | mk outk ok =>
        cases ok with
        | none =>
          simp only
          obtain ⟨lc1, hk1⟩ := hk.1 outk hres
          rw [hk1]
          have hpop := funcStep_marker_pop dw name stmts ll cubase
            ⟨⟨endMarker :: (rest.flatten ++ tail), lc1⟩, st ++ [b], outk⟩ endMarker
            ⟨rest.flatten ++ tail, false⟩ rfl rfl (by simp)
          rw [funcLoop_of_next _ _ _ _ _ _ _ hpop]
          simp only [List.dropLast_concat]
          exact ihr hwf.2 st outk tail false
        | some o =>
          simp only [Prod.mk.injEq]
          have hk2 := hk.2 outk o hres
          refine ⟨?_, ?_⟩
          · rintro out1 ⟨_, h2⟩
            simp at h2
          · rintro out1 o1 ⟨h1, h2⟩
            simp only [Option.some.injEq] at h2
            rw [← h1, ← h2]
            exact hk2
  | other e sub rest ih =>
    intro st out tail lc
    simp only [Forest.wellFormed, Bool.and_eq_true, Bool.not_eq_true', decide_eq_false_iff_not]
      at hwf
    obtain ⟨⟨⟨⟨⟨h0, hb⟩, hv1⟩, hv2⟩, hbal⟩, hrest⟩ := hwf
    have hfl : (Forest.other e sub rest).flatten ++ tail
        = e :: ((if e.Children then sub ++ [endMarker] else []) ++ (rest.flatten ++ tail)) := by
      simp [Forest.flatten]
    rw [hfl]
    have hn : (⟨e :: ((if e.Children then sub ++ [endMarker] else []) ++ (rest.flatten ++ tail)),
        lc⟩ : Reader).Next
        = (some e, ⟨(if e.Children then sub ++ [endMarker] else []) ++ (rest.flatten ++ tail),
            e.Children⟩) := rfl
    have hstep := funcStep_other dw name stmts ll cubase
      ⟨⟨e :: ((if e.Children then sub ++ [endMarker] else []) ++ (rest.flatten ++ tail)), lc⟩,
        st, out⟩ e _ hn h0 hb (by rintro (h | h); exact hv1 h; exact hv2 h)
    rw [funcLoop_of_next _ _ _ _ _ _ _ hstep]
    have hsk := SkipChildren_subtree e.Children sub (rest.flatten ++ tail) endMarker rfl hbal
    have hrd : ∃ lc1, (Reader.SkipChildren ⟨(if e.Children then sub ++ [endMarker] else [])
        ++ (rest.flatten ++ tail), e.Children⟩) = ⟨rest.flatten ++ tail, lc1⟩ := by
      generalize Reader.SkipChildren ⟨(if e.Children then sub ++ [endMarker] else [])
        ++ (rest.flatten ++ tail), e.Children⟩ = x at hsk
      cases x with
      | mk d l =>
        simp only at hsk
        subst hsk
        exact ⟨l, rfl⟩
    obtain ⟨lc1, hrd⟩ := hrd
    rw [hrd]
    simp only [resolveForest]
    exact ih hrest st out tail lc1

theorem scenario_oneRange_dovar :
    dovar "f" scenarioStmts scenarioVar oneRange 0
      = ⟨["Function f, variable x missing in statements:\n", "\tf.go:8 at 0x40\n", "\n"],
          Outcome.returned⟩ := by
  have hr : loclistRangesAtOffset 0 oneRange 0 = [(0x20, 0x40)] := by decide
  rw [dovar_checked "f" scenarioStmts scenarioVar oneRange 0 0 5 (by decide) (by decide), hr,
    scenario_oneRange_diff.1, scenario_oneRange_diff.2]
  decide

theorem innerBlock_dovar :
    dovar "f" [row 0x20 6] scenarioVar oneRange 0 = ⟨[], Outcome.returned⟩ := by
  have hr : loclistRangesAtOffset 0 oneRange 0 = [(0x20, 0x40)] := by decide
  have hdiff : (dovarDiff [row 0x20 6] [(0x20, 0x40)] 5).missing = [] ∧
      (dovarDiff [row 0x20 6] [(0x20, 0x40)] 5).excess = [] := by
    have hm := mergeWalk_eq_walkLists [row 0x20 6] [row 0x20 6]
    have hw : walkLists [row 0x20 6] [row 0x20 6] = ([], [], 1) := by simp [walkLists]
    rw [hw] at hm
    have h1 : stmtsFromLexicalBlock [row 0x20 6] 5 = [row 0x20 6] := by decide
    have h2 : stmtsFromLoclist [row 0x20 6] [(0x20, 0x40)] 5 = [row 0x20 6] := by decide
    rw [dovarDiff, h1, h2]
    exact ⟨hm.1, hm.2.1⟩
  rw [dovar_checked "f" [row 0x20 6] scenarioVar oneRange 0 0 5 (by decide) (by decide), hr,
    hdiff.1, hdiff.2]
  decide

theorem missingLine_some (r : LineEntry) (name : String) (h : r.File = some name) :
    missingLine r = some ("\t" ++ name ++ ":" ++ toString r.Line ++ " at 0x"
      ++ String.mk (Nat.toDigits 16 r.Address) ++ "\n") := by
  have hs : (" at " : String) ++ "0x" = " at 0x" := by decide
  unfold missingLine fmtHex
  rw [h]
  simp only [Option.some.injEq]
  rw [← hs]
  simp only [String.append_assoc]

theorem missingLoop_all (ms : List LineEntry) (out : List String)
    (h : ∀ r ∈ ms, r.File ≠ none) :
    missingLoop ms out = (out ++ ms.filterMap missingLine, none) := by
  induction ms generalizing out with
  | nil => simp [missingLoop]
  | cons m ms ih =>
    have hm : m.File ≠ none := h m (List.mem_cons_self _ _)
    obtain ⟨name, hn⟩ := Option.ne_none_iff_exists'.mp hm
    have hl := missingLine_some m name hn
    rw [missingLoop, hl]
    simp only
    rw [ih _ (fun r hr => h r (List.mem_cons_of_mem _ hr))]
    simp [hl]

theorem missingLoop_nil_file (pre post : List LineEntry) (r : LineEntry) (out : List String)
    (h : ∀ x ∈ pre, x.File ≠ none) (hr : r.File = none) :
    missingLoop (pre ++ r :: post) out
      = (out ++ pre.filterMap missingLine, some (Outcome.panicked nilDereference)) := by
  induction pre generalizing out with
  | nil =>
    have hl : missingLine r = none := by unfold missingLine; rw [hr]
    simp [missingLoop, hl]
  | cons m pre ih =>
    have hm : m.File ≠ none := h m (List.mem_cons_self _ _)
    obtain ⟨name, hn⟩ := Option.ne_none_iff_exists'.mp hm
    have hl := missingLine_some m name hn
    rw [List.cons_append, missingLoop, hl]
    simp only
    rw [ih _ (fun x hx => h x (List.mem_cons_of_mem _ hx))]
    simp [hl]

theorem report_all (fnname varname : String) (missing excess : List LineEntry)
    (h : ∀ r ∈ missing, r.File ≠ none) :
    report fnname varname missing excess =
      ⟨(if missing = [] then [] else
          [missingHeader fnname varname] ++ missing.filterMap missingLine ++ ["\n"])
        ++ (if excess = [] then [] else [excessLine excess]),
       if excess = [] then Outcome.returned else Outcome.exited 1⟩ := by
  unfold report
  cases missing with
  | nil => cases excess <;> simp
  | cons m ms =>
    rw [missingLoop_all (m :: ms) _ h]
    cases excess <;> simp [trace]

theorem report_nil_file (fnname varname : String) (pre post excess : List LineEntry)
    (r : LineEntry) (h : ∀ x ∈ pre, x.File ≠ none) (hr : r.File = none) :
    report fnname varname (pre ++ r :: post) excess =
      ⟨[missingHeader fnname varname] ++ pre.filterMap missingLine,
        Outcome.panicked nilDereference⟩ := by
  unfold report
  rw [missingLoop_nil_file pre post r _ h hr]
  simp [trace]

theorem first_nil_file (ms : List LineEntry) (h : ¬ ∀ r ∈ ms, r.File ≠ none) :
    ∃ pre x post, ms = pre ++ x :: post ∧ (∀ y ∈ pre, y.File ≠ none) ∧ x.File = none := by
  induction ms with
  | nil => simp at h
  | cons m ms ih =>
    by_cases hm : m.File = none
    · exact ⟨[], m, ms, rfl, by simp, hm⟩
    · have h1 : ¬ ∀ r ∈ ms, r.File ≠ none := by
        intro hc
        apply h
        intro r hr
        rcases List.mem_cons.mp hr with rfl | hr
        · exact hm
        · exact hc r hr
      obtain ⟨pre, x, post, he, hp, hx⟩ := ih h1
      refine ⟨m :: pre, x, post, by rw [he]; rfl, ?_, hx⟩
      intro y hy
      rcases List.mem_cons.mp hy with rfl | hy
      · exact hm
      · exact hp y hy

theorem report_exited_iff (fnname varname : String) (missing excess : List LineEntry) :
    (report fnname varname missing excess).outcome = Outcome.exited 1 ↔
      excess ≠ [] ∧ ∀ r ∈ missing, r.File ≠ none := by
  by_cases h : ∀ r ∈ missing, r.File ≠ none
  · rw [report_all fnname varname missing excess h]
    by_cases hx : excess = []
    · simp [hx]
    · simp only [hx, if_false, ne_eq, not_false_eq_true, true_and, true_iff]
      exact h
  · obtain ⟨pre, x, post, he, hp, hx⟩ := first_nil_file missing h
    rw [he, report_nil_file fnname varname pre post excess x hp hx]
    rw [← he]
    simp [h]

theorem report_not_exited_of_excess_nil (fnname varname : String) (missing : List LineEntry)
    (code : Nat) : (report fnname varname missing []).outcome ≠ Outcome.exited code := by
  by_cases h : ∀ r ∈ missing, r.File ≠ none
  · rw [report_all fnname varname missing [] h]
    simp
  · obtain ⟨pre, x, post, he, hp, hx⟩ := first_nil_file missing h
    rw [he, report_nil_file fnname varname pre post [] x hp hx]
    simp

theorem balanced_marker (d : Nat) (e : Entry) (rest : List Entry) (h0 : e.Tag = 0) :
    balanced (d + 1) (e :: rest) = balanced d rest := by
  simp [balanced, h0]

theorem balanced_open (d : Nat) (e : Entry) (rest : List Entry) (h0 : ¬ e.Tag = 0)
    (hc : e.Children = true) : balanced d (e :: rest) = balanced (d + 1) rest := by
  simp [balanced, h0, hc]

theorem balanced_leaf (d : Nat) (e : Entry) (rest : List Entry) (h0 : ¬ e.Tag = 0)
    (hc : ¬ e.Children = true) : balanced d (e :: rest) = balanced d rest := by
  simp [balanced, h0, hc]

theorem balanced_append (k t : List Entry) (i j : Nat) (hk : balanced i k = true) :
    balanced (i + j) (k ++ t) = balanced j t := by
  induction k generalizing i with
  | nil =>
    simp only [balanced, beq_iff_eq] at hk
    subst hk
    simp
  | cons e k ih =>
    rw [List.cons_append]
    by_cases h0 : e.Tag = 0
    · cases i with
      | zero => simp [balanced, h0] at hk
      | succ d =>
        rw [balanced_marker d e k h0] at hk
        have hd : d + 1 + j = (d + j) + 1 := by omega
        rw [hd, balanced_marker (d + j) e (k ++ t) h0]
        exact ih d hk
    · by_cases hc : e.Children = true
      · rw [balanced_open i e k h0 hc] at hk
        rw [balanced_open (i + j) e (k ++ t) h0 hc]
        have hd : i + j + 1 = (i + 1) + j := by omega
        rw [hd]
        exact ih (i + 1) hk
      · rw [balanced_leaf i e k h0 hc] at hk
        rw [balanced_leaf (i + j) e (k ++ t) h0 hc]
        exact ih i hk

theorem balanced_split (n : Nat) : ∀ (es : List Entry) (d : Nat), es.length ≤ n →
    balanced (d + 1) es = true →
    ∃ kids m rest, es = kids ++ m :: rest ∧ balanced 0 kids = true ∧ m.Tag = 0 ∧
      balanced d rest = true := by
  induction n with
  | zero =>
    intro es d hl hb
    have he : es = [] := List.length_eq_zero.mp (Nat.le_zero.mp hl)
    subst he
    simp [balanced] at hb
  | succ n ih =>
    intro es d hl hb
    cases es with
    | nil => simp [balanced] at hb
    | cons e tl =>
      have hl1 : tl.length ≤ n := by simpa using hl
      unfold balanced at hb
      by_cases h0 : e.Tag = 0
      · rw [if_pos h0] at hb
        simp only at hb
        exact ⟨[], e, tl, rfl, rfl, h0, hb⟩
      · rw [if_neg h0] at hb
        by_cases hc : e.Children = true
        · rw [if_pos hc] at hb
          obtain ⟨k1, m1, r1, he1, hk1, hm1, hr1⟩ := ih tl (d + 1) hl1 hb
          have hl2 : r1.length ≤ n := by
            have : tl.length = k1.length + (r1.length + 1) := by rw [he1]; simp
            omega
          obtain ⟨k2, m2, r2, he2, hk2, hm2, hr2⟩ := ih r1 d hl2 hr1
          refine ⟨e :: (k1 ++ m1 :: k2), m2, r2, ?_, ?_, hm2, hr2⟩
          · rw [he1, he2]; simp
          · rw [balanced_open 0 e _ h0 hc]
            have := balanced_append k1 (m1 :: k2) 0 1 hk1
            rw [this, balanced_marker 0 m1 k2 hm1]
            exact hk2
        · rw [if_neg hc] at hb
          obtain ⟨k, m, r, he, hk, hm, hr⟩ := ih tl d hl1 hb
          refine ⟨e :: k, m, r, by rw [he]; rfl, ?_, hm, hr⟩
          rw [balanced_leaf 0 e k h0 hc]
          exact hk

/-- Every well-nested run of records with bare end markers, in which no variable or
parameter record has children and every block-open record has children, is the
record stream of a well-formed tree. -/
theorem forest_of_balanced (n : Nat) : ∀ (es : List Entry), es.length ≤ n →
    balanced 0 es = true →
    (∀ e ∈ es, e.Tag = 0 → e = endMarker) →
    (∀ e ∈ es, (e.Tag = TagVariable ∨ e.Tag = TagFormalParameter) → e.Children = false) →
    (∀ e ∈ es, e.Tag = TagLexDwarfBlock → e.Children = true) →
    ∃ f : Forest, f.wellFormed = true ∧ f.treeFlags = true ∧ f.flatten = es := by
  induction n with
  | zero =>
    intro es hl _ _ _ _
    have he : es = [] := List.length_eq_zero.mp (Nat.le_zero.mp hl)
    subst he
    exact ⟨Forest.nil, rfl, rfl, rfl⟩
  | succ n ih =>
    intro es hl hb hmark hvar hblk
    cases es with
    | nil => exact ⟨Forest.nil, rfl, rfl, rfl⟩
    | cons e tl =>
      have hl1 : tl.length ≤ n := by simpa using hl
      unfold balanced at hb
      by_cases h0 : e.Tag = 0
      · rw [if_pos h0] at hb
        simp at hb
      · rw [if_neg h0] at hb
        have hve := hvar e (List.mem_cons_self _ _)
        have hbe := hblk e (List.mem_cons_self _ _)
        by_cases hc : e.Children = true
        · rw [if_pos hc] at hb
          obtain ⟨kids, m, rest, he, hk, hm, hr⟩ := balanced_split n tl 0 hl1 hb
          have hme : m = endMarker :=
            hmark m (List.mem_cons_of_mem _ (by rw [he]; simp)) hm
          have hlr : rest.length ≤ n := by
            have : tl.length = kids.length + (rest.length + 1) := by rw [he]; simp
            omega
          have hlk : kids.length ≤ n := by
            have : tl.length = kids.length + (rest.length + 1) := by rw [he]; simp
            omega
          have hsubr : ∀ x ∈ rest, x ∈ e :: tl := by
            intro x hx
            exact List.mem_cons_of_mem _ (by rw [he]; simp [hx])
          have hsubk : ∀ x ∈ kids, x ∈ e :: tl := by
            intro x hx
            exact List.mem_cons_of_mem _ (by rw [he]; simp [hx])
          obtain ⟨fr, hfr1, hfr2, hfr3⟩ := ih rest hlr hr
            (fun x hx => hmark x (hsubr x hx)) (fun x hx => hvar x (hsubr x hx))
            (fun x hx => hblk x (hsubr x hx))
          by_cases hv : e.Tag = TagVariable ∨ e.Tag = TagFormalParameter
          · rw [hve hv] at hc
            simp at hc
          · by_cases hbk : e.Tag = TagLexDwarfBlock
            · obtain ⟨fk, hfk1, hfk2, hfk3⟩ := ih kids hlk hk
                (fun x hx => hmark x (hsubk x hx)) (fun x hx => hvar x (hsubk x hx))
                (fun x hx => hblk x (hsubk x hx))
              refine ⟨Forest.block e fk fr, ?_, ?_, ?_⟩
              · simp [Forest.wellFormed, hbk, hfk1, hfr1]
              · simp [Forest.treeFlags, hc, hfk2, hfr2]
              · simp [Forest.flatten, hfk3, hfr3, he, hme]
            · refine ⟨Forest.other e kids fr, ?_, ?_, ?_⟩
              · have hv1 : ¬ e.Tag = TagVariable := fun h => hv (Or.inl h)
                have hv2 : ¬ e.Tag = TagFormalParameter := fun h => hv (Or.inr h)
                simp [Forest.wellFormed, h0, hbk, hv1, hv2, hk, hfr1]
              · simp [Forest.treeFlags, hfr2]
              · simp [Forest.flatten, hc, hfr3, he, hme]
        · rw [if_neg hc] at hb
          have hsub : ∀ x ∈ tl, x ∈ e :: tl := fun x hx => List.mem_cons_of_mem _ hx
          obtain ⟨fr, hfr1, hfr2, hfr3⟩ := ih tl hl1 hb
            (fun x hx => hmark x (hsub x hx)) (fun x hx => hvar x (hsub x hx))
            (fun x hx => hblk x (hsub x hx))
          by_cases hv : e.Tag = TagVariable ∨ e.Tag = TagFormalParameter
          · refine ⟨Forest.var e fr, ?_, ?_, ?_⟩
            · rcases hv with hv | hv <;> simp [Forest.wellFormed, hv, hfr1]
            · simp [Forest.treeFlags, hc, hfr2]
            · simp [Forest.flatten, hfr3]
          · by_cases hbk : e.Tag = TagLexDwarfBlock
            · exact absurd (hbe hbk) hc
            · refine ⟨Forest.other e [] fr, ?_, ?_, ?_⟩
              · have hv1 : ¬ e.Tag = TagVariable := fun h => hv (Or.inl h)
                have hv2 : ¬ e.Tag = TagFormalParameter := fun h => hv (Or.inr h)
                simp [Forest.wellFormed, h0, hbk, hv1, hv2, balanced, hfr1]
              · simp [Forest.treeFlags, hfr2]
              · simp [Forest.flatten, hc, hfr3]

/-- The stream of a well-formed tree whose children flags agree with it is well
nested. -/
theorem balanced_flatten (f : Forest) (hwf : f.wellFormed = true) (hfl : f.treeFlags = true) :
    balanced 0 f.flatten = true := by
  induction f with
  | nil => rfl
  | var e rest ih =>
    simp only [Forest.wellFormed, Bool.and_eq_true, Bool.or_eq_true, decide_eq_true_eq] at hwf
    simp only [Forest.treeFlags, Bool.and_eq_true, Bool.not_eq_true'] at hfl
    have h0 : ¬ e.Tag = 0 := by rcases hwf.1 with h | h <;> rw [h] <;> decide
    simp only [Forest.flatten]
    rw [balanced_leaf 0 e _ h0 (by rw [hfl.1]; simp)]
    exact ih hwf.2 hfl.2
  | block e kids rest ihk ihr =>
    simp only [Forest.wellFormed, Bool.and_eq_true, decide_eq_true_eq] at hwf
    simp only [Forest.treeFlags, Bool.and_eq_true] at hfl
    have h0 : ¬ e.Tag = 0 := by rw [hwf.1.1]; decide
    simp only [Forest.flatten]
    rw [balanced_open 0 e _ h0 hfl.1.1]
    have := balanced_append kids.flatten (endMarker :: rest.flatten) 0 1 (ihk hwf.1.2 hfl.1.2)
    rw [this, balanced_marker 0 endMarker _ rfl]
    exact ihr hwf.2 hfl.2
  | other e sub rest ih =>
    simp only [Forest.wellFormed, Bool.and_eq_true, Bool.not_eq_true', decide_eq_false_iff_not]
      at hwf
    simp only [Forest.treeFlags] at hfl
    obtain ⟨⟨⟨⟨⟨h0, _⟩, _⟩, _⟩, hsub⟩, hr⟩ := hwf
    simp only [Forest.flatten]
    by_cases hc : e.Children = true
    · rw [balanced_open 0 e _ h0 hc, if_pos hc, List.append_assoc]
      have := balanced_append sub ([endMarker] ++ rest.flatten) 0 1 hsub
      rw [this]
      simp only [List.singleton_append]
      rw [balanced_marker 0 endMarker _ rfl]
      exact ih hr hfl
    · rw [balanced_leaf 0 e _ h0 hc, if_neg hc, List.nil_append]
      exact ih hr hfl
/-! ## The claims -/

/-- C1: for sequences `A` (scope-derived) and `B` (location-derived) that are each
strictly increasing by address, the merge walk of `dovar` leaves in `missing`
exactly the rows of `A` whose address is the address of no row of `B`, in the
order of `A`, and in `excess` exactly the rows of `B` whose address is the
address of no row of `A`, in the order of `B`. -/
theorem mergeWalk_missing_excess_exact (A B : List LineEntry)
    (hA : StrictByAddress A) (hB : StrictByAddress B) :
    (mergeWalk A B).missing = A.filter (fun a => decide (∀ b ∈ B, b.Address ≠ a.Address)) ∧
    (mergeWalk A B).excess = B.filter (fun b => decide (∀ a ∈ A, a.Address ≠ b.Address)) := by
  have hw := mergeWalk_eq_walkLists A B
  have hf := walkLists_filter A B hA hB
  exact ⟨hw.1.trans hf.1, hw.2.1.trans hf.2⟩

/-- Witness of C1 at `A` with rows at `0x10, 0x20, 0x40` and `B` with rows at
`0x20, 0x30`. -/
theorem mergeWalk_missing_excess_exact_witness :
    StrictByAddress [row 0x10 5, row 0x20 6, row 0x40 8] ∧
    StrictByAddress [row 0x20 6, row 0x30 7] ∧
    (mergeWalk [row 0x10 5, row 0x20 6, row 0x40 8] [row 0x20 6, row 0x30 7]).missing
      = [row 0x10 5, row 0x40 8] ∧
    (mergeWalk [row 0x10 5, row 0x20 6, row 0x40 8] [row 0x20 6, row 0x30 7]).excess
      = [row 0x30 7] := by
  have h := mergeWalk_missing_excess_exact [row 0x10 5, row 0x20 6, row 0x40 8]
    [row 0x20 6, row 0x30 7] (by decide) (by decide)
  refine ⟨by decide, by decide, ?_, ?_⟩
  · rw [h.1]; decide
  · rw [h.2]; decide

/-- C2: the merge walk of `dovar` satisfies
`2 * matched + len(missing) + len(excess) = len(A) + len(B)`, where `matched`
counts the steps in which both cursors advance on equal addresses.  It holds for
all sequences, in particular for address-sorted ones without duplicate addresses. -/
theorem mergeWalk_count (A B : List LineEntry) :
    2 * (mergeWalk A B).matched + (mergeWalk A B).missing.length
      + (mergeWalk A B).excess.length = A.length + B.length := by
  have hw := mergeWalk_eq_walkLists A B
  rw [hw.1, hw.2.1, hw.2.2]
  exact walkLists_count A B

/-- C3 (counterexample): with rows at `0x10, 0x20, 0x30, 0x40` (lines 5 to 8), a
variable declared at line 5 and the decoded ranges `[0x10,0x40)`, `[0x40,0x50)`,
it is not the case that the location-derived set has an address outside the
scope-derived set, that the excess list is non-empty and that the run exits
with status 1. -/
theorem scenario_twoRanges_counterexample :
    ¬ ((∃ r ∈ stmtsFromLoclist scenarioStmts (loclistRangesAtOffset 0 twoRanges 0) 5,
          ∀ r1 ∈ stmtsFromLexicalBlock scenarioStmts 5, r1.Address ≠ r.Address) ∧
        (dovarDiff scenarioStmts (loclistRangesAtOffset 0 twoRanges 0) 5).excess ≠ [] ∧
        (dovar "f" scenarioStmts scenarioVar twoRanges 0).outcome = Outcome.exited 1) := by
  have hr : loclistRangesAtOffset 0 twoRanges 0 = [(0x10, 0x40), (0x40, 0x50)] := by decide
  rw [hr]
  intro h
  exact h.2.1 scenario_twoRanges_diff.2

/-- C3 (amended): in that scenario the location-derived set is the rows at
`0x20, 0x30, 0x40`, the same as the scope-derived set (the row at `0x10` is
removed by the declaration-line filter, and no row of the sequence lies beyond
`0x40`); the missing and excess lists are empty and `dovar` returns without
printing, so the run is not terminated. -/
theorem scenario_twoRanges_no_excess :
    loclistRangesAtOffset 0 twoRanges 0 = [(0x10, 0x40), (0x40, 0x50)] ∧
    stmtsFromLexicalBlock scenarioStmts 5 = [row 0x20 6, row 0x30 7, row 0x40 8] ∧
    stmtsFromLoclist scenarioStmts (loclistRangesAtOffset 0 twoRanges 0) 5
      = [row 0x20 6, row 0x30 7, row 0x40 8] ∧
    (dovarDiff scenarioStmts (loclistRangesAtOffset 0 twoRanges 0) 5).missing = [] ∧
    (dovarDiff scenarioStmts (loclistRangesAtOffset 0 twoRanges 0) 5).excess = [] ∧
    dovar "f" scenarioStmts scenarioVar twoRanges 0 = ⟨[], Outcome.returned⟩ := by
  have hr : loclistRangesAtOffset 0 twoRanges 0 = [(0x10, 0x40), (0x40, 0x50)] := by decide
  have hd := dovar_checked "f" scenarioStmts scenarioVar twoRanges 0 0 5 (by decide) (by decide)
  rw [hr] at hd ⊢
  refine ⟨rfl, scenario_scopeDerived, scenario_twoRanges_locDerived,
    scenario_twoRanges_diff.1, scenario_twoRanges_diff.2, ?_⟩
  rw [hd, scenario_twoRanges_diff.1, scenario_twoRanges_diff.2]
  decide

/-- C4: with rows at `0x10, 0x20, 0x30, 0x40` (lines 5 to 8), a variable declared at
line 5 and the single decoded range `[0x20,0x40)`, the scope-derived set is the
rows at `0x20, 0x30, 0x40`, the location-derived set is the rows at `0x20, 0x30`,
the missing list is the one row at `0x40`, the excess list is empty, and `dovar`
prints the missing report and returns (the run is not terminated). -/
theorem scenario_oneRange_one_missing :
    loclistRangesAtOffset 0 oneRange 0 = [(0x20, 0x40)] ∧
    (stmtsFromLexicalBlock scenarioStmts 5).map (fun r => r.Address) = [0x20, 0x30, 0x40] ∧
    (stmtsFromLoclist scenarioStmts (loclistRangesAtOffset 0 oneRange 0) 5).map
      (fun r => r.Address) = [0x20, 0x30] ∧
    (dovarDiff scenarioStmts (loclistRangesAtOffset 0 oneRange 0) 5).missing = [row 0x40 8] ∧
    (dovarDiff scenarioStmts (loclistRangesAtOffset 0 oneRange 0) 5).excess = [] ∧
    dovar "f" scenarioStmts scenarioVar oneRange 0
      = ⟨["Function f, variable x missing in statements:\n", "\tf.go:8 at 0x40\n", "\n"],
          Outcome.returned⟩ := by
  have hr : loclistRangesAtOffset 0 oneRange 0 = [(0x20, 0x40)] := by decide
  have hd := dovar_checked "f" scenarioStmts scenarioVar oneRange 0 0 5 (by decide) (by decide)
  rw [hr] at hd ⊢
  refine ⟨rfl, ?_, ?_, scenario_oneRange_diff.1, scenario_oneRange_diff.2, ?_⟩
  · rw [scenario_scopeDerived]; decide
  · rw [scenario_oneRange_locDerived]; decide
  · rw [hd, scenario_oneRange_diff.1, scenario_oneRange_diff.2]
    decide

/-- C5 (counterexample): in the walk over the scenario's statement sequence, a
block-open record with range `[0x20,0x30)` met while the block `[0x10,0x20)` is on
top of the stack pushes a block whose sequence is the row at `0x20`, which is
not the top-of-stack sequence (the row at `0x10`) filtered to the new range. -/
theorem pushed_block_counterexample :
    walkSteps sampleData "f" scenarioStmts oneRange 0 1 nestedStart
      = some (nestedOuter, [blockRec 0x10 0x20]) ∧
    funcStep sampleData "f" scenarioStmts oneRange 0 nestedOuter = Step.next nestedInner ∧
    nestedInner.lexicalBlockStack
      = nestedOuter.lexicalBlockStack ++ [⟨[(0x20, 0x30)], [row 0x20 6]⟩] ∧
    lns scenarioStmts nestedOuter.lexicalBlockStack = [row 0x10 5] ∧
    ¬ ([row 0x20 6]
        = filterInsideRanges (lns scenarioStmts nestedOuter.lexicalBlockStack) [(0x20, 0x30)]) := by
  decide

/-- C5 (amended): for every function and every block-open record met during the
child-record walk (whose ranges decode), the statement sequence of the pushed
`LexicalBlock` is the function's statement sequence filtered to the rows whose
address lies inside the new block's ranges, whatever block is on top of the
stack. -/
theorem block_open_pushes_function_filter (dw : Data) (name : String) (stmts : List LineEntry)
    (ll : LoclistReader) (cubase : Nat) (s : WalkState) (e : Entry) (rdr : Reader)
    (rngs : List (Nat × Nat))
    (hn : s.rdr.Next = (some e, rdr)) (ht : e.Tag = TagLexDwarfBlock)
    (hr : dw.Ranges e = Except.ok rngs) :
    funcStep dw name stmts ll cubase s =
      Step.next ⟨rdr, s.lexicalBlockStack ++ [⟨rngs, filterInsideRanges stmts rngs⟩], s.out⟩ := by
  have h0 : ¬ e.Tag = 0 := by rw [ht]; decide
  unfold funcStep
  rw [hn]
  simp only
  rw [if_neg h0, if_pos ht]
  simp [makeLexicalBlock, hr]

/-- Witness of C5 (amended) at the second block-open record of the nested-block
example. -/
theorem block_open_pushes_function_filter_witness :
    nestedOuter.rdr.Next = (some (blockRec 0x20 0x30), nestedInner.rdr) ∧
    (blockRec 0x20 0x30).Tag = TagLexDwarfBlock ∧
    sampleData.Ranges (blockRec 0x20 0x30) = Except.ok [(0x20, 0x30)] ∧
    funcStep sampleData "f" scenarioStmts oneRange 0 nestedOuter =
      Step.next ⟨nestedInner.rdr,
        nestedOuter.lexicalBlockStack
          ++ [⟨[(0x20, 0x30)], filterInsideRanges scenarioStmts [(0x20, 0x30)]⟩],
        nestedOuter.out⟩ :=
  ⟨by decide, by decide, rfl,
   block_open_pushes_function_filter sampleData "f" scenarioStmts oneRange 0 nestedOuter
     (blockRec 0x20 0x30) nestedInner.rdr [(0x20, 0x30)] (by decide) (by decide) rfl⟩

/-- C6 (counterexample): a variable record without a location attribute (neither an
inline expression nor a list offset) is not skipped: `dovar` panics. -/
theorem dovar_absent_location_counterexample :
    isInlineExpr (bareVar.Val AttrLocation) = false ∧
    isInt64 (bareVar.Val AttrLocation) = false ∧
    dovar "f" scenarioStmts bareVar oneRange 0 = ⟨[], Outcome.panicked "unknown loclist type"⟩ ∧
    (dovar "f" scenarioStmts bareVar oneRange 0).outcome ≠ Outcome.returned := by
  decide

/-- C6 (amended): `dovar` skips a record (returns without printing) when its
location attribute is an inline expression, and when it is a list offset and
the record has no decoded declaration line; a record whose location attribute is
neither an inline expression nor a list offset makes `dovar` panic with
"unknown loclist type", whatever its declaration line. -/
theorem dovar_skip_or_panic (fnname : String) (stmts : List LineEntry) (e : Entry)
    (ll : LoclistReader) (cubase : Nat) :
    (isInlineExpr (e.Val AttrLocation) = true →
      dovar fnname stmts e ll cubase = ⟨[], Outcome.returned⟩) ∧
    (isInt64 (e.Val AttrLocation) = true → isInt64 (e.Val AttrDeclLine) = false →
      dovar fnname stmts e ll cubase = ⟨[], Outcome.returned⟩) ∧
    (isInlineExpr (e.Val AttrLocation) = false → isInt64 (e.Val AttrLocation) = false →
      dovar fnname stmts e ll cubase = ⟨[], Outcome.panicked "unknown loclist type"⟩) := by
  unfold dovar
  refine ⟨?_, ?_, ?_⟩
  · intro h
    cases hl : e.Val AttrLocation with
    | none => rw [hl] at h; simp [isInlineExpr] at h
    | some v => cases v <;> simp_all [isInlineExpr]
  · intro h hd
    cases hl : e.Val AttrLocation with
    | none => rw [hl] at h; simp [isInt64] at h
    | some v =>
      cases v <;> simp_all [isInt64]
      cases hdl : e.Val AttrDeclLine with
      | none => rfl
      | some w => cases w <;> simp_all
  · intro h hd
    cases hl : e.Val AttrLocation with
    | none => rfl
    | some v => cases v <;> simp_all [isInt64, isInlineExpr]

/-- Witness of C6 (amended): the three cases at concrete records. -/
theorem dovar_skip_or_panic_witness :
    (isInlineExpr (inlineVar.Val AttrLocation) = true ∧
      dovar "f" scenarioStmts inlineVar oneRange 0 = ⟨[], Outcome.returned⟩) ∧
    (isInt64 (noLineVar.Val AttrLocation) = true ∧ isInt64 (noLineVar.Val AttrDeclLine) = false ∧
      dovar "f" scenarioStmts noLineVar oneRange 0 = ⟨[], Outcome.returned⟩) ∧
    (isInlineExpr (bareVar.Val AttrLocation) = false ∧ isInt64 (bareVar.Val AttrLocation) = false ∧
      dovar "f" scenarioStmts bareVar oneRange 0
        = ⟨[], Outcome.panicked "unknown loclist type"⟩) :=
  ⟨⟨by decide, (dovar_skip_or_panic "f" scenarioStmts inlineVar oneRange 0).1 (by decide)⟩,
   ⟨by decide, by decide,
    (dovar_skip_or_panic "f" scenarioStmts noLineVar oneRange 0).2.1 (by decide) (by decide)⟩,
   ⟨by decide, by decide,
    (dovar_skip_or_panic "f" scenarioStmts bareVar oneRange 0).2.2 (by decide) (by decide)⟩⟩

/-- C7 (counterexample): a compile unit with both producer markers and an empty
address-range list whose line table cannot be opened is not skipped: the record
loop ends in the panic of `must`, and so does `main`. -/
theorem compileUnit_filter_counterexample :
    emptyUnit.Tag = TagCompileUnit ∧
    brokenLineData.Ranges emptyUnit = Except.ok [] ∧
    entryStep brokenLineData oneRange ⟨⟨[emptyUnit, endMarker], false⟩, none, 0, [], 0⟩
      = Step.done ⟨⟨[endMarker], true⟩, none, 0, [], 0⟩ (Outcome.panicked "bad line table") ∧
    (main brokenLineData oneRange [emptyUnit, endMarker]).2
      = Outcome.panicked "bad line table" := by
  have hs : entryStep brokenLineData oneRange ⟨⟨[emptyUnit, endMarker], false⟩, none, 0, [], 0⟩
      = Step.done ⟨⟨[endMarker], true⟩, none, 0, [], 0⟩ (Outcome.panicked "bad line table") := by
    decide
  refine ⟨by decide, rfl, hs, ?_⟩
  rw [main, entryLoop_of_done _ _ _ _ _ hs]

/-- C7 (amended): on a compile-unit record followed by its well-nested children,
one iteration of the record loop of `main` leaves the reader after the unit's
children, prints nothing and calls `dofunc` on nothing, when the producer attribute is
not a string, or lacks "Go", or lacks "-N -l", or when the unit's line table
opens without error and its address-range list is empty; on an accepted unit
the iteration goes on into the children with `cubase` the low address of the
unit's first range; and `dofunc` is handed the current `cubase` for every
subprogram record. -/
theorem compileUnit_filter (dw : Data) (ll : LoclistReader) (s : MainState) (cu m : Entry)
    (kids rest : List Entry)
    (hcu : cu.Tag = TagCompileUnit) (hm : m.Tag = 0) (hk : balanced 0 kids = true)
    (hs : s.rdr.data = cu :: ((if cu.Children then kids ++ [m] else []) ++ rest)) :
    (((∀ p, cu.Val AttrProducer ≠ some (AttrVal.str p)) ∨
       (∃ p, cu.Val AttrProducer = some (AttrVal.str p) ∧ stringsContains p "Go" = false) ∨
       (∃ p, cu.Val AttrProducer = some (AttrVal.str p) ∧ stringsContains p "-N -l" = false) ∨
       ((∃ lr, dw.LineReader cu = Except.ok lr) ∧ dw.Ranges cu = Except.ok [])) →
      ∃ s1, entryStep dw ll s = Step.next s1 ∧ s1.rdr.data = rest ∧ s1.out = s.out ∧
        s1.calls = s.calls ∧ s1.cubase = s.cubase) ∧
    (∀ p lr rng rngs, cu.Val AttrProducer = some (AttrVal.str p) →
      stringsContains p "Go" = true → stringsContains p "-N -l" = true →
      dw.LineReader cu = Except.ok lr → dw.Ranges cu = Except.ok (rng :: rngs) →
      entryStep dw ll s =
        Step.next ⟨⟨(if cu.Children then kids ++ [m] else []) ++ rest, cu.Children⟩,
          lr, rng.1, s.out, s.calls⟩) ∧
    (∀ (t : MainState) (e : Entry) (rdr : Reader), t.rdr.Next = (some e, rdr) →
      e.Tag = TagSubprogram →
      entryStep dw ll t =
        if (dofunc dw rdr e t.lrdr ll t.cubase).outcome = Outcome.returned then
          Step.next ⟨(dofunc dw rdr e t.lrdr ll t.cubase).rdr,
            (dofunc dw rdr e t.lrdr ll t.cubase).lrdr, t.cubase,
            t.out ++ (dofunc dw rdr e t.lrdr ll t.cubase).out, t.calls + 1⟩
        else
          Step.done ⟨(dofunc dw rdr e t.lrdr ll t.cubase).rdr,
            (dofunc dw rdr e t.lrdr ll t.cubase).lrdr, t.cubase,
            t.out ++ (dofunc dw rdr e t.lrdr ll t.cubase).out, t.calls + 1⟩
            (dofunc dw rdr e t.lrdr ll t.cubase).outcome) := by
  have hn := Next_cons cu _ s.rdr hs
  refine ⟨?_, ?_, ?_⟩
  · intro hrej
    obtain ⟨s1, h1, h2, h3, h4, h5⟩ := entryStep_rejected dw ll s cu _ hn hcu hrej
    refine ⟨s1, h1, ?_, h3, h4, h5⟩
    rw [h2]
    exact SkipChildren_subtree cu.Children kids rest m hm hk
  · intro p lr rng rngs hp hg hf hlr hrg
    exact entryStep_accepted dw ll s cu _ p lr rng rngs hn hcu hp hg hf hlr hrg
  · intro t e rdr htn he
    exact entryStep_subprogram dw ll t e rdr htn he

/-- Witness of C7 (amended): an optimized unit with a function inside is skipped
whole, and an unoptimized unit over `[0x10,0x50)` sets `cubase` to `0x10`. -/
theorem compileUnit_filter_witness :
    (optUnit.Tag = TagCompileUnit ∧ endMarker.Tag = 0 ∧
      balanced 0 [funcRec, scenarioVar, endMarker] = true ∧
      (∃ p, optUnit.Val AttrProducer = some (AttrVal.str p) ∧
        stringsContains p "-N -l" = false) ∧
      ∃ s1, entryStep lineData oneRange
          ⟨⟨[optUnit, funcRec, scenarioVar, endMarker, endMarker, goUnit, endMarker], false⟩,
            none, 0, [], 0⟩ = Step.next s1 ∧
        s1.rdr.data = [goUnit, endMarker] ∧ s1.out = [] ∧ s1.calls = 0 ∧ s1.cubase = 0) ∧
    (goUnit.Tag = TagCompileUnit ∧ balanced 0 [] = true ∧
      stringsContains "Go cmd/compile go1.11; -N -l" "Go" = true ∧
      stringsContains "Go cmd/compile go1.11; -N -l" "-N -l" = true ∧
      lineData.Ranges goUnit = Except.ok [(0x10, 0x50)] ∧
      entryStep lineData oneRange ⟨⟨[goUnit, endMarker], false⟩, none, 0, [], 0⟩
        = Step.next ⟨⟨[endMarker], true⟩, some ⟨scenarioStmts, 0, none, none⟩, 0x10, [], 0⟩) := by
  have hrej : ∃ p, optUnit.Val AttrProducer = some (AttrVal.str p) ∧
      stringsContains p "-N -l" = false := ⟨"Go cmd/compile go1.11", by decide, by decide⟩
  refine ⟨⟨by decide, by decide, by decide, hrej, ?_⟩,
    ⟨by decide, by decide, by decide, by decide, rfl, ?_⟩⟩
  · exact (compileUnit_filter lineData oneRange
      ⟨⟨[optUnit, funcRec, scenarioVar, endMarker, endMarker, goUnit, endMarker], false⟩,
        none, 0, [], 0⟩ optUnit endMarker [funcRec, scenarioVar, endMarker] [goUnit, endMarker]
      (by decide) (by decide) (by decide) (by decide)).1 (Or.inr (Or.inr (Or.inl hrej)))
  · exact (compileUnit_filter lineData oneRange ⟨⟨[goUnit, endMarker], false⟩, none, 0, [], 0⟩
      goUnit endMarker [] [] (by decide) (by decide) (by decide) (by decide)).2.1
      "Go cmd/compile go1.11; -N -l" (some ⟨scenarioStmts, 0, none, none⟩) (0x10, 0x50) []
      (by decide) (by decide) (by decide) rfl rfl

/-- C8: for every statement sequence `S`, declaration line `D` and list of decoded
ranges, neither the scope-derived set nor the location-derived set of `dovar`,
after the sort by address, has a row whose line number is at most `D`. -/
theorem visible_sets_after_declLine (S : List LineEntry) (D : Int) (ranges : List (Nat × Nat)) :
    (∀ r ∈ stmtsFromLexicalBlock S D, ¬ r.Line ≤ D) ∧
    (∀ r ∈ stmtsFromLoclist S ranges D, ¬ r.Line ≤ D) := by
  constructor
  · intro r hr
    have h := (mem_filterAfterLine S D r).mp ((mem_sortByAddress _ r).mp hr)
    exact not_le.mpr h.2
  · intro r hr
    have h := (mem_filterAfterLine _ D r).mp ((mem_sortByAddress _ r).mp hr)
    exact not_le.mpr h.2

/-- C9: in the child-record walk of `dofunc`, started with the empty stack, after
any number of iterations the stack depth is the number of block-open records
seen minus the number of end-of-children markers seen (which never exceeds the
former), and whenever the walk ends normally the stack is empty. -/
theorem walk_depth_invariant (dw : Data) (name : String) (stmts : List LineEntry)
    (ll : LoclistReader) (cubase : Nat) (rdr : Reader) (out0 : List String)
    (n : Nat) (s : WalkState) (seen : List Entry)
    (h : walkSteps dw name stmts ll cubase n ⟨rdr, [], out0⟩ = some (s, seen)) :
    s.lexicalBlockStack.length
      = seen.countP (fun e => e.Tag = TagLexDwarfBlock) - seen.countP (fun e => e.Tag = 0) ∧
    seen.countP (fun e => e.Tag = 0) ≤ seen.countP (fun e => e.Tag = TagLexDwarfBlock) ∧
    ((funcLoop dw name stmts ll cubase ⟨rdr, [], out0⟩).2 = Outcome.returned →
      (funcLoop dw name stmts ll cubase ⟨rdr, [], out0⟩).1.lexicalBlockStack = []) := by
  have hd := walkSteps_depth dw name stmts ll cubase n ⟨rdr, [], out0⟩ s seen h
  simp only [List.length_nil, Nat.zero_add] at hd
  refine ⟨by omega, by omega, ?_⟩
  exact funcLoop_returned_stack dw name stmts ll cubase ⟨rdr, [], out0⟩

/-- Witness of C9 on the nested-block example: after three iterations (two
block-open records, one marker) the depth is one; after five the walk ends
normally on the function's own marker, with the stack empty. -/
theorem walk_depth_invariant_witness :
    walkSteps sampleData "f" scenarioStmts oneRange 0 3 ⟨nestedStart.rdr, [], []⟩
      = some (⟨⟨[endMarker, endMarker], false⟩, [⟨[(0x10, 0x20)], [row 0x10 5]⟩], []⟩,
          [blockRec 0x10 0x20, blockRec 0x20 0x30, endMarker]) ∧
    funcLoop sampleData "f" scenarioStmts oneRange 0 ⟨nestedStart.rdr, [], []⟩
      = (⟨⟨[], false⟩, [], []⟩, Outcome.returned) ∧
    (1 = 2 - 1 ∧ 1 ≤ 2 ∧
      (funcLoop sampleData "f" scenarioStmts oneRange 0
        ⟨nestedStart.rdr, [], []⟩).1.lexicalBlockStack = []) := by
  have hw : walkSteps sampleData "f" scenarioStmts oneRange 0 3 ⟨nestedStart.rdr, [], []⟩
      = some (⟨⟨[endMarker, endMarker], false⟩, [⟨[(0x10, 0x20)], [row 0x10 5]⟩], []⟩,
          [blockRec 0x10 0x20, blockRec 0x20 0x30, endMarker]) := by decide
  have hl : funcLoop sampleData "f" scenarioStmts oneRange 0 ⟨nestedStart.rdr, [], []⟩
      = (⟨⟨[], false⟩, [], []⟩, Outcome.returned) :=
    funcLoop_of_walkSteps sampleData "f" scenarioStmts oneRange 0 4 _
      ⟨⟨[endMarker], false⟩, [], []⟩ _
      [blockRec 0x10 0x20, blockRec 0x20 0x30, endMarker, endMarker] _
      (by decide) (by decide)
  have h := walk_depth_invariant sampleData "f" scenarioStmts oneRange 0 nestedStart.rdr [] 3 _ _ hw
  exact ⟨hw, hl, by decide, by decide, h.2.2 (by rw [hl])⟩

/-- C10 (counterexample): for a checked variable whose only missing row has no file
record (a nil `File`), with the excess list empty, `dovar` prints the header and
panics on `miss.File.Name`: it prints no line for the missing row and does not
return. -/
theorem missing_row_without_file_counterexample :
    scenarioVar.Val AttrLocation = some (AttrVal.int64 0) ∧
    scenarioVar.Val AttrDeclLine = some (AttrVal.int64 5) ∧
    (dovarDiff [nilFileRow] (loclistRangesAtOffset 0 oneRange 0) 5).missing = [nilFileRow] ∧
    (dovarDiff [nilFileRow] (loclistRangesAtOffset 0 oneRange 0) 5).excess = [] ∧
    dovar "f" [nilFileRow] scenarioVar oneRange 0
      = ⟨["Function f, variable x missing in statements:\n"],
          Outcome.panicked "runtime error: invalid memory address or nil pointer dereference"⟩ ∧
    (dovar "f" [nilFileRow] scenarioVar oneRange 0).outcome ≠ Outcome.returned := by
  have hr : loclistRangesAtOffset 0 oneRange 0 = [(0x20, 0x40)] := by decide
  have hdiff : (dovarDiff [nilFileRow] [(0x20, 0x40)] 5).missing = [nilFileRow] ∧
      (dovarDiff [nilFileRow] [(0x20, 0x40)] 5).excess = [] := by
    have hm := mergeWalk_eq_walkLists [nilFileRow] []
    have hw : walkLists [nilFileRow] [] = ([nilFileRow], [], 0) := by simp [walkLists]
    rw [hw] at hm
    have h1 : stmtsFromLexicalBlock [nilFileRow] 5 = [nilFileRow] := by decide
    have h2 : stmtsFromLoclist [nilFileRow] [(0x20, 0x40)] 5 = [] := by decide
    rw [dovarDiff, h1, h2]
    exact ⟨hm.1, hm.2.1⟩
  have hd : dovar "f" [nilFileRow] scenarioVar oneRange 0
      = ⟨["Function f, variable x missing in statements:\n"],
          Outcome.panicked "runtime error: invalid memory address or nil pointer dereference"⟩ := by
    rw [dovar_checked "f" [nilFileRow] scenarioVar oneRange 0 0 5 (by decide) (by decide), hr,
      hdiff.1, hdiff.2]
    decide
  rw [hr]
  refine ⟨by decide, by decide, hdiff.1, hdiff.2, hd, ?_⟩
  rw [hd]
  decide

/-- C10 (amended): for a variable that `dovar` checks (list-offset location and
decoded declaration line), `dovar` ends as its reporting tail does on the missing
and excess lists of the merge walk over the two visible sets in address order.
For every two lists, the reporting tail ends the run with `os.Exit(1)` exactly
when the excess list is non-empty and every missing row has a file record.  When
every missing row has a file record it prints, if the missing list is non-empty,
the header with the function name and the variable name, one line per missing
row in list order (file name, line, address in hexadecimal) and an empty line;
then, if the excess list is non-empty, the count of the excess rows; and it
returns when the excess list is empty.  At the first missing row without a file
record it panics, having printed the header and the lines of the rows before. -/
theorem dovar_report (fnname : String) (stmts : List LineEntry) (e : Entry)
    (ll : LoclistReader) (cubase : Nat) (off declLine : Int)
    (h1 : e.Val AttrLocation = some (AttrVal.int64 off))
    (h2 : e.Val AttrDeclLine = some (AttrVal.int64 declLine)) :
    (∃ A B, A.Perm (filterAfterLine stmts declLine) ∧ SortedByAddress A ∧
      B.Perm (filterAfterLine
        (filterInsideRanges stmts (loclistRangesAtOffset cubase ll off)) declLine) ∧
      SortedByAddress B ∧
      dovar fnname stmts e ll cubase
        = report fnname e.name (mergeWalk A B).missing (mergeWalk A B).excess) ∧
    (∀ missing excess : List LineEntry,
      ((report fnname e.name missing excess).outcome = Outcome.exited 1 ↔
        excess ≠ [] ∧ ∀ r ∈ missing, r.File ≠ none) ∧
      ((∀ r ∈ missing, r.File ≠ none) →
        report fnname e.name missing excess =
          ⟨(if missing = [] then [] else
              ["Function " ++ fnname ++ ", variable " ++ e.name ++ " missing in statements:\n"]
                ++ missing.map (fun r => "\t" ++ r.File.getD "" ++ ":" ++ toString r.Line
                    ++ " at 0x" ++ String.mk (Nat.toDigits 16 r.Address) ++ "\n")
                ++ ["\n"])
            ++ (if excess = [] then [] else ["\tEXCESS " ++ toString excess.length ++ "\n"]),
           if excess = [] then Outcome.returned else Outcome.exited 1⟩) ∧
      (∀ pre r post, missing = pre ++ r :: post → (∀ x ∈ pre, x.File ≠ none) → r.File = none →
        report fnname e.name missing excess =
          ⟨["Function " ++ fnname ++ ", variable " ++ e.name ++ " missing in statements:\n"]
              ++ pre.map (fun r => "\t" ++ r.File.getD "" ++ ":" ++ toString r.Line
                  ++ " at 0x" ++ String.mk (Nat.toDigits 16 r.Address) ++ "\n"),
            Outcome.panicked
              "runtime error: invalid memory address or nil pointer dereference"⟩)) := by
  have hmap : ∀ l : List LineEntry, (∀ r ∈ l, r.File ≠ none) →
      l.filterMap missingLine = l.map (fun r => "\t" ++ r.File.getD "" ++ ":" ++ toString r.Line
        ++ " at 0x" ++ String.mk (Nat.toDigits 16 r.Address) ++ "\n") := by
    intro l hl
    induction l with
    | nil => rfl
    | cons m l ih =>
      obtain ⟨name, hn⟩ := Option.ne_none_iff_exists'.mp (hl m (List.mem_cons_self _ _))
      rw [List.filterMap_cons, missingLine_some m name hn]
      simp only [List.map_cons, hn, Option.getD_some]
      rw [ih (fun r hr => hl r (List.mem_cons_of_mem _ hr))]
  refine ⟨⟨stmtsFromLexicalBlock stmts declLine,
    stmtsFromLoclist stmts (loclistRangesAtOffset cubase ll off) declLine,
    sortByAddress_perm _, sortByAddress_sorted _, sortByAddress_perm _, sortByAddress_sorted _,
    dovar_checked fnname stmts e ll cubase off declLine h1 h2⟩, ?_⟩
  intro missing excess
  refine ⟨report_exited_iff fnname e.name missing excess, ?_, ?_⟩
  · intro hall
    rw [report_all fnname e.name missing excess hall, hmap missing hall]
    rfl
  · intro pre r post he hp hr
    rw [he, report_nil_file fnname e.name pre post excess r hp hr, hmap pre hp]
    rfl

/-- Witness of C10 (amended) at the scenario's variable: the report of the one
missing row at `0x40`, and the exit on an excess row. -/
theorem dovar_report_witness :
    scenarioVar.Val AttrLocation = some (AttrVal.int64 0) ∧
    scenarioVar.Val AttrDeclLine = some (AttrVal.int64 5) ∧
    report "f" scenarioVar.name [row 0x40 8] []
      = ⟨["Function f, variable x missing in statements:\n", "\tf.go:8 at 0x40\n", "\n"],
          Outcome.returned⟩ ∧
    (report "f" scenarioVar.name [] [row 0x30 7]).outcome = Outcome.exited 1 := by
  have h := (dovar_report "f" scenarioStmts scenarioVar oneRange 0 0 5 (by decide) (by decide)).2
  refine ⟨by decide, by decide, ?_, ?_⟩
  · rw [((h [row 0x40 8] []).2.1 (by decide))]
    decide
  · exact (h [] [row 0x30 7]).1.mpr ⟨by decide, by simp⟩
/-- C11: `filterInsideRanges(S, ranges)` is the rows of `S`, in their order, whose
address `a` satisfies `lo <= a < hi` for at least one pair of the list; a row at
the `hi` bound of a range is left out unless some range of the list covers it; and
the empty range list gives the empty sequence. -/
theorem filterInsideRanges_exact (S : List LineEntry) (ranges : List (Nat × Nat)) :
    filterInsideRanges S ranges
      = S.filter (fun r => decide (∃ p ∈ ranges, p.1 ≤ r.Address ∧ r.Address < p.2)) ∧
    (∀ r lo hi, (lo, hi) ∈ ranges → r.Address = hi →
      (r ∈ filterInsideRanges S ranges ↔
        r ∈ S ∧ ∃ p ∈ ranges, p ≠ (lo, hi) ∧ p.1 ≤ r.Address ∧ r.Address < p.2)) ∧
    (∀ r lo hi, r.Address = hi → r ∉ filterInsideRanges S [(lo, hi)]) ∧
    filterInsideRanges S [] = [] := by
  have hf : filterInsideRanges S ranges
      = S.filter (fun r => decide (∃ p ∈ ranges, p.1 ≤ r.Address ∧ r.Address < p.2)) := by
    rw [filterInsideRanges_eq_filter]
    apply List.filter_congr
    intro x _
    rw [Bool.eq_iff_iff, rangesContains_iff]
    simp
  refine ⟨hf, ?_, ?_, ?_⟩
  · intro r lo hi _ hr
    rw [hf, List.mem_filter]
    simp only [decide_eq_true_eq]
    constructor
    · rintro ⟨hS, p, hp, h1, h2⟩
      refine ⟨hS, p, hp, ?_, h1, h2⟩
      intro hpe
      subst hpe
      simp only at h2
      omega
    · rintro ⟨hS, p, hp, _, h1, h2⟩
      exact ⟨hS, p, hp, h1, h2⟩
  · intro r lo hi hr hm
    rw [filterInsideRanges_eq_filter, List.mem_filter, rangesContains_iff] at hm
    obtain ⟨_, p, hp, h1, h2⟩ := hm
    simp only [List.mem_singleton] at hp
    subst hp
    simp only at h2
    omega
  · rw [filterInsideRanges_eq_filter]
    simp [rangesContains]

/-- C12: for every compile-unit base and every sequence of location-list entries,
`loclistRangesAtOffset` returns exactly one range per entry that is not a
base-address selection, in entry order, equal to `(LowPC + b, HighPC + b)` in
64-bit unsigned arithmetic, with `b` the address carried by the nearest preceding
base-address-selection entry, or the compile-unit base when there is none;
base-address-selection entries produce no range. -/
theorem loclistRangesAtOffset_described (cubase : Nat) (ll : LoclistReader) (off : Int) :
    loclistRangesAtOffset cubase ll off = describedRanges cubase (ll off) ∧
    (loclistRangesAtOffset cubase ll off).length
      = ((ll off).filter (fun e => !e.BaseAddressSelection)).length := by
  have h : loclistRangesAtOffset cubase ll off = describedRanges cubase (ll off) := by
    unfold loclistRangesAtOffset describedRanges
    have h0 := loclistLoop_eq_rangesAfter cubase [] (ll off) []
    simpa [baseAfter] using h0
  refine ⟨h, ?_⟩
  rw [h]
  unfold describedRanges
  generalize ll off = es
  generalize ([] : List LoclistEntry) = pre
  induction es generalizing pre with
  | nil => simp [rangesAfter]
  | cons e es ih =>
    rw [rangesAfter_cons, List.length_append, ih]
    cases hb : e.BaseAddressSelection <;> simp [rangeOfEntry, hb, List.filter_cons]
    omega

/-- C13 (counterexample): with rows at `0x08` and `0x20` and a function over
`[0x10, 0x30)`, the seek leaves the row at `0x08` (the last row at or before
`0x10`) and the statement loop collects it: a row of the extracted sequence has
an address below low PC. -/
theorem extracted_below_lowpc_counterexample :
    seekLowpc gapTable 0x10 = ⟨none, ⟨gapTable.rows, 1, none, none⟩, row 0x08 4⟩ ∧
    (∃ lr1, stmtsLoop ⟨gapTable.rows, 1, none, none⟩ (row 0x08 4) 0x30 []
      = Except.ok ([row 0x08 4, row 0x20 6], lr1)) ∧
    ¬ (∀ r ∈ [row 0x08 4, row 0x20 6],
        r.IsStmt = true ∧ 0x10 ≤ r.Address ∧ r.Address < 0x30) := by
  refine ⟨?_, ?_, by decide⟩
  · simp only [seekLowpc, LineReader.SeekPC, seekLoop_eq_seekScan]
    decide
  · obtain ⟨lr1, h⟩ := (stmtsLoop_eq_collectStmts ⟨gapTable.rows, 1, none, none⟩ (row 0x08 4)
      0x30 [] rfl).1 (Or.inl rfl)
    refine ⟨lr1, ?_⟩
    rw [h]
    have hc : [] ++ collectStmts 0x30 (row 0x08 4)
        ((⟨gapTable.rows, 1, none, none⟩ : LineReader).rows.drop
          (⟨gapTable.rows, 1, none, none⟩ : LineReader).pos)
        = [row 0x08 4, row 0x20 6] := by decide
    rw [hc]

/-- C13 (amended): for every line reader, cursor position and row the seek leaves,
the statement loop of `dofunc` panics (the error handed to `must`) exactly when
the reader reports a decoding error before a row at or beyond high PC is read:
the row left by the seek and every row from the cursor on lie below high PC and
the table ends in a decoding error, or the reader has met a decoding error
already and the row left by the seek lies below high PC.  Whenever the loop ends,
every row of the extracted sequence has the is-statement flag set and an address
below high PC, and is the row left by the seek or a row of the table at or after
the cursor; the addresses are at least low PC when that holds for the row left by
the seek and for the rows at or after the cursor.  On a reader without a decoding
error the loop always ends. -/
theorem extracted_rows (lrdr : LineReader) (lne : LineEntry) (highpc : Nat) :
    (∀ msg, stmtsLoop lrdr lne highpc [] = Except.error msg ↔
      (lrdr.err = some msg ∧ lne.Address < highpc) ∨
      (lrdr.err = none ∧ lrdr.bad = some msg ∧
        ∀ x ∈ lne :: lrdr.rows.drop lrdr.pos, x.Address < highpc)) ∧
    (∀ stmts lr1, stmtsLoop lrdr lne highpc [] = Except.ok (stmts, lr1) →
      (∀ r ∈ stmts, r.IsStmt = true ∧ r.Address < highpc ∧
        (r = lne ∨ r ∈ lrdr.rows.drop lrdr.pos)) ∧
      (∀ lowpc, lowpc ≤ lne.Address → (∀ x ∈ lrdr.rows.drop lrdr.pos, lowpc ≤ x.Address) →
        ∀ r ∈ stmts, lowpc ≤ r.Address)) ∧
    (lrdr.err = none → lrdr.bad = none →
      ∃ stmts lr1, stmtsLoop lrdr lne highpc [] = Except.ok (stmts, lr1)) := by
  have hmem : ∀ stmts : List LineEntry,
      stmts = collectStmts highpc lne (lrdr.rows.drop lrdr.pos) →
      (∀ r ∈ stmts, r.IsStmt = true ∧ r.Address < highpc ∧
        (r = lne ∨ r ∈ lrdr.rows.drop lrdr.pos)) ∧
      (∀ lowpc, lowpc ≤ lne.Address → (∀ x ∈ lrdr.rows.drop lrdr.pos, lowpc ≤ x.Address) →
        ∀ r ∈ stmts, lowpc ≤ r.Address) := by
    intro stmts hs
    subst hs
    refine ⟨fun r hr => mem_collectStmts highpc lne _ r hr, ?_⟩
    intro lowpc h1 h2 r hr
    rcases (mem_collectStmts highpc lne _ r hr).2.2 with rfl | hm
    · exact h1
    · exact h2 r hm
  cases he : lrdr.err with
  | some m =>
    have hl := stmtsLoop_of_err lrdr lne highpc [] m he
    by_cases hlt : lne.Address < highpc
    · rw [if_pos hlt] at hl
      refine ⟨?_, ?_, ?_⟩
      · intro msg
        rw [hl]
        simp [hlt]
      · intro stmts lr1 h
        rw [hl] at h
        simp at h
      · intro h
        simp at h
    · rw [if_neg hlt] at hl
      refine ⟨?_, ?_, ?_⟩
      · intro msg
        rw [hl]
        simp [hlt]
      · intro stmts lr1 h
        rw [hl] at h
        simp only [Except.ok.injEq, Prod.mk.injEq] at h
        rw [← h.1]
        simp
      · intro h
        simp at h
  | none =>
    have hl := stmtsLoop_eq_collectStmts lrdr lne highpc [] he
    by_cases hc : lrdr.bad = none ∨ ¬ ∀ x ∈ lne :: lrdr.rows.drop lrdr.pos, x.Address < highpc
    · obtain ⟨lr0, h0⟩ := hl.1 hc
      rw [List.nil_append] at h0
      refine ⟨?_, ?_, ?_⟩
      · intro msg
        rw [h0]
        constructor
        · intro h; simp at h
        · intro h
          rcases h with h | h
          · simp at h
          · rcases hc with hc | hc
            · rw [hc] at h; simp at h
            · exact absurd h.2.2 hc
      · intro stmts lr1 h
        rw [h0] at h
        simp only [Except.ok.injEq, Prod.mk.injEq] at h
        exact hmem stmts h.1.symm
      · intro _ _
        exact ⟨_, lr0, h0⟩
    · push_neg at hc
      obtain ⟨m, hm⟩ := Option.ne_none_iff_exists'.mp hc.1
      have h0 := hl.2 m hm hc.2
      refine ⟨?_, ?_, ?_⟩
      · intro msg
        rw [h0]
        constructor
        · intro h
          simp only [Except.error.injEq] at h
          exact Or.inr ⟨rfl, by rw [← h]; exact hm, hc.2⟩
        · intro h
          rcases h with h | h
          · simp at h
          · rw [hm] at h
            simp only [Option.some.injEq] at h
            rw [h.2.1]
      · intro stmts lr1 h
        rw [h0] at h
        simp at h
      · intro _ hb
        exact absurd hb hc.1

/-- C14 (the code at the failing input): over the scenario's line table (rows at
`0x10` to `0x40`), for the function `main.g` with low PC `0x80`, the first seek
reports `ErrUnknownPC`; `dofunc` does not reset and repeat the seek, keeps the
row at `0x40` the failed seek left, collects it as the function's only
statement, checks the variable `x` against it, and returns normally. -/
theorem seek_unknownPC_goes_on :
    (LineReader.SeekPC ⟨scenarioStmts, 0, none, none⟩ 0x80 LineEntry.zero).err
      = some LineErr.ErrUnknownPC ∧
    (LineReader.SeekPC (LineReader.Reset ⟨scenarioStmts, 4, none, none⟩) 0x80 (row 0x40 8)).err
      = some LineErr.ErrUnknownPC ∧
    seekLowpc ⟨scenarioStmts, 0, none, none⟩ 0x80 = ⟨none, ⟨scenarioStmts, 4, none, none⟩, row 0x40 8⟩ ∧
    (∃ lr1, stmtsLoop ⟨scenarioStmts, 4, none, none⟩ (row 0x40 8) 0x90 []
      = Except.ok ([row 0x40 8], lr1)) ∧
    (∃ lr1, dofunc lineData ⟨[scenarioVar, endMarker], true⟩ lateFunc
        (some ⟨scenarioStmts, 0, none, none⟩) oneRange 0
      = ⟨⟨[], false⟩, some lr1,
          ["Function main.g, variable x missing in statements:\n", "\tf.go:8 at 0x40\n", "\n"],
          Outcome.returned⟩) := by
  have hseek : seekLowpc ⟨scenarioStmts, 0, none, none⟩ 0x80 = ⟨none, ⟨scenarioStmts, 4, none, none⟩, row 0x40 8⟩ := by
    simp only [seekLowpc, LineReader.SeekPC, seekLoop_eq_seekScan]
    decide
  have hcol : collectStmts 0x90 (row 0x40 8)
      ((⟨scenarioStmts, 4, none, none⟩ : LineReader).rows.drop (⟨scenarioStmts, 4, none, none⟩ : LineReader).pos)
      = [row 0x40 8] := by decide
  refine ⟨?_, ?_, hseek, ?_, ?_⟩
  · simp only [LineReader.SeekPC, seekLoop_eq_seekScan]
    decide
  · simp only [LineReader.SeekPC, seekLoop_eq_seekScan]
    decide
  · obtain ⟨lr1, h⟩ := (stmtsLoop_eq_collectStmts ⟨scenarioStmts, 4, none, none⟩ (row 0x40 8)
      0x90 [] rfl).1 (Or.inl rfl)
    exact ⟨lr1, by rw [h, hcol]; rfl⟩
  · obtain ⟨lr1, h⟩ := dofunc_walk lineData ⟨[scenarioVar, endMarker], true⟩ lateFunc
      ⟨scenarioStmts, 0, none, none⟩ oneRange 0 0x80 0x90 (by decide) (by decide)
      (by rw [hseek]) "f.go" (by rw [hseek]; rfl) (by decide) (by rw [hseek])
      (Or.inl (by rw [hseek]))
    refine ⟨lr1, ?_⟩
    rw [h, hseek]
    simp only [hcol]
    have hdiff : (dovarDiff [row 0x40 8] [(0x20, 0x40)] 5).missing = [row 0x40 8] ∧
        (dovarDiff [row 0x40 8] [(0x20, 0x40)] 5).excess = [] := by
      have hm := mergeWalk_eq_walkLists [row 0x40 8] []
      have hw : walkLists [row 0x40 8] [] = ([row 0x40 8], [], 0) := by simp [walkLists]
      rw [hw] at hm
      have h1 : stmtsFromLexicalBlock [row 0x40 8] 5 = [row 0x40 8] := by decide
      have h2 : stmtsFromLoclist [row 0x40 8] [(0x20, 0x40)] 5 = [] := by decide
      rw [dovarDiff, h1, h2]
      exact ⟨hm.1, hm.2.1⟩
    have hr : loclistRangesAtOffset 0 oneRange 0 = [(0x20, 0x40)] := by decide
    have hdv : dovar lateFunc.name (lns [row 0x40 8] []) scenarioVar oneRange 0
        = ⟨["Function main.g, variable x missing in statements:\n", "\tf.go:8 at 0x40\n",
            "\n"], Outcome.returned⟩ := by
      have hl : lns [row 0x40 8] [] = [row 0x40 8] := rfl
      rw [hl, dovar_checked lateFunc.name [row 0x40 8] scenarioVar oneRange 0 0 5
        (by decide) (by decide), hr, hdiff.1, hdiff.2]
      decide
    have hstep1 := funcStep_var_returned lineData lateFunc.name [row 0x40 8] oneRange 0
      ⟨⟨[scenarioVar, endMarker], true⟩, [], []⟩ scenarioVar ⟨[endMarker], false⟩
      (by decide) (by decide) (by rw [hdv])
    rw [hdv] at hstep1
    have hstep2 := funcStep_marker_end lineData lateFunc.name [row 0x40 8] oneRange 0
      ⟨⟨[endMarker], false⟩, [],
        [] ++ ["Function main.g, variable x missing in statements:\n", "\tf.go:8 at 0x40\n",
          "\n"]⟩ endMarker ⟨[], false⟩ (by decide) (by decide) rfl
    rw [funcLoop_of_next _ _ _ _ _ _ _ hstep1, funcLoop_of_done _ _ _ _ _ _ _ _ hstep2]
    rfl

/-- C15 (counterexample): in the well-nested stream of an inlined-subroutine record
that holds the variable `x`, the walk is handed the inlined-subroutine record,
skips its subtree and ends on the function's end marker: the variable is never
handed to `dovar`, and the walk prints nothing, although resolving the variable
against the function's sequence prints a report.  And in the well-nested stream
of a block over `[0x20,0x30)` that holds a variable with a child record and
then the variable `x`, the walk does not skip the child, the end marker of the
variable with children closes the block, and `x` is resolved against the
function's four rows (the row at `0x40` is reported missing) instead of the
block's sequence (against which nothing is missing); the walk then ends on the
block's own end marker and leaves the function's. -/
theorem skipped_variable_counterexample :
    balanced 0 [inlinedRec, scenarioVar, endMarker] = true ∧
    walkSteps sampleData "f" scenarioStmts oneRange 0 1
        ⟨⟨[inlinedRec, scenarioVar, endMarker, endMarker], true⟩, [], []⟩
      = some (⟨⟨[endMarker], false⟩, [], []⟩, [inlinedRec]) ∧
    funcLoop sampleData "f" scenarioStmts oneRange 0
        ⟨⟨[inlinedRec, scenarioVar, endMarker, endMarker], true⟩, [], []⟩
      = (⟨⟨[], false⟩, [], []⟩, Outcome.returned) ∧
    (dovar "f" scenarioStmts scenarioVar oneRange 0).out ≠ [] ∧
    balanced 0 [blockRec 0x20 0x30, varWithKids, leafRec, endMarker, scenarioVar, endMarker]
      = true ∧
    funcLoop sampleData "f" scenarioStmts oneRange 0
        ⟨⟨[blockRec 0x20 0x30, varWithKids, leafRec, endMarker, scenarioVar, endMarker,
            endMarker], true⟩, [], []⟩
      = (⟨⟨[endMarker], false⟩, [],
          ["Function f, variable x missing in statements:\n", "\tf.go:8 at 0x40\n", "\n"]⟩,
          Outcome.returned) ∧
    dovar "f" (filterInsideRanges scenarioStmts [(0x20, 0x30)]) scenarioVar oneRange 0
      = ⟨[], Outcome.returned⟩ := by
  refine ⟨by decide, by decide, ?_, ?_, by decide, ?_, ?_⟩
  · exact funcLoop_of_walkSteps sampleData "f" scenarioStmts oneRange 0 1 _
      ⟨⟨[endMarker], false⟩, [], []⟩ _ [inlinedRec] _ (by decide) (by decide)
  · rw [scenario_oneRange_dovar]
    decide
  · have h1 := funcStep_block_ok sampleData "f" scenarioStmts oneRange 0
      ⟨⟨[blockRec 0x20 0x30, varWithKids, leafRec, endMarker, scenarioVar, endMarker,
          endMarker], true⟩, [], []⟩ (blockRec 0x20 0x30)
      ⟨[varWithKids, leafRec, endMarker, scenarioVar, endMarker, endMarker], true⟩
      ⟨[(0x20, 0x30)], [row 0x20 6]⟩ (by decide) (by decide) rfl
    have hv : dovar "f" [row 0x20 6] varWithKids oneRange 0 = ⟨[], Outcome.returned⟩ := by
      decide
    have h2 := funcStep_var_returned sampleData "f" scenarioStmts oneRange 0
      ⟨⟨[varWithKids, leafRec, endMarker, scenarioVar, endMarker, endMarker], true⟩,
        [] ++ [⟨[(0x20, 0x30)], [row 0x20 6]⟩], []⟩ varWithKids
      ⟨[leafRec, endMarker, scenarioVar, endMarker, endMarker], true⟩
      (by decide) (by decide) (by decide)
    have h3 := funcStep_other sampleData "f" scenarioStmts oneRange 0
      ⟨⟨[leafRec, endMarker, scenarioVar, endMarker, endMarker], true⟩,
        [⟨[(0x20, 0x30)], [row 0x20 6]⟩], []⟩ leafRec
      ⟨[endMarker, scenarioVar, endMarker, endMarker], false⟩
      (by decide) (by decide) (by decide) (by decide)
    have h4 := funcStep_marker_pop sampleData "f" scenarioStmts oneRange 0
      ⟨⟨[endMarker, scenarioVar, endMarker, endMarker], false⟩,
        [⟨[(0x20, 0x30)], [row 0x20 6]⟩], []⟩ endMarker
      ⟨[scenarioVar, endMarker, endMarker], false⟩
      (by decide) (by decide) (by decide)
    have h5 := funcStep_var_returned sampleData "f" scenarioStmts oneRange 0
      ⟨⟨[scenarioVar, endMarker, endMarker], false⟩, [], []⟩ scenarioVar
      ⟨[endMarker, endMarker], false⟩
      (by decide) (by decide) (by rw [show lns scenarioStmts [] = scenarioStmts from rfl,
        scenario_oneRange_dovar])
    rw [show lns scenarioStmts [] = scenarioStmts from rfl, scenario_oneRange_dovar] at h5
    have h6 := funcStep_marker_end sampleData "f" scenarioStmts oneRange 0
      ⟨⟨[endMarker, endMarker], false⟩, [],
        [] ++ ["Function f, variable x missing in statements:\n", "\tf.go:8 at 0x40\n",
          "\n"]⟩ endMarker ⟨[endMarker], false⟩ (by decide) (by decide) rfl
    rw [funcLoop_of_next _ _ _ _ _ _ _ h1, funcLoop_of_next _ _ _ _ _ _ _ h2]
    have hs3 : (⟨Reader.mk [leafRec, endMarker, scenarioVar, endMarker, endMarker] true,
        [] ++ [⟨[(0x20, 0x30)], [row 0x20 6]⟩],
        [] ++ (dovar "f" (lns scenarioStmts ([] ++ [⟨[(0x20, 0x30)], [row 0x20 6]⟩]))
          varWithKids oneRange 0).out⟩ : WalkState)
        = ⟨⟨[leafRec, endMarker, scenarioVar, endMarker, endMarker], true⟩,
            [⟨[(0x20, 0x30)], [row 0x20 6]⟩], []⟩ := by decide
    rw [hs3, funcLoop_of_next _ _ _ _ _ _ _ h3]
    have hs4 : (⟨Reader.SkipChildren ⟨[endMarker, scenarioVar, endMarker, endMarker], false⟩,
        [⟨[(0x20, 0x30)], [row 0x20 6]⟩], []⟩ : WalkState)
        = ⟨⟨[endMarker, scenarioVar, endMarker, endMarker], false⟩,
            [⟨[(0x20, 0x30)], [row 0x20 6]⟩], []⟩ := by decide
    rw [hs4, funcLoop_of_next _ _ _ _ _ _ _ h4]
    have hs5 : (⟨Reader.mk [scenarioVar, endMarker, endMarker] false,
        ([⟨[(0x20, 0x30)], [row 0x20 6]⟩] : List LexicalBlock).dropLast, []⟩ : WalkState)
        = ⟨⟨[scenarioVar, endMarker, endMarker], false⟩, [], []⟩ := by decide
    rw [hs5, funcLoop_of_next _ _ _ _ _ _ _ h5, funcLoop_of_done _ _ _ _ _ _ _ _ h6]
    rfl
  · have hfl : filterInsideRanges scenarioStmts [(0x20, 0x30)] = [row 0x20 6] := by decide
    rw [hfl]
    exact innerBlock_dovar

/-- C15 (amended): for every well-nested stream of child records of a function whose
end markers are the bare marker record, in which no variable or parameter
record has children and every block-open record has children, the stream is the
record stream of a record tree (variables and parameters, blocks closed by their
own end marker, records of another tag with their subtrees), and the walk of
`dofunc` over the stream followed by the function's end marker does exactly what
the resolution of that tree does: every variable or parameter record that is a
child of the function or of a block is handed to `dovar` with the statement
sequence of its innermost enclosing open block, or the function's sequence when no
block is open, and a record that follows a block's end marker with the sequence
of the enclosing scope, until a call ends the run; the records inside the subtree
of a record of another tag are skipped.  At every step, on any stream, a variable
or parameter record is handed to `dovar` with the sequence of the block on top
of the stack and the walk goes on with the record that follows it, its children
not skipped. -/
theorem variables_resolved_in_innermost_block (dw : Data) (name : String)
    (stmts : List LineEntry) (ll : LoclistReader) (cubase : Nat) (es rest : List Entry)
    (lc : Bool) (out0 : List String)
    (hbal : balanced 0 es = true)
    (hmark : ∀ e ∈ es, e.Tag = 0 → e = endMarker)
    (hvar : ∀ e ∈ es, (e.Tag = TagVariable ∨ e.Tag = TagFormalParameter) → e.Children = false)
    (hblk : ∀ e ∈ es, e.Tag = TagLexDwarfBlock → e.Children = true) :
    (∃ f : Forest, f.wellFormed = true ∧ f.treeFlags = true ∧ f.flatten = es ∧
      (∀ out1, resolveForest dw name stmts ll cubase stmts f out0 = (out1, none) →
        funcLoop dw name stmts ll cubase ⟨⟨es ++ endMarker :: rest, lc⟩, [], out0⟩
          = (⟨⟨rest, false⟩, [], out1⟩, Outcome.returned)) ∧
      (∀ out1 o, resolveForest dw name stmts ll cubase stmts f out0 = (out1, some o) →
        (funcLoop dw name stmts ll cubase ⟨⟨es ++ endMarker :: rest, lc⟩, [], out0⟩).2 = o ∧
        (funcLoop dw name stmts ll cubase
          ⟨⟨es ++ endMarker :: rest, lc⟩, [], out0⟩).1.out = out1)) ∧
    (∀ (s : WalkState) (e : Entry) (rdr : Reader), s.rdr.Next = (some e, rdr) →
      (e.Tag = TagVariable ∨ e.Tag = TagFormalParameter) →
      funcStep dw name stmts ll cubase s =
        if (dovar name (lns stmts s.lexicalBlockStack) e ll cubase).outcome = Outcome.returned
        then Step.next ⟨rdr, s.lexicalBlockStack,
          s.out ++ (dovar name (lns stmts s.lexicalBlockStack) e ll cubase).out⟩
        else Step.done ⟨rdr, s.lexicalBlockStack,
          s.out ++ (dovar name (lns stmts s.lexicalBlockStack) e ll cubase).out⟩
          (dovar name (lns stmts s.lexicalBlockStack) e ll cubase).outcome) := by
  obtain ⟨f, hwf, hfl, hflat⟩ := forest_of_balanced es.length es (le_refl _) hbal hmark hvar hblk
  have hf := funcLoop_forest dw name stmts ll cubase f hwf [] out0 (endMarker :: rest) lc
  have hl : lns stmts [] = stmts := rfl
  rw [hl, hflat] at hf
  refine ⟨⟨f, hwf, hfl, hflat, ?_, hf.2⟩, ?_⟩
  · intro out1 hres
    obtain ⟨lc1, h1⟩ := hf.1 out1 hres
    rw [h1]
    have hend := funcStep_marker_end dw name stmts ll cubase
      ⟨⟨endMarker :: rest, lc1⟩, [], out1⟩ endMarker ⟨rest, false⟩ rfl rfl rfl
    rw [funcLoop_of_done _ _ _ _ _ _ _ _ hend]
  · intro s e rdr hn ht
    by_cases hr : (dovar name (lns stmts s.lexicalBlockStack) e ll cubase).outcome
        = Outcome.returned
    · rw [if_pos hr]
      exact funcStep_var_returned dw name stmts ll cubase s e rdr hn ht hr
    · rw [if_neg hr]
      exact funcStep_var_halted dw name stmts ll cubase s e rdr hn ht hr

/-- Witness of C15 (amended) on the stream of the example tree: the variable inside
the block `[0x20,0x30)` is resolved against the block's one row (nothing missing),
the variable after the block's end marker against the function's four rows (the
row at `0x40` is missing). -/
theorem variables_resolved_in_innermost_block_witness :
    balanced 0 [blockRec 0x20 0x30, scenarioVar, endMarker, scenarioVar] = true ∧
    (∀ e ∈ [blockRec 0x20 0x30, scenarioVar, endMarker, scenarioVar],
      e.Tag = 0 → e = endMarker) ∧
    (∀ e ∈ [blockRec 0x20 0x30, scenarioVar, endMarker, scenarioVar],
      (e.Tag = TagVariable ∨ e.Tag = TagFormalParameter) → e.Children = false) ∧
    (∀ e ∈ [blockRec 0x20 0x30, scenarioVar, endMarker, scenarioVar],
      e.Tag = TagLexDwarfBlock → e.Children = true) ∧
    (∃ f : Forest, f.wellFormed = true ∧ f.treeFlags = true ∧
      f.flatten = [blockRec 0x20 0x30, scenarioVar, endMarker, scenarioVar] ∧
      (∀ out1, resolveForest sampleData "f" scenarioStmts oneRange 0 scenarioStmts f []
          = (out1, none) →
        funcLoop sampleData "f" scenarioStmts oneRange 0
            ⟨⟨[blockRec 0x20 0x30, scenarioVar, endMarker, scenarioVar] ++ endMarker :: [],
              true⟩, [], []⟩
          = (⟨⟨[], false⟩, [], out1⟩, Outcome.returned))) ∧
    sampleForest.flatten = [blockRec 0x20 0x30, scenarioVar, endMarker, scenarioVar] ∧
    resolveForest sampleData "f" scenarioStmts oneRange 0 scenarioStmts sampleForest []
      = (["Function f, variable x missing in statements:\n", "\tf.go:8 at 0x40\n", "\n"],
          none) ∧
    funcLoop sampleData "f" scenarioStmts oneRange 0
        ⟨⟨[blockRec 0x20 0x30, scenarioVar, endMarker, scenarioVar, endMarker], true⟩, [], []⟩
      = (⟨⟨[], false⟩, [],
          ["Function f, variable x missing in statements:\n", "\tf.go:8 at 0x40\n", "\n"]⟩,
          Outcome.returned) := by
  have hb : makeLexicalBlock sampleData (blockRec 0x20 0x30) scenarioStmts
      = Except.ok ⟨[(0x20, 0x30)], [row 0x20 6]⟩ := rfl
  have hres : resolveForest sampleData "f" scenarioStmts oneRange 0 scenarioStmts sampleForest []
      = (["Function f, variable x missing in statements:\n", "\tf.go:8 at 0x40\n", "\n"],
          none) := by
    simp only [sampleForest, resolveForest, hb, innerBlock_dovar, scenario_oneRange_dovar,
      if_true, List.append_nil, List.nil_append]
  have h := variables_resolved_in_innermost_block sampleData "f" scenarioStmts oneRange 0
    [blockRec 0x20 0x30, scenarioVar, endMarker, scenarioVar] [] true []
    (by decide) (by decide) (by decide) (by decide)
  obtain ⟨f, h1, h2, h3, h4, _⟩ := h.1
  refine ⟨by decide, by decide, by decide, by decide, ⟨f, h1, h2, h3, h4⟩, by decide, hres, ?_⟩
  obtain ⟨lc1, hw⟩ := (funcLoop_forest sampleData "f" scenarioStmts oneRange 0 sampleForest
    (by decide) [] [] (endMarker :: []) true).1 _ hres
  have hfl : sampleForest.flatten ++ [endMarker]
      = [blockRec 0x20 0x30, scenarioVar, endMarker, scenarioVar, endMarker] := by decide
  rw [hfl] at hw
  rw [hw]
  have hend := funcStep_marker_end sampleData "f" scenarioStmts oneRange 0
    ⟨⟨endMarker :: [], lc1⟩, [],
      ["Function f, variable x missing in statements:\n", "\tf.go:8 at 0x40\n", "\n"]⟩
    endMarker ⟨[], false⟩ rfl rfl rfl
  rw [funcLoop_of_done _ _ _ _ _ _ _ _ hend]
/-- C16: a subprogram record that lacks low PC or high PC is skipped without error;
and when the row the seek leaves names the file "<autogenerated>", `dofunc`
skips the function's children and returns with no output (the statement loop and
the child-record walk are not run, so no row is collected and no variable reaches
`dovar`).  Skipping the children leaves the reader after the end marker of the
function's well-nested children. -/
theorem dofunc_skips (dw : Data) (rdr : Reader) (e : Entry) (lrdr : Option LineReader)
    (ll : LoclistReader) (cubase : Nat) :
    (((∀ lowpc, e.Val AttrLowpc ≠ some (AttrVal.uint64 lowpc)) ∨
        (∀ highpc, e.Val AttrHighpc ≠ some (AttrVal.uint64 highpc))) →
      dofunc dw rdr e lrdr ll cubase = ⟨rdr.SkipChildren, lrdr, [], Outcome.returned⟩) ∧
    (∀ lowpc highpc lr, e.Val AttrLowpc = some (AttrVal.uint64 lowpc) →
      e.Val AttrHighpc = some (AttrVal.uint64 highpc) → lrdr = some lr →
      (seekLowpc lr lowpc).err = none →
      (seekLowpc lr lowpc).entry.File = some "<autogenerated>" →
      dofunc dw rdr e lrdr ll cubase
        = ⟨rdr.SkipChildren, some (seekLowpc lr lowpc).lrdr, [], Outcome.returned⟩) ∧
    (∀ kids m rest, m.Tag = 0 → balanced 0 kids = true →
      rdr = ⟨(if e.Children then kids ++ [m] else []) ++ rest, e.Children⟩ →
      rdr.SkipChildren.data = rest) := by
  refine ⟨dofunc_no_pc dw rdr e lrdr ll cubase, ?_, ?_⟩
  · intro lowpc highpc lr hl hh hlr hc hf
    subst hlr
    exact dofunc_autogenerated dw rdr e lr ll cubase lowpc highpc hl hh hc hf
  · intro kids m rest hm hk hr
    subst hr
    exact SkipChildren_subtree e.Children kids rest m hm hk

/-- Witness of C16: a function whose row is in the autogenerated file, with a
variable among its children, and a function without a high PC. -/
theorem dofunc_skips_witness :
    (seekLowpc autoTable 0x10).err = none ∧
    (seekLowpc autoTable 0x10).entry.File = some "<autogenerated>" ∧
    dofunc sampleData ⟨[scenarioVar, endMarker, endMarker], true⟩ funcRec (some autoTable)
        oneRange 0
      = ⟨(Reader.SkipChildren ⟨[scenarioVar, endMarker, endMarker], true⟩),
          some (seekLowpc autoTable 0x10).lrdr, [], Outcome.returned⟩ ∧
    (Reader.SkipChildren ⟨[scenarioVar, endMarker, endMarker], true⟩).data = [endMarker] ∧
    noHighFunc.Val AttrHighpc = none ∧
    dofunc sampleData ⟨[scenarioVar, endMarker, endMarker], true⟩ noHighFunc (some autoTable)
        oneRange 0
      = ⟨(Reader.SkipChildren ⟨[scenarioVar, endMarker, endMarker], true⟩), some autoTable, [],
          Outcome.returned⟩ := by
  have hseek : seekLowpc autoTable 0x10
      = ⟨none, ⟨autoTable.rows, 1, none, none⟩,
          ⟨0x10, some "<autogenerated>", 1, true, false⟩⟩ := by
    simp only [seekLowpc, LineReader.SeekPC, seekLoop_eq_seekScan]
    decide
  have h1 : (seekLowpc autoTable 0x10).err = none := by rw [hseek]
  have h2 : (seekLowpc autoTable 0x10).entry.File = some "<autogenerated>" := by rw [hseek]
  refine ⟨h1, h2, ?_, by decide, by decide, ?_⟩
  · exact (dofunc_skips sampleData ⟨[scenarioVar, endMarker, endMarker], true⟩ funcRec
      (some autoTable) oneRange 0).2.1 0x10 0x50 autoTable (by decide) (by decide) rfl h1 h2
  · exact (dofunc_skips sampleData ⟨[scenarioVar, endMarker, endMarker], true⟩ noHighFunc
      (some autoTable) oneRange 0).1
      (Or.inr (fun highpc h => by
        have hv : noHighFunc.Val AttrHighpc = none := by decide
        rw [hv] at h
        exact absurd h (by simp)))

/-- C17: for every scope statement sequence `S` (sorted or not, with or without
duplicate addresses), declaration line `D` and list of decoded ranges, the excess
list that `dovar` computes is empty, the location-derived set being filtered out
of the same `S` as the scope-derived set; hence no call of `dovar` ends in
`os.Exit(1)`. -/
theorem excess_always_empty (S : List LineEntry) (D : Int) (ranges : List (Nat × Nat))
    (fnname : String) (e : Entry) (ll : LoclistReader) (cubase : Nat) :
    (dovarDiff S ranges D).excess = [] ∧
    (dovar fnname S e ll cubase).outcome ≠ Outcome.exited 1 := by
  refine ⟨dovarDiff_excess_nil S ranges D, ?_⟩
  unfold dovar
  simp only
  split
  · simp
  · split
    · simp only [List.nil_append, trace, Bool.false_eq_true, if_false, dovarDiff_excess_nil]
      exact report_not_exited_of_excess_nil _ _ _ 1
    · simp
  · simp

/-- C18: for a scope statement sequence `S` with pairwise distinct addresses, the
missing list that `dovar` computes is exactly the rows of `S` whose line number is
greater than `D` and whose address lies inside no range of `R`, in increasing
address order: it is a permutation of those rows, strictly increasing by
address, hence equal to their sort by address. -/
theorem missing_exact (S : List LineEntry) (D : Int) (R : List (Nat × Nat))
    (hS : (S.map (fun r => r.Address)).Nodup) :
    List.Perm (dovarDiff S R D).missing
      (S.filter (fun r => decide (D < r.Line) && !rangesContains R r.Address)) ∧
    StrictByAddress (dovarDiff S R D).missing ∧
    (dovarDiff S R D).missing
      = sortByAddress (S.filter (fun r => decide (D < r.Line) && !rangesContains R r.Address)) := by
  have hsubA : List.Sublist (filterAfterLine S D) S := by
    rw [filterAfterLine_eq_filter]; exact List.filter_sublist _
  have hA : StrictByAddress (stmtsFromLexicalBlock S D) := sortByAddress_strict _ S hsubA hS
  have hm := dovarDiff_missing_filter S R D hS
  have hperm : List.Perm (dovarDiff S R D).missing
      (S.filter (fun r => decide (D < r.Line) && !rangesContains R r.Address)) := by
    rw [hm]
    have h1 : List.Perm (stmtsFromLexicalBlock S D) (filterAfterLine S D) := sortByAddress_perm _
    have h2 := h1.filter (fun r => !rangesContains R r.Address)
    rw [filterAfterLine_eq_filter, List.filter_filter] at h2
    have h3 : S.filter (fun a => (!rangesContains R a.Address) && decide (D < a.Line))
        = S.filter (fun r => decide (D < r.Line) && !rangesContains R r.Address) := by
      apply List.filter_congr
      intro x _
      exact Bool.and_comm _ _
    rw [h3] at h2
    exact h2
  have hstrict : StrictByAddress (dovarDiff S R D).missing := by
    rw [hm]
    exact hA.sublist (List.filter_sublist _)
  refine ⟨hperm, hstrict, ?_⟩
  have hstrict2 : StrictByAddress
      (sortByAddress (S.filter (fun r => decide (D < r.Line) && !rangesContains R r.Address))) :=
    sortByAddress_strict _ S (List.filter_sublist _) hS
  haveI : IsAntisymm LineEntry (fun x y => x.Address < y.Address) :=
    ⟨fun a b hab hba => absurd hab (Nat.lt_asymm hba)⟩
  exact List.eq_of_perm_of_sorted (hperm.trans (sortByAddress_perm _).symm) hstrict hstrict2

/-- Witness of C18 on the scenario (distinct addresses, declaration line 5, range
`[0x20,0x40)`): the missing list is the row at `0x40`. -/
theorem missing_exact_witness :
    (scenarioStmts.map (fun r => r.Address)).Nodup ∧
    (dovarDiff scenarioStmts [(0x20, 0x40)] 5).missing
      = sortByAddress (scenarioStmts.filter
          (fun r => decide ((5 : Int) < r.Line) && !rangesContains [(0x20, 0x40)] r.Address)) ∧
    sortByAddress (scenarioStmts.filter
          (fun r => decide ((5 : Int) < r.Line) && !rangesContains [(0x20, 0x40)] r.Address))
      = [row 0x40 8] :=
  ⟨by decide, (missing_exact scenarioStmts 5 [(0x20, 0x40)] (by decide)).2.2, by decide⟩

/-- C19: when every address inside a range of `C` is inside a range of `P`, filtering
the function's sequence by `C` gives the same rows as filtering the parent block's
sequence by `C`; without that hypothesis, filtering the parent block's sequence by
`C` gives the rows of `S` inside both `P` and `C`. -/
theorem nested_filter (S : List LineEntry) (P C : List (Nat × Nat)) :
    ((∀ a, rangesContains C a = true → rangesContains P a = true) →
      filterInsideRanges S C = filterInsideRanges (filterInsideRanges S P) C) ∧
    filterInsideRanges (filterInsideRanges S P) C
      = S.filter (fun r => rangesContains P r.Address && rangesContains C r.Address) := by
  have h2 : filterInsideRanges (filterInsideRanges S P) C
      = S.filter (fun r => rangesContains P r.Address && rangesContains C r.Address) := by
    rw [filterInsideRanges_eq_filter, filterInsideRanges_eq_filter, List.filter_filter]
    apply List.filter_congr
    intro x _
    exact Bool.and_comm _ _
  refine ⟨?_, h2⟩
  intro h
  rw [h2, filterInsideRanges_eq_filter]
  apply List.filter_congr
  intro x _
  cases hc : rangesContains C x.Address with
  | false => simp
  | true => simp [h x.Address hc]

/-- Witness of C19: the ranges `[0x20,0x30)` inside `[0x10,0x40)` over the scenario's
statement sequence. -/
theorem nested_filter_witness :
    (∀ a, rangesContains [(0x20, 0x30)] a = true → rangesContains [(0x10, 0x40)] a = true) ∧
    filterInsideRanges scenarioStmts [(0x20, 0x30)]
      = filterInsideRanges (filterInsideRanges scenarioStmts [(0x10, 0x40)]) [(0x20, 0x30)] ∧
    filterInsideRanges scenarioStmts [(0x20, 0x30)] = [row 0x20 6] := by
  have hc : ∀ a, rangesContains [(0x20, 0x30)] a = true →
      rangesContains [(0x10, 0x40)] a = true := by
    intro a ha
    rw [rangesContains_iff] at ha ⊢
    obtain ⟨p, hp, h1, h2⟩ := ha
    simp only [List.mem_singleton] at hp
    subst hp
    exact ⟨(0x10, 0x40), List.mem_singleton.mpr rfl, by simp only at h1 ⊢; omega,
      by simp only at h2 ⊢; omega⟩
  exact ⟨hc, (nested_filter scenarioStmts [(0x10, 0x40)] [(0x20, 0x30)]).1 hc, by decide⟩

/-- C20: both filters give order-preserving sublists of `S`; so when `S` is
non-decreasing by address the two visible sets that `dovar` builds are
non-decreasing by address before the sort (which then changes nothing); and
the two filters commute. -/
theorem filters_sublist_commute (S : List LineEntry) (ranges : List (Nat × Nat)) (D : Int) :
    List.Sublist (filterInsideRanges S ranges) S ∧
    List.Sublist (filterAfterLine S D) S ∧
    (SortedByAddress S →
      SortedByAddress (filterAfterLine S D) ∧
      SortedByAddress (filterAfterLine (filterInsideRanges S ranges) D) ∧
      sortByAddress (filterAfterLine S D) = filterAfterLine S D ∧
      sortByAddress (filterAfterLine (filterInsideRanges S ranges) D)
        = filterAfterLine (filterInsideRanges S ranges) D) ∧
    filterAfterLine (filterInsideRanges S ranges) D
      = filterInsideRanges (filterAfterLine S D) ranges := by
  have h1 : List.Sublist (filterInsideRanges S ranges) S := by
    rw [filterInsideRanges_eq_filter]; exact List.filter_sublist _
  have h2 : List.Sublist (filterAfterLine S D) S := by
    rw [filterAfterLine_eq_filter]; exact List.filter_sublist _
  have h3 : List.Sublist (filterAfterLine (filterInsideRanges S ranges) D) S := by
    rw [filterAfterLine_eq_filter]
    exact (List.filter_sublist _).trans h1
  have hsort : ∀ l : List LineEntry, SortedByAddress l → sortByAddress l = l := by
    intro l hl
    unfold sortByAddress
    apply List.Sorted.insertionSort_eq
    exact List.Pairwise.imp (fun {a b} hab => by simpa [stmtsByAddressLess] using hab) hl
  refine ⟨h1, h2, ?_, filters_commute S ranges D⟩
  intro hS
  exact ⟨hS.sublist h2, hS.sublist h3, hsort _ (hS.sublist h2), hsort _ (hS.sublist h3)⟩

/-- Witness of C20 on the scenario's statement sequence, which is non-decreasing by
address. -/
theorem filters_sublist_commute_witness :
    SortedByAddress scenarioStmts ∧
    SortedByAddress (filterAfterLine scenarioStmts 5) ∧
    SortedByAddress (filterAfterLine (filterInsideRanges scenarioStmts [(0x20, 0x40)]) 5) ∧
    sortByAddress (filterAfterLine scenarioStmts 5) = filterAfterLine scenarioStmts 5 ∧
    sortByAddress (filterAfterLine (filterInsideRanges scenarioStmts [(0x20, 0x40)]) 5)
      = filterAfterLine (filterInsideRanges scenarioStmts [(0x20, 0x40)]) 5 :=
  ⟨by decide, (filters_sublist_commute scenarioStmts [(0x20, 0x40)] 5).2.2.1 (by decide)⟩

end LoclistCheck
